import Mathlib

/-!
# no-more-intros: overlap-save correlation kernel and similarity primitives

A shallow embedding of `src/signals.h`, `src/signals.cpp` and `src/findsound.cpp`.

* A `FloatSignal` is a `List α`; samples live in a linearly ordered field `α`
  (exact arithmetic: `ℚ` for evaluation, `ℝ` for statements that need a square root).
* `size_t` values are `Nat`; the one subtraction of the kernel that could wrap
  (`copy_size` in `extractResult`) is computed in `Int` so that wrapping is observable.
* Operations that can throw or trip an assertion return `Option`.
-/

set_option linter.unusedSectionVars false
set_option linter.unusedVariables false

namespace NoMoreIntros

open Finset

variable {α : Type} [LinearOrderedField α]

/-! ## signals.cpp / signals.h -/

/-- The value of the source's `Pow2Ceil(x) = (size_t)pow(2, ceil(log2(x)))` in exact
arithmetic: `⌈log₂ x⌉` is `Nat.clog 2 x` for `x ≥ 1`; for `x = 0`, `log2` is `-∞` and
`pow(2, -∞)` is `0`.  The source evaluates the expression in double precision, which is
`Pow2CeilDouble` below; the two agree for every `x ≤ 2^49` (`Pow2CeilDouble_eq`), which
covers the length of every signal that fits in memory, and differ at `x = 2^49 + 1`
(`Pow2CeilDouble_at_two_pow_49_add_one`). -/
def Pow2Ceil (x : Nat) : Nat :=
  if x = 0 then 0 else 2 ^ Nat.clog 2 x

/-- Source: `check_a_less_equal_b(a, b)`: `none` stands for the thrown `runtime_error` (`a > b`). -/
def check_a_less_equal_b (a b : Nat) : Option Unit :=
  if a > b then none else some ()

/-- Source: `FloatSignal(data, size, pad_bef, pad_aft)`: a zeroed buffer of
`size + pad_bef + pad_aft` samples with `data` copied at offset `pad_bef`. -/
def paddedSignal (data : List α) (pad_bef pad_aft : Nat) : List α :=
  List.replicate pad_bef 0 ++ data ++ List.replicate pad_aft 0

/-- Source: `FloatSignal(&buf[i], size)`: a copy of `size` samples starting at offset `i`. -/
def window (buf : List α) (i size : Nat) : List α :=
  (buf.drop i).take size

/-- Exact-arithmetic model of one chunk of `__execute(true)`: forward FFT of the chunk
and of the padded patch, `SpectralCorrelation` (`a * conj b`), backward FFT and division
by `X`.  By the correlation theorem of the DFT this is the length-`X` circular
cross-correlation of the chunk with the padded patch. -/
def circularXcorr (chunk patch : List α) : List α :=
  (List.range chunk.length).map fun n =>
    ∑ m in range chunk.length, chunk.getD ((n + m) % chunk.length) 0 * patch.getD m 0

/-- Exact-arithmetic model of one chunk of `__execute(false)`: forward FFTs,
`SpectralConvolution` (`a * b`), backward FFT and division by `X`, i.e. the length-`X`
circular convolution of the chunk with the padded patch. -/
def circularConv (chunk patch : List α) : List α :=
  (List.range chunk.length).map fun n =>
    ∑ m in range chunk.length,
      chunk.getD ((n + chunk.length - m) % chunk.length) 0 * patch.getD m 0

/-- Source: `OverlapSaveConvolver::State`. -/
inductive State
  | kUninitialized
  | kConv
  | kXcorr
  deriving DecidableEq, Repr

/-- The members of `OverlapSaveConvolver` (spectra are folded into `circularXcorr` /
`circularConv`; the plan vectors are kept as their sizes). -/
structure OverlapSaveConvolver (α : Type) where
  signal_size_ : Nat
  patch_size_ : Nat
  result_size_ : Nat
  padded_patch_ : List α
  result_chunksize_ : Nat
  result_chunksize_complex_ : Nat
  result_stride_ : Nat
  padded_signal_ : List α
  s_chunks_ : List (List α)
  result_chunks_ : List (List α)
  forward_plans_ : Nat
  backward_plans_ : Nat
  state_ : State

/-- The constructor's chunking loop
`for (i = 0; i <= padded_signal_.getSize() - result_chunksize_; i += result_stride_)`,
with `fuel` bounding the number of iterations. -/
def chunkLoop (padded : List α) (X L : Nat) : Nat → Nat → List (List α)
  | 0, _ => []
  | fuel + 1, i =>
    if i ≤ padded.length - X then
      window padded i X :: chunkLoop padded X L fuel (i + L)
    else []

/-- Source: `CheckRealComplexRatio(real_size, complex_size)`: `none` stands for the thrown
`runtime_error` (`complex_size != real_size / 2 + 1`). -/
def CheckRealComplexRatio (real_size complex_size : Nat) : Option Unit :=
  if complex_size ≠ real_size / 2 + 1 then none else some ()

/-- The constructor's plan loop: for every signal chunk one `FftForwardPlan` (chunk and
its spectrum) and one `FftBackwardPlan` (result spectrum and result chunk), each running
`CheckRealComplexRatio` on buffers of `real_size` and `complex_size` entries.  Returns the
number of chunks handled. -/
def planLoop (real_size complex_size : Nat) : List (List α) → Option Nat
  | [] => some 0
  | _ :: rest =>
    (CheckRealComplexRatio real_size complex_size).bind fun _ =>
      (CheckRealComplexRatio real_size complex_size).bind fun _ =>
        (planLoop real_size complex_size rest).map fun n => n + 1

/-- Source: `OverlapSaveConvolver::OverlapSaveConvolver(signal, patch)`; `none` when
`check_a_less_equal_b(patch_size_, signal_size_)` or a plan's `CheckRealComplexRatio`
throws.  Sizes are natural numbers: for an empty patch the source's `patch_size_ - 1`
wraps around, which this model does not follow. -/
def OverlapSaveConvolver.new (signal patch : List α) : Option (OverlapSaveConvolver α) :=
  let signal_size_ := signal.length
  let patch_size_ := patch.length
  let result_size_ := signal_size_ + patch_size_ - 1
  let padded_patch_ := paddedSignal patch 0 (2 * Pow2Ceil patch_size_ - patch_size_)
  let result_chunksize_ := padded_patch_.length
  let result_chunksize_complex_ := result_chunksize_ / 2 + 1
  let result_stride_ := result_chunksize_ - patch_size_ + 1
  let padded_signal_ := paddedSignal signal (patch_size_ - 1)
    (result_chunksize_ - (result_size_ % result_stride_))
  (check_a_less_equal_b patch_size_ signal_size_).bind fun _ =>
    let s_chunks_ := chunkLoop padded_signal_ result_chunksize_ result_stride_
      (padded_signal_.length + 1) 0
    (CheckRealComplexRatio result_chunksize_ result_chunksize_complex_).bind fun _ =>
      (planLoop result_chunksize_ result_chunksize_complex_ s_chunks_).bind fun nplans =>
        some
          { signal_size_ := signal_size_
            patch_size_ := patch_size_
            result_size_ := result_size_
            padded_patch_ := padded_patch_
            result_chunksize_ := result_chunksize_
            result_chunksize_complex_ := result_chunksize_complex_
            result_stride_ := result_stride_
            padded_signal_ := padded_signal_
            s_chunks_ := s_chunks_
            result_chunks_ := s_chunks_.map fun _ => List.replicate result_chunksize_ 0
            forward_plans_ := 1 + nplans
            backward_plans_ := nplans
            state_ := State.kUninitialized }

/-- Source: `__execute(cross_correlate)`: every result chunk becomes the circular
cross-correlation (or convolution) of its signal chunk with the padded patch. -/
def OverlapSaveConvolver.execute (c : OverlapSaveConvolver α) (cross_correlate : Bool) :
    OverlapSaveConvolver α :=
  let operation := if cross_correlate then circularXcorr else circularConv
  { c with result_chunks_ := c.s_chunks_.map fun s => operation s c.padded_patch_ }

/-- Source: `executeConv()`. -/
def OverlapSaveConvolver.executeConv (c : OverlapSaveConvolver α) : OverlapSaveConvolver α :=
  { c.execute false with state_ := State.kConv }

/-- Source: `executeXcorr()`. -/
def OverlapSaveConvolver.executeXcorr (c : OverlapSaveConvolver α) : OverlapSaveConvolver α :=
  { c.execute true with state_ := State.kXcorr }

/-- Source: `__check_last_executed_not_null`: `none` stands for the thrown `runtime_error`. -/
def OverlapSaveConvolver.check_last_executed_not_null (c : OverlapSaveConvolver α) :
    Option Unit :=
  if c.state_ = State.kUninitialized then none else some ()

/-- Source: `memcpy(dst + dstOff, src + srcOff, sizeof(float) * n)`; `none` when either range
leaves its buffer (undefined behaviour in the source). -/
def memcpy (dst : List α) (dstOff : Nat) (src : List α) (srcOff n : Nat) : Option (List α) :=
  if dstOff + n ≤ dst.length ∧ srcOff + n ≤ src.length then
    some (dst.take dstOff ++ (src.drop srcOff).take n ++ dst.drop (dstOff + n))
  else none

/-- The `copy_size` of chunk `i` in `extractResult`, computed in `Int`:
`result_stride_` minus the excess of `kBegin + result_stride_` over `result_size_`. -/
def copySize (L U i : Nat) : Int :=
  (L : Int) - (if i * L + L > U then ((i * L + L - U : Nat) : Int) else 0)

/-- The discard offset chosen by `extractResult`: `X - L` after `executeConv`, else `0`. -/
def OverlapSaveConvolver.discardOffset (c : OverlapSaveConvolver α) : Nat :=
  if c.state_ = State.kConv then c.result_chunksize_ - c.result_stride_ else 0

/-- The filling loop of `extractResult` over the result chunks, `i` being the chunk
index; `none` if `copy_size` would wrap or a `memcpy` leaves its buffers. -/
def extractLoop (L U discard_offset : Nat) : List (List α) → Nat → List α → Option (List α)
  | [], _, result => some result
  | xc :: rest, i, result =>
    if copySize L U i < 0 then none
    else
      (memcpy result (i * L) xc discard_offset (copySize L U i).toNat).bind
        (extractLoop L U discard_offset rest (i + 1))

/-- Source: `extractResult()`. -/
def OverlapSaveConvolver.extractResult (c : OverlapSaveConvolver α) : Option (List α) :=
  c.check_last_executed_not_null.bind fun _ =>
    extractLoop c.result_stride_ c.result_size_ c.discardOffset c.result_chunks_ 0
      (List.replicate c.result_size_ 0)

/-- Source: `printChunks()`: the result chunks that get printed; `none` when
`__check_last_executed_not_null` throws. -/
def OverlapSaveConvolver.printChunks (c : OverlapSaveConvolver α) : Option (List (List α)) :=
  c.check_last_executed_not_null.bind fun _ => some c.result_chunks_

/-- The two state-changing calls a client can make on a convolver. -/
inductive ExecuteCall
  | conv
  | xcorr
  deriving DecidableEq, Repr

/-- One call: `executeConv()` or `executeXcorr()`. -/
def OverlapSaveConvolver.call (c : OverlapSaveConvolver α) : ExecuteCall → OverlapSaveConvolver α
  | ExecuteCall.conv => c.executeConv
  | ExecuteCall.xcorr => c.executeXcorr

/-- A sequence of execute calls, applied from left to right. -/
def OverlapSaveConvolver.calls (c : OverlapSaveConvolver α) (ops : List ExecuteCall) :
    OverlapSaveConvolver α :=
  ops.foldl OverlapSaveConvolver.call c

/-- The state named after an execute call. -/
def ExecuteCall.state : ExecuteCall → State
  | ExecuteCall.conv => State.kConv
  | ExecuteCall.xcorr => State.kXcorr

/-- Source: `FloatSignal::operator-=`. -/
def subScalar (s : List α) (x : α) : List α := s.map fun v => v - x

/-- Source: `FloatSignal::operator/=`. -/
def divScalar (s : List α) (x : α) : List α := s.map fun v => v / x

/-- Source: `FloatSignal::mean`: the sum of the samples divided by the size. -/
def mean (s : List α) : α := s.sum / (s.length : α)

/-- Source: `FloatSignal::std`: `sqrtf` of the mean of `fabs(x - mean)²`; the square root is a
parameter (`Real.sqrt` in exact arithmetic). -/
def std (sqrtf : α → α) (s : List α) : α :=
  sqrtf ((s.map fun v => |v - mean s| * |v - mean s|).sum / (s.length : α))

/-! ## findsound.h / findsound.cpp -/

/-- Source: `SAMPLE_RATE`. -/
def SAMPLE_RATE : Nat := 1024

/-- Source: `struct CorrelateResult`. -/
structure CorrelateResult (α : Type) where
  sampleIdx : Nat
  value : α
  timestamp : α

/-- One iteration of the scan in `bestPatchPosition`; the accumulator is `(max, maxIdx)`. -/
def scanStep (data : List α) (patchSize : Nat) (acc : α × Nat) (i : Nat) : α × Nat :=
  if data.getD i 0 > acc.1 then (data.getD i 0, i - patchSize) else acc

/-- The scan `for (i = patchSize; i < xcorrSize; ++i)` of `bestPatchPosition`, started
from `max = 0`, `maxIdx = 0`. -/
def scanMax (data : List α) (patchSize xcorrSize : Nat) : α × Nat :=
  (List.range' patchSize (xcorrSize - patchSize)).foldl (scanStep data patchSize) (0, 0)

/-- Source: `FindSound::bestPatchPosition`; `none` when the assertion
`source->getSize() >= patch->getSize()` (or the constructor's check) fails. -/
def bestPatchPosition (source patch : List α) : Option (CorrelateResult α) :=
  if source.length < patch.length then none
  else
    (OverlapSaveConvolver.new source patch).bind fun x =>
      x.executeXcorr.extractResult.bind fun xcorr =>
        let r := scanMax xcorr patch.length xcorr.length
        some { sampleIdx := r.2, value := r.1, timestamp := (r.2 : α) / (SAMPLE_RATE : α) }

/-- The first normalised copy in `howCloseAreSignals`:
`a = FloatSignal(data, size); a -= a.mean(); a /= (a.std() * size)`. -/
def normalizedA (sqrtf : α → α) (data : List α) (size : Nat) : List α :=
  let a := subScalar (data.take size) (mean (data.take size))
  divScalar a (std sqrtf a * (size : α))

/-- The second normalised copy in `howCloseAreSignals`:
`b = FloatSignal(data, size); b -= b.mean(); b /= b.std()`. -/
def normalizedB (sqrtf : α → α) (data : List α) (size : Nat) : List α :=
  let b := subScalar (data.take size) (mean (data.take size))
  divScalar b (std sqrtf b)

/-- Source: `FindSound::howCloseAreSignals`. -/
def howCloseAreSignals (sqrtf : α → α) (one two : List α) : Option (CorrelateResult α) :=
  let size := min one.length two.length
  (bestPatchPosition (normalizedA sqrtf one size) (normalizedB sqrtf two size)).bind
    fun resultA =>
      (bestPatchPosition (normalizedA sqrtf two size) (normalizedB sqrtf one size)).bind
        fun resultB =>
          some (if resultA.value > resultB.value then resultA else resultB)

/-- Source: `FindSound::signalSlice`; `none` when `assert(signal->getSize() > startSampleIdx)`
trips.  The casts `(size_t)(t * SAMPLE_RATE)` are floors (the times are non-negative);
`size` wraps modulo `2^64` when `endSampleIdx < startSampleIdx`. -/
def signalSlice [FloorRing α] (signal : List α) (start end_ : α) : Option (List α) :=
  let startSampleIdx := ⌊start * (SAMPLE_RATE : α)⌋₊
  let endSampleIdx := ⌊end_ * (SAMPLE_RATE : α)⌋₊
  let size :=
    if startSampleIdx ≤ endSampleIdx then endSampleIdx - startSampleIdx
    else 2 ^ 64 - (startSampleIdx - endSampleIdx)
  if signal.length > startSampleIdx then
    if signal.length < startSampleIdx + size then
      memcpy (List.replicate size 0) 0 signal startSampleIdx (signal.length - startSampleIdx)
    else some (window signal startSampleIdx size)
  else none

/-- Source: `SOURCE_END` (seconds). -/
def SOURCE_END : Nat := 600

/-- Source: `ACCEPTANCE_THRESHOLD`. -/
def ACCEPTANCE_THRESHOLD (α : Type) [LinearOrderedField α] : α := 0.8

/-- Source: `struct IntroInfo`; a null `intro` pointer is `none`. -/
structure IntroInfo (α : Type) where
  startTime : α
  endTime : α
  matchPercent : α
  intro : Option (List α)
  otherStartTime : α
  otherEndTime : α

/-- Source: `struct FileSignal`. -/
structure FileSignal (α : Type) where
  signal : List α
  file : String

/-- Source: `struct FindSoundResult`. -/
structure FindSoundResult (α : Type) where
  file : String
  index : Nat
  introInfo : IntroInfo α
  isProgress : Bool
  isBetter : Bool
  isSourceOfIntro : Bool

/-- A default-constructed `IntroInfo` (`intro = nullptr`, other times `0`; the
uninitialised floats are taken as `0`). -/
def IntroInfo.blank (α : Type) [LinearOrderedField α] : IntroInfo α :=
  { startTime := 0, endTime := 0, matchPercent := 0, intro := none,
    otherStartTime := 0, otherEndTime := 0 }

/-- The acceptance test of `nextBestIntro`, with `minLength = 20`:
`matchPercent >= ACCEPTANCE_THRESHOLD && !tooCloseToEnd && !tooShort`. -/
def seedAccepted (introInfo : IntroInfo α) : Bool :=
  let tooCloseToEnd := decide (introInfo.endTime ≥ ((SOURCE_END - 20 : Nat) : α)) ||
    decide (introInfo.otherEndTime ≥ ((SOURCE_END - 20 : Nat) : α))
  let tooShort := decide (introInfo.endTime - introInfo.startTime ≤ ((20 : Nat) : α))
  decide (introInfo.matchPercent ≥ ACCEPTANCE_THRESHOLD α) && !tooCloseToEnd && !tooShort

/-- The loop `for (i = start; i < fileSignals.size() - 1; ++i)` of `nextBestIntro`, with
the number of remaining iterations as first argument.  `getIntroFromPair` is the pair
extractor; `none` when it, `signalSlice` or an element access fails. -/
def nextBestIntroFrom [FloorRing α]
    (getIntroFromPair : List α → List α → Option (IntroInfo α))
    (fileSignals : List (FileSignal α)) (result : IntroInfo α) :
    Nat → Nat → Option (Int × IntroInfo α)
  | 0, _ => some (-1, result)
  | n + 1, i =>
    match fileSignals[i]?, fileSignals[i + 1]? with
    | some fi, some fj =>
      (getIntroFromPair fi.signal fj.signal).bind fun introInfo =>
        if seedAccepted introInfo then
          (signalSlice fi.signal introInfo.startTime introInfo.endTime).bind fun intro =>
            some ((i : Int), { introInfo with intro := some intro })
        else nextBestIntroFrom getIntroFromPair fileSignals result n (i + 1)
    | _, _ => none

/-- Source: `FindSound::nextBestIntro(fileSignals, result, start)`: the returned `int`
together with the value left in `*result`.  For an empty list `size() - 1` wraps and the
loop reads out of bounds (`none`); a negative `start` wraps to an index past the end. -/
def nextBestIntro [FloorRing α]
    (getIntroFromPair : List α → List α → Option (IntroInfo α))
    (fileSignals : List (FileSignal α)) (result : IntroInfo α) (start : Int) :
    Option (Int × IntroInfo α) :=
  if fileSignals.length = 0 then none
  else if start < 0 then some (-1, result)
  else
    nextBestIntroFrom getIntroFromPair fileSignals result
      (fileSignals.length - 1 - start.toNat) start.toNat

/-- The scoring of one file against the seed intro in `FindSoundTask::run`
(`bestPatchPosition`, `signalSlice`, `howCloseAreSignals`): start time, end time and
score. -/
def evaluateFile [FloorRing α] (sqrtf : α → α) (fileSignal : FileSignal α)
    (introInfo : IntroInfo α) : Option (α × α × α) :=
  introInfo.intro.bind fun intro =>
    (bestPatchPosition fileSignal.signal intro).bind fun find =>
      let startTime := find.timestamp
      let endTime := startTime + introInfo.endTime - introInfo.startTime
      (signalSlice fileSignal.signal startTime endTime).bind fun otherIntro =>
        (howCloseAreSignals sqrtf otherIntro intro).bind fun howClose =>
          some (startTime, endTime, howClose.value)

/-- The local variables of `FindSoundTask::run`, and the results emitted so far. -/
structure Discovery (α : Type) where
  rest : List (FileSignal α)
  bestMatches : String → α
  badStreak : Nat
  lastBestIntroIdx : Int
  emitted : List (FindSoundResult α)

/-- The body of the per-file loop of `FindSoundTask::run` for file `i`; the flag tells
whether the loop is left by `break`.  `evaluate` is the scoring of a file against the
intro (`evaluateFile` in the source). -/
def sweepFile (evaluate : FileSignal α → IntroInfo α → Option (α × α × α))
    (fileSignals : List (FileSignal α)) (introInfo : IntroInfo α) (st : Discovery α)
    (i : Nat) (fileSignal : FileSignal α) : Option (Discovery α × Bool) :=
  let bestValue := st.bestMatches fileSignal.file
  if bestValue ≥ 0.9 then some (st, false)
  else
    (evaluate fileSignal introInfo).bind fun howClose =>
      fileSignals[st.lastBestIntroIdx.toNat]?.bind fun seedFile =>
        let value := howClose.2.2
        let isBetter := decide (bestValue < value)
        let bestMatches : String → α :=
          if bestValue < value then
            fun k => if k = fileSignal.file then value else st.bestMatches k
          else st.bestMatches
        let isProgress :=
          decide (bestValue < ACCEPTANCE_THRESHOLD α ∧ value ≥ ACCEPTANCE_THRESHOLD α)
        let rest :=
          if bestValue < ACCEPTANCE_THRESHOLD α ∧ value ≥ ACCEPTANCE_THRESHOLD α then st.rest
          else if value < ACCEPTANCE_THRESHOLD α ∧ bestValue < ACCEPTANCE_THRESHOLD α then
            st.rest ++ [fileSignal]
          else st.rest
        let result : FindSoundResult α :=
          { file := fileSignal.file
            index := i
            introInfo :=
              { startTime := howClose.1, endTime := howClose.2.1, matchPercent := value,
                intro := none, otherStartTime := 0, otherEndTime := 0 }
            isProgress := isProgress
            isBetter := isBetter
            isSourceOfIntro := decide (fileSignal.file = seedFile.file) }
        let badStreak := if value < 0.2 ∧ bestValue = 0 then st.badStreak + 1 else 0
        if badStreak ≥ 5 then
          some
            ({ rest := fileSignals.filter fun f =>
                 decide (bestMatches f.file < ACCEPTANCE_THRESHOLD α)
               bestMatches := bestMatches
               badStreak := badStreak
               lastBestIntroIdx := st.lastBestIntroIdx
               emitted := st.emitted ++ [result] }, true)
        else
          some
            ({ rest := rest
               bestMatches := bestMatches
               badStreak := badStreak
               lastBestIntroIdx := st.lastBestIntroIdx
               emitted := st.emitted ++ [result] }, false)

/-- The per-file loop `for (i = 0; i < fileSignals.size(); ++i)` of `FindSoundTask::run`
over the files still to visit, `i` being the index of the first of them. -/
def sweep (evaluate : FileSignal α → IntroInfo α → Option (α × α × α))
    (fileSignals : List (FileSignal α)) (introInfo : IntroInfo α) :
    List (FileSignal α) → Nat → Discovery α → Option (Discovery α)
  | [], _, st => some st
  | fileSignal :: more, i, st =>
    (sweepFile evaluate fileSignals introInfo st i fileSignal).bind fun r =>
      if r.2 then some r.1 else sweep evaluate fileSignals introInfo more (i + 1) r.1

/-- How a loop stands: left normally, still running, or aborted by a failed assertion. -/
inductive Loop (σ : Type)
  | finished (s : σ)
  | running (s : σ)
  | failed

/-- One pass through the body of `while (rest.size() > 1)` in `FindSoundTask::run`. -/
def outerIteration [FloorRing α]
    (getIntroFromPair : List α → List α → Option (IntroInfo α))
    (evaluate : FileSignal α → IntroInfo α → Option (α × α × α))
    (fileSignals : List (FileSignal α)) (st : Discovery α) : Loop (Discovery α) :=
  if st.rest.length > 1 then
    match nextBestIntro getIntroFromPair st.rest (IntroInfo.blank α) st.lastBestIntroIdx with
    | none => Loop.failed
    | some (idx, introInfo) =>
      if idx < 0 then Loop.finished { st with badStreak := 0, lastBestIntroIdx := idx }
      else
        match sweep evaluate fileSignals introInfo fileSignals 0
            { st with badStreak := 0, lastBestIntroIdx := idx, rest := [] } with
        | none => Loop.failed
        | some st1 => Loop.running st1
  else Loop.finished st

/-- The `while` loop of `FindSoundTask::run`, followed for at most `fuel` passes:
`running` means the loop has not been left after `fuel` passes. -/
def outerLoop [FloorRing α]
    (getIntroFromPair : List α → List α → Option (IntroInfo α))
    (evaluate : FileSignal α → IntroInfo α → Option (α × α × α))
    (fileSignals : List (FileSignal α)) : Nat → Discovery α → Loop (Discovery α)
  | 0, st => Loop.running st
  | fuel + 1, st =>
    match outerIteration getIntroFromPair evaluate fileSignals st with
    | Loop.running st1 => outerLoop getIntroFromPair evaluate fileSignals fuel st1
    | Loop.finished st1 => Loop.finished st1
    | Loop.failed => Loop.failed

/-- The locals of `FindSoundTask::run` before the loop. -/
def Discovery.init (fileSignals : List (FileSignal α)) : Discovery α :=
  { rest := fileSignals, bestMatches := fun _ => 0, badStreak := 0, lastBestIntroIdx := 0,
    emitted := [] }

/-- The trailing result of `FindSoundTask::run`: only `isProgress = true` and
`isBetter = false` are set (the other members are left default). -/
def progressOnly (α : Type) [LinearOrderedField α] : FindSoundResult α :=
  { file := "", index := 0, introInfo := IntroInfo.blank α, isProgress := true,
    isBetter := false, isSourceOfIntro := false }

/-- Source: `FindSoundTask::run`: the results emitted, the loop being followed for at most
`fuel` passes. -/
def FindSoundTask.run [FloorRing α]
    (getIntroFromPair : List α → List α → Option (IntroInfo α))
    (evaluate : FileSignal α → IntroInfo α → Option (α × α × α))
    (fileSignals : List (FileSignal α)) (fuel : Nat) : Loop (List (FindSoundResult α)) :=
  match outerLoop getIntroFromPair evaluate fileSignals fuel (Discovery.init fileSignals) with
  | Loop.finished st => Loop.finished (st.emitted ++ st.rest.map fun _ => progressOnly α)
  | Loop.running st => Loop.running st.emitted
  | Loop.failed => Loop.failed

/-! ## Reference notions the code is compared with -/

/-- The seed conditions of the specification: `match_percent ≥ 0.8`, `end < 580`,
`other_end < 580` and `end - start > 20`. -/
def qualifies (introInfo : IntroInfo α) : Prop :=
  introInfo.matchPercent ≥ 0.8 ∧ introInfo.endTime < 580 ∧ introInfo.otherEndTime < 580 ∧
    introInfo.endTime - introInfo.startTime > 20

/-- Scenario: an outcome of the pair extractor that qualifies as a seed
(`start = 0`, `end = 30`, `match = 0.9`, `other_end = 30`). -/
def seedInfo : IntroInfo ℚ :=
  { startTime := 0, endTime := 30, matchPercent := 0.9, intro := none,
    otherStartTime := 0, otherEndTime := 30 }

/-- Scenario: a pair extractor for which every pair qualifies as a seed. -/
def alwaysSeed : List ℚ → List ℚ → Option (IntroInfo ℚ) := fun _ _ => some seedInfo

/-- Scenario: a pair extractor for which no pair qualifies (`match = 0`). -/
def neverSeed : List ℚ → List ℚ → Option (IntroInfo ℚ) :=
  fun _ _ => some (IntroInfo.blank ℚ)

/-- Scenario: a scoring primitive whose score depends on the file only. -/
def scoreByFile (score : String → ℚ) : FileSignal ℚ → IntroInfo ℚ → Option (ℚ × ℚ × ℚ) :=
  fun fileSignal _ => some (0, 30, score fileSignal.file)

/-- Scenario: a scoring primitive for which every file scores `0`. -/
def zeroScore : FileSignal ℚ → IntroInfo ℚ → Option (ℚ × ℚ × ℚ) := scoreByFile fun _ => 0

/-- Scenario: a file with the one-sample signal `[1]`. -/
def fileNamed (name : String) : FileSignal ℚ := { signal := [1], file := name }

/-- The scores computed so far for a file: the `matchPercent` of every emitted result
that carries its path. -/
def scoresOf (file : String) (results : List (FindSoundResult α)) : List α :=
  (results.filter fun r => decide (r.file = file)).map fun r => r.introInfo.matchPercent

/-- The maximum of `0` and every score computed so far for a file. -/
def bestSoFar (file : String) (results : List (FindSoundResult α)) : α :=
  (scoresOf file results).foldl max 0

/-- The bookkeeping invariant of discovery: every stored best is the maximum of `0` and
the scores emitted so far for that file, and every emitted result has `isBetter` exactly
when its score is strictly greater than that maximum over the results emitted before. -/
def bestInvariant (st : Discovery α) : Prop :=
  (∀ f, st.bestMatches f = bestSoFar f st.emitted) ∧
  (∀ k r, st.emitted[k]? = some r →
    r.isBetter = decide (bestSoFar r.file (st.emitted.take k) < r.introInfo.matchPercent))

/-- A sweep result with start time `0`, end time `30` and the given members. -/
def sourceResult (file : String) (i : Nat) (score : ℚ) (isProgress isBetter isSource : Bool) :
    FindSoundResult ℚ :=
  FindSoundResult.mk file i (IntroInfo.mk 0 30 score none 0 0) isProgress isBetter isSource

/-- The chunk size `X = 2 * Pow2Ceil(P)` of the class comment. -/
def chunkSize (P : Nat) : Nat := 2 * Pow2Ceil P

/-- The stride `L = X - (P - 1)` of the class comment. -/
def stride (P : Nat) : Nat := chunkSize P - P + 1

/-- The result length `U = S + P - 1` of the class comment. -/
def resultSize (S P : Nat) : Nat := S + P - 1

/-- The signal extended by zero outside `[0, S)`. -/
def sigAt (signal : List α) (k : Int) : α :=
  if 0 ≤ k then signal.getD k.toNat 0 else 0

/-- Direct cross-correlation at lag `k`: `Σ_{j<P} patch[j] · signal[k + j]`. -/
def directXcorr (signal patch : List α) (k : Int) : α :=
  ∑ j in range patch.length, patch.getD j 0 * sigAt signal (k + j)

/-- Direct linear convolution at index `n`: `Σ_{m<P} patch[m] · signal[n - m]`. -/
def directConv (signal patch : List α) (n : Int) : α :=
  ∑ m in range patch.length, patch.getD m 0 * sigAt signal (n - m)

/-- The source of the "known shift" scenario: `8192` samples, `1` on samples
`2000 .. 2256` and `0` elsewhere. -/
def knownShiftSource : List ℚ :=
  List.replicate 2000 0 ++ List.replicate 257 1 ++ List.replicate 5935 0

/-- The patch of the "known shift" scenario: `256` ones. -/
def knownShiftPatch : List ℚ := List.replicate 256 1

/-- A signal is non-constant when two of its samples differ. -/
def nonConstant (s : List α) : Prop := ∃ x ∈ s, ∃ y ∈ s, x ≠ y

/-- The Pearson correlation coefficient of two equally long signals:
`Σ (x - x̄)(y - ȳ) / (sqrt(Σ (x - x̄)²) · sqrt(Σ (y - ȳ)²))`. -/
def pearson (sqrtf : α → α) (a b : List α) : α :=
  (List.zipWith (fun x y => (x - mean a) * (y - mean b)) a b).sum /
    (sqrtf ((a.map fun x => (x - mean a) * (x - mean a)).sum) *
      sqrtf ((b.map fun y => (y - mean b) * (y - mean b)).sum))

/-- The dot product `Σ_j a[j] · b[j]` of two signals. -/
def dot (a b : List α) : α := (List.zipWith (fun x y => x * y) a b).sum

/-- Source: `CheckAllEqual(beg, end)`: walks the adjacent pairs and throws (`none`) at the
first pair that differs. -/
def CheckAllEqual : List Nat → Option Unit
  | [] => some ()
  | [_] => some ()
  | x :: y :: rest => if x = y then CheckAllEqual (y :: rest) else none

/-- The loop of `SpectralConvolution`: for `i < size`, `result[i]` is overwritten with
`(a.re b.re - a.im b.im, a.im b.re + a.re b.im)`; complex samples are `(REAL, IMAG)` pairs. -/
def convolutionLoop (a b result : List (α × α)) (size : Nat) : List (α × α) :=
  (List.range size).foldl (fun r i =>
    r.set i ((a.getD i 0).1 * (b.getD i 0).1 - (a.getD i 0).2 * (b.getD i 0).2,
      (a.getD i 0).2 * (b.getD i 0).1 + (a.getD i 0).1 * (b.getD i 0).2)) result

/-- The loop of `SpectralCorrelation`: for `i < size`, `result[i]` is overwritten with
`(a.re b.re + a.im b.im, a.im b.re - a.re b.im)`. -/
def correlationLoop (a b result : List (α × α)) (size : Nat) : List (α × α) :=
  (List.range size).foldl (fun r i =>
    r.set i ((a.getD i 0).1 * (b.getD i 0).1 + (a.getD i 0).2 * (b.getD i 0).2,
      (a.getD i 0).2 * (b.getD i 0).1 - (a.getD i 0).1 * (b.getD i 0).2)) result

/-- Source: `SpectralConvolution(a, b, result)`: the contents of `result` afterwards;
`none` when `CheckAllEqual` throws. -/
def SpectralConvolution (a b result : List (α × α)) : Option (List (α × α)) :=
  (CheckAllEqual [a.length, b.length, result.length]).bind fun _ =>
    some (convolutionLoop a b result a.length)

/-- Source: `SpectralCorrelation(a, b, result)`: the contents of `result` afterwards;
`none` when `CheckAllEqual` throws. -/
def SpectralCorrelation (a b result : List (α × α)) : Option (List (α × α)) :=
  (CheckAllEqual [a.length, b.length, result.length]).bind fun _ =>
    some (correlationLoop a b result a.length)

/-- Source: `struct IntroChunkSearchResult`. -/
structure IntroChunkSearchResult (α : Type) where
  startTime : α
  endTime : α
  patchStart : Nat
  patchEnd : Nat

/-- The body of the clustering loop of `getChunkSearchResults` for result `i`; the state is
`(contiguousBlocks, currentBlockIdx)`.  `patchDuration` is taken non-negative. -/
def clusterStep (valueMean : α) (patchDuration : Nat)
    (st : List (IntroChunkSearchResult α) × Nat) (ir : Nat × CorrelateResult α) :
    List (IntroChunkSearchResult α) × Nat :=
  if ir.2.value < valueMean then st
  else
    let current := st.1.getD st.2 ⟨0, 0, 0, 0⟩
    let timespan := |ir.2.timestamp - current.endTime|
    if timespan < ((patchDuration + 1 : Nat) : α) then
      (st.1.set st.2 { current with
        endTime := max ir.2.timestamp current.endTime
        patchEnd := ir.1 * patchDuration }, st.2)
    else if ir.2.timestamp > current.startTime ∧ ir.2.timestamp < current.endTime then
      (st.1.set st.2 { current with
        endTime := current.endTime + (patchDuration : α)
        patchEnd := ir.1 * patchDuration }, st.2)
    else
      (st.1 ++ [⟨ir.2.timestamp, ir.2.timestamp, ir.1 * patchDuration, ir.1 * patchDuration⟩],
        st.2 + 1)

/-- The mean `valueSum / soundFindResults.size()` of `getChunkSearchResults`. -/
def valueMean (soundFindResults : List (CorrelateResult α)) : α :=
  (soundFindResults.map fun r => r.value).sum / (soundFindResults.length : α)

/-- The `contiguousBlocks` built by the single pass of `getChunkSearchResults`; `none` for
an empty result list (`soundFindResults[0]` is read). -/
def clusterBlocks (soundFindResults : List (CorrelateResult α)) (patchDuration : Nat) :
    Option (List (IntroChunkSearchResult α)) :=
  match soundFindResults with
  | [] => none
  | first :: _ =>
    some (soundFindResults.enum.foldl (clusterStep (valueMean soundFindResults) patchDuration)
      ([⟨first.timestamp, first.timestamp, 0, 0⟩], 0)).1

/-- The body of the loop that picks `maxBlock` in `getChunkSearchResults`. -/
def maxBlockStep (maxBlock block : IntroChunkSearchResult α) : IntroChunkSearchResult α :=
  if block.endTime - block.startTime > maxBlock.endTime - maxBlock.startTime then block
  else maxBlock

/-- Source: `FindSound::getChunkSearchResults`; `none` when
`assert(maxBlock.startTime < maxBlock.endTime)` trips or the result list is empty. -/
def getChunkSearchResults (soundFindResults : List (CorrelateResult α)) (patchDuration : Nat) :
    Option (IntroChunkSearchResult α) :=
  (clusterBlocks soundFindResults patchDuration).bind fun contiguousBlocks =>
    let maxBlock := contiguousBlocks.foldl maxBlockStep ⟨0, 0, 0, 0⟩
    if maxBlock.startTime < maxBlock.endTime then
      some { maxBlock with endTime := maxBlock.endTime + (patchDuration : α) }
    else none

/-- The patch loop `for (i = patchStart; i + patchDuration < patchEnd && i < SOURCE_END;
i += patchDuration)` of `doChunkScan`: the values of `i` for which a patch is sliced, with
the number of remaining iterations bounded by the first argument. -/
def patchLoop (patchEnd patchDuration : Nat) : Nat → Nat → List Nat
  | 0, _ => []
  | fuel + 1, i =>
    if i + patchDuration < patchEnd ∧ i < SOURCE_END then
      i :: patchLoop patchEnd patchDuration fuel (i + patchDuration)
    else []

/-- The patch start times of `doChunkScan` (`patchEnd` iterations are enough when
`patchDuration ≥ 1`; for `patchDuration = 0` the source's loop does not end). -/
def patchStarts (patchStart patchEnd patchDuration : Nat) : List Nat :=
  patchLoop patchEnd patchDuration patchEnd patchStart

/-- The patches `signalSlice(two, i, i + patchDuration)` of `doChunkScan`; `none` when a
slice trips its assertion. -/
def slicePatches [FloorRing α] (two : List α) (patchDuration : Nat) :
    List Nat → Option (List (List α))
  | [] => some []
  | i :: more =>
    (signalSlice two (i : α) ((i + patchDuration : Nat) : α)).bind fun patch =>
      (slicePatches two patchDuration more).bind fun patches => some (patch :: patches)

/-- The loop `results[i] = bestPatchPosition(one, patches.at(i))` of `doChunkScan`. -/
def correlatePatches (one : List α) : List (List α) → Option (List (CorrelateResult α))
  | [] => some []
  | patch :: more =>
    (bestPatchPosition one patch).bind fun result =>
      (correlatePatches one more).bind fun results => some (result :: results)

/-- Source: `FindSound::doChunkScan`; `none` when an assertion trips. -/
def doChunkScan [FloorRing α] (one two : List α) (patchStart patchEnd patchDuration : Nat) :
    Option (IntroChunkSearchResult α) :=
  if patchEnd > patchStart then
    (slicePatches two patchDuration (patchStarts patchStart patchEnd patchDuration)).bind
      fun patches =>
        (correlatePatches one patches).bind fun results =>
          getChunkSearchResults results patchDuration
  else none

/-- Source: `FindSound::getIntroFromPair`; `none` when an assertion trips. -/
def getIntroFromPair [FloorRing α] (sqrtf : α → α) (one two : List α) :
    Option (IntroInfo α) :=
  (doChunkScan one two 0 SOURCE_END 4).bind fun scanResult =>
    let startTime := scanResult.startTime
    let endTime := scanResult.endTime
    (signalSlice one scanResult.startTime scanResult.endTime).bind fun introOne =>
      (bestPatchPosition two introOne).bind fun find =>
        let twoStartTime := find.timestamp
        let twoEndTime := twoStartTime + endTime - startTime
        (signalSlice two twoStartTime twoEndTime).bind fun introTwo =>
          (howCloseAreSignals sqrtf introOne introTwo).bind fun howClose =>
            some
              { startTime := startTime
                endTime := endTime
                matchPercent := howClose.value
                intro := none
                otherStartTime := twoStartTime
                otherEndTime := twoEndTime }

/-- Scenario: two results of equal value at `0 s` and `4 s`. -/
def twoResults : List (CorrelateResult ℚ) := [⟨0, 1, 0⟩, ⟨4096, 1, 4⟩]

/-- Scenario: four results of equal value at `0 s`, `300 s`, `599 s` and `1 s`. -/
def insideResults : List (CorrelateResult ℚ) :=
  [⟨0, 1, 0⟩, ⟨307200, 1, 300⟩, ⟨613376, 1, 599⟩, ⟨1024, 1, 1⟩]

/-- Source: `FindSound::run`: the returned count `(int)fileSignals.size()`. -/
def FindSound.run (fileSignals : List (FileSignal α)) : Nat := fileSignals.length

/-- Source: `FindSound::receiveFindSoundResult`: whether `sendProgress` is emitted, and the
result forwarded through `sendFindSoundResult`, if any. -/
def receiveFindSoundResult (findSoundResult : FindSoundResult α) :
    Bool × Option (FindSoundResult α) :=
  (findSoundResult.isProgress, if findSoundResult.isBetter then some findSoundResult else none)

/-- The number of `sendProgress` emissions caused by a sequence of results. -/
def progressTicks (results : List (FindSoundResult α)) : Nat :=
  (results.map receiveFindSoundResult).countP fun out => out.1

/-- The progress accounting of discovery: the emitted results with `isProgress` are as
many as the files whose stored best has reached the threshold; for every path there is at
most one such result, and exactly one when the stored best of the path has reached the
threshold; and every such result has `isBetter` and a score at or above the threshold. -/
def progressInvariant (files : List (FileSignal α)) (st : Discovery α) : Prop :=
  st.emitted.countP (fun r => r.isProgress) =
    files.countP (fun f => decide (st.bestMatches f.file ≥ ACCEPTANCE_THRESHOLD α)) ∧
  (∀ k, st.emitted.countP (fun r => r.isProgress && decide (r.file = k)) =
    if st.bestMatches k ≥ ACCEPTANCE_THRESHOLD α then 1 else 0) ∧
  (∀ r ∈ st.emitted, r.isProgress = true →
    r.isBetter = true ∧ r.introInfo.matchPercent ≥ ACCEPTANCE_THRESHOLD α)

/-- The progress flags of the emitted sweep results: every stored best is the maximum of
`0` and the scores emitted so far, and a result has `isProgress` exactly when the best
stored before it was below the threshold and its own score is at or above it. -/
def flagInvariant (st : Discovery α) : Prop :=
  bestInvariant st ∧
  ∀ k r, st.emitted[k]? = some r →
    r.isProgress = decide (bestSoFar r.file (st.emitted.take k) < ACCEPTANCE_THRESHOLD α ∧
      r.introInfo.matchPercent ≥ ACCEPTANCE_THRESHOLD α)

/-- Scenario: every file scores `0.85`. -/
def passScore : String → ℚ := fun _ => 0.85

/-- Scenario: the files `A`, `B`. -/
def passFiles : List (FileSignal ℚ) := ["A", "B"].map fileNamed

/-- Scenario: the results of the sweep over `A`, `B` when both score `0.85`. -/
def passResults : List (FindSoundResult ℚ) :=
  [sourceResult "A" 0 0.85 true true true, sourceResult "B" 1 0.85 true true false]

/-- The members `filepaths` and `fileSignals` of `class FindSound`. -/
structure FindSound (α : Type) where
  filepaths : List String
  fileSignals : List (FileSignal α)

/-- A value-initialised `FileSignal` (null signal, empty path), as `resize` appends it. -/
def FileSignal.blank (α : Type) : FileSignal α := { signal := [], file := "" }

/-- Source: `std::vector::resize(n)`: truncate to `n` elements or append value-initialised
ones up to `n`. -/
def resize (fileSignals : List (FileSignal α)) (n : Nat) : List (FileSignal α) :=
  (fileSignals ++ List.replicate (n - fileSignals.length) (FileSignal.blank α)).take n

/-- Source: `FindSound::addFiles`: the new paths are inserted at the front of `filepaths`
(`insert(begin(), …)`) and `fileSignals` is resized to the new number of paths. -/
def FindSound.addFiles (s : FindSound α) (filepaths : List String) : FindSound α :=
  let newPaths := filepaths ++ s.filepaths
  { filepaths := newPaths, fileSignals := resize s.fileSignals newPaths.length }

/-- The search loop `for (i = size - 1; i >= 0; --i)` of `receiveSoundData`, from index
`i` downwards: the index of the last occurrence of the path at or below `i`; `none` when
there is none (`i` wraps around and the read leaves the vector). -/
def searchDown (filepaths : List String) (file : String) : Nat → Option Nat
  | 0 => if filepaths[0]? = some file then some 0 else none
  | i + 1 => if filepaths[i + 1]? = some file then some (i + 1) else searchDown filepaths file i

/-- Source: `FindSound::receiveSoundData`: the received signal is stored at the index of
its path in `filepaths`; `none` when the path is not found or the index is outside
`fileSignals` (undefined behaviour in the source). -/
def FindSound.receiveSoundData (s : FindSound α) (fileSignal : FileSignal α) :
    Option (FindSound α) :=
  if s.filepaths.length = 0 then none
  else
    (searchDown s.filepaths fileSignal.file (s.filepaths.length - 1)).bind fun index =>
      if index < s.fileSignals.length then
        some { s with fileSignals := s.fileSignals.set index fileSignal }
      else none

/-- The calls the facade receives while files are loaded. -/
inductive LoadEvent (α : Type)
  | addFiles (filepaths : List String)
  | receiveSoundData (fileSignal : FileSignal α)

/-- One call on the facade. -/
def FindSound.handle (s : FindSound α) : LoadEvent α → Option (FindSound α)
  | LoadEvent.addFiles filepaths => some (s.addFiles filepaths)
  | LoadEvent.receiveSoundData fileSignal => s.receiveSoundData fileSignal

/-- A sequence of calls on a freshly constructed facade state, from left to right. -/
def FindSound.handleAll (s : FindSound α) : List (LoadEvent α) → Option (FindSound α)
  | [] => some s
  | event :: more => (s.handle event).bind fun s1 => s1.handleAll more

/-! ## Buffer lemmas -/

theorem window_length_le (buf : List α) (i size : Nat) : (window buf i size).length ≤ size := by
  simp [window]

theorem window_length (buf : List α) (i size : Nat) (h : i + size ≤ buf.length) :
    (window buf i size).length = size := by
  simp [window]; omega

theorem window_getD (buf : List α) (i size t : Nat) (h : t < size) :
    (window buf i size).getD t 0 = buf.getD (i + t) 0 := by
  simp [window, List.getD_eq_getElem?_getD, List.getElem?_take, List.getElem?_drop, h]

theorem paddedSignal_length (data : List α) (pb pa : Nat) :
    (paddedSignal data pb pa).length = pb + data.length + pa := by
  simp [paddedSignal]; omega

theorem paddedSignal_getD (data : List α) (pb pa i : Nat) :
    (paddedSignal data pb pa).getD i 0 = sigAt data ((i : Int) - pb) := by
  unfold paddedSignal sigAt
  simp only [List.getD_eq_getElem?_getD, List.getElem?_append, List.length_append,
    List.length_replicate, List.getElem?_replicate]
  by_cases h1 : i < pb
  · have : ¬ (0 : Int) ≤ (i : Int) - pb := by omega
    simp [h1, this, show i < pb + data.length by omega]
  · have h0 : (0 : Int) ≤ (i : Int) - pb := by omega
    have ht : ((i : Int) - pb).toNat = i - pb := by omega
    rw [if_pos h0, ht]
    by_cases h2 : i < pb + data.length
    · simp [h1, h2]
    · have h3 : data.length ≤ i - pb := by omega
      rw [if_neg h2, List.getElem?_eq_none h3]
      split <;> simp

theorem memcpy_spec (dst : List α) (dstOff : Nat) (src : List α) (srcOff n : Nat)
    (hd : dstOff + n ≤ dst.length) (hs : srcOff + n ≤ src.length) :
    ∃ r, memcpy dst dstOff src srcOff n = some r ∧ r.length = dst.length ∧
      (∀ k, k < dstOff → r.getD k 0 = dst.getD k 0) ∧
      (∀ t, t < n → r.getD (dstOff + t) 0 = src.getD (srcOff + t) 0) ∧
      (∀ k, dstOff + n ≤ k → r.getD k 0 = dst.getD k 0) := by
  have hA : (dst.take dstOff).length = dstOff := by simp; omega
  have hB : ((src.drop srcOff).take n).length = n := by simp; omega
  have hAB : (dst.take dstOff ++ (src.drop srcOff).take n).length = dstOff + n := by
    rw [List.length_append, hA, hB]
  refine ⟨_, if_pos ⟨hd, hs⟩, ?_, ?_, ?_, ?_⟩
  · rw [List.length_append, hAB, List.length_drop]; omega
  · intro k hk
    rw [List.getD_append _ _ _ _ (by omega), List.getD_append _ _ _ _ (by omega)]
    simp [List.getD_eq_getElem?_getD, List.getElem?_take, hk]
  · intro t ht
    rw [List.getD_append _ _ _ _ (by omega), List.getD_append_right _ _ _ _ (by omega), hA]
    simp [List.getD_eq_getElem?_getD, List.getElem?_take, List.getElem?_drop, ht]
  · intro k hk
    rw [List.getD_append_right _ _ _ _ (by omega), hAB]
    have h2 : dstOff + n + (k - (dstOff + n)) = k := by omega
    simp [List.getD_eq_getElem?_getD, List.getElem?_drop, h2]

/-! ## Geometry of the convolver -/

theorem CheckRealComplexRatio_ok (X : Nat) : CheckRealComplexRatio X (X / 2 + 1) = some () := by
  simp [CheckRealComplexRatio]

theorem planLoop_ok (X : Nat) (chunks : List (List α)) :
    planLoop X (X / 2 + 1) chunks = some chunks.length := by
  induction chunks with
  | nil => rfl
  | cons c cs ih => simp [planLoop, CheckRealComplexRatio_ok, ih]

theorem Pow2Ceil_ge (x : Nat) : x ≤ Pow2Ceil x := by
  unfold Pow2Ceil
  split
  · omega
  · exact Nat.le_pow_clog (by decide) x

theorem chunkLoop_mul (padded : List α) (X L q : Nat) (hL : 0 < L)
    (hM : padded.length - X = q * L) :
    ∀ fuel c0, c0 ≤ q + 1 → q + 1 - c0 ≤ fuel →
      chunkLoop padded X L fuel (c0 * L) =
        (List.range' c0 (q + 1 - c0)).map fun c => window padded (c * L) X := by
  intro fuel
  induction fuel with
  | zero =>
    intro c0 h1 h2
    have : q + 1 - c0 = 0 := by omega
    simp [chunkLoop, this]
  | succ fuel ih =>
    intro c0 h1 h2
    by_cases hc : c0 ≤ q
    · have hle : c0 * L ≤ padded.length - X := by
        rw [hM]; exact Nat.mul_le_mul_right L hc
      have hs : q + 1 - c0 = (q + 1 - (c0 + 1)) + 1 := by omega
      have hmul : c0 * L + L = (c0 + 1) * L := by ring
      rw [chunkLoop, if_pos hle, hmul, ih (c0 + 1) (by omega) (by omega), hs,
        List.range'_succ, List.map_cons]
    · have hq : c0 = q + 1 := by omega
      have hlt : ¬ c0 * L ≤ padded.length - X := by
        rw [hM, hq]
        have : (q + 1) * L = q * L + L := by ring
        omega
      have : q + 1 - c0 = 0 := by omega
      rw [chunkLoop, if_neg hlt, this]
      simp

theorem copySize_eq (L U i : Nat) (h : i * L ≤ U) :
    copySize L U i = ((min L (U - i * L) : Nat) : Int) := by
  unfold copySize
  split <;> omega

theorem extractLoop_spec (L U off X : Nat) (hoff : off + L ≤ X) :
    ∀ (cs : List (List α)) (i0 : Nat) (res : List α), res.length = U →
      (∀ xc ∈ cs, xc.length = X) → (∀ j, j < cs.length → (i0 + j) * L ≤ U) →
      ∃ r, extractLoop L U off cs i0 res = some r ∧ r.length = U ∧
        (∀ n, n < i0 * L → r.getD n 0 = res.getD n 0) ∧
        (∀ j t, j < cs.length → t < L → (i0 + j) * L + t < U →
          r.getD ((i0 + j) * L + t) 0 = (cs.getD j []).getD (off + t) 0) := by
  intro cs
  induction cs with
  | nil =>
    intro i0 res hres _ _
    exact ⟨res, rfl, hres, fun _ _ => rfl, fun j t hj => absurd hj (by simp)⟩
  | cons xc rest ih =>
    intro i0 res hres hlen hidx
    have hi0 : i0 * L ≤ U := by simpa using hidx 0 (by simp)
    have hcs := copySize_eq L U i0 hi0
    have hxc : xc.length = X := hlen xc (by simp)
    obtain ⟨r1, hr1, hr1len, hr1lo, hr1mid, hr1hi⟩ :=
      memcpy_spec res (i0 * L) xc off (min L (U - i0 * L)) (by omega) (by omega)
    have hmul : (i0 + 1) * L = i0 * L + L := by ring
    obtain ⟨r, hr, hrlen, hrlo, hrmid⟩ := ih (i0 + 1) r1 (by omega)
      (fun x hx => hlen x (List.mem_cons_of_mem _ hx))
      (fun j hj => by
        have := hidx (j + 1) (by simpa using hj)
        rwa [show i0 + 1 + j = i0 + (j + 1) by omega])
    refine ⟨r, ?_, hrlen, ?_, ?_⟩
    · rw [extractLoop, if_neg (by rw [hcs]; omega), hcs, Int.toNat_ofNat, hr1]
      exact hr
    · intro n hn
      rw [hrlo n (by omega), hr1lo n hn]
    · intro j t hj ht hlt
      cases j with
      | zero =>
        simp only [Nat.add_zero] at hlt ⊢
        rw [hrlo _ (by omega), hr1mid t (by omega)]
        rfl
      | succ j =>
        have := hrmid j t (by simpa using hj) ht
          (by rwa [show i0 + 1 + j = i0 + (j + 1) by omega])
        rw [show i0 + 1 + j = i0 + (j + 1) by omega] at this
        rw [this]
        rfl

theorem paddedPatch_getD (patch : List α) (pa m : Nat) :
    (paddedSignal patch 0 pa).getD m 0 = patch.getD m 0 := by
  rw [paddedSignal_getD]
  simp [sigAt]

theorem circularXcorr_length (chunk patch : List α) :
    (circularXcorr chunk patch).length = chunk.length := by
  simp [circularXcorr]

theorem circularConv_length (chunk patch : List α) :
    (circularConv chunk patch).length = chunk.length := by
  simp [circularConv]

/-- Inside the first `L` outputs of a chunk the circular cross-correlation does not wrap. -/
theorem circularXcorr_getD (padded patch : List α) (X P i pa t : Nat)
    (hX : i + X ≤ padded.length) (hP : 1 ≤ P) (hPX : P ≤ X) (hlen : patch.length = P)
    (ht : t < X - P + 1) :
    (circularXcorr (window padded i X) (paddedSignal patch 0 pa)).getD t 0 =
      ∑ m in range P, patch.getD m 0 * padded.getD (i + t + m) 0 := by
  have hw : (window padded i X).length = X := window_length padded i X hX
  have htX : t < X := by omega
  unfold circularXcorr
  rw [hw, List.getD_eq_getElem?_getD, List.getElem?_map, List.getElem?_range htX]
  simp only [Option.map_some', Option.getD_some]
  rw [← Finset.sum_subset (Finset.range_subset.2 hPX)]
  · apply Finset.sum_congr rfl
    intro m hm
    have hm' : m < P := Finset.mem_range.1 hm
    rw [Nat.mod_eq_of_lt (by omega), window_getD _ _ _ _ (by omega), paddedPatch_getD,
      mul_comm, Nat.add_assoc]
  · intro m _ hm
    have hm' : P ≤ m := by simpa using hm
    rw [paddedPatch_getD, @List.getD_eq_default _ patch 0 m (by omega), mul_zero]

/-- From offset `P - 1` on, the circular convolution of a chunk does not wrap. -/
theorem circularConv_getD (padded patch : List α) (X P i pa t : Nat)
    (hX : i + X ≤ padded.length) (hP : 1 ≤ P) (hPX : P ≤ X) (hlen : patch.length = P)
    (ht : t < X - P + 1) :
    (circularConv (window padded i X) (paddedSignal patch 0 pa)).getD (P - 1 + t) 0 =
      ∑ m in range P, patch.getD m 0 * padded.getD (i + (P - 1 + t - m)) 0 := by
  have hw : (window padded i X).length = X := window_length padded i X hX
  have htX : P - 1 + t < X := by omega
  unfold circularConv
  rw [hw, List.getD_eq_getElem?_getD, List.getElem?_map, List.getElem?_range htX]
  simp only [Option.map_some', Option.getD_some]
  rw [← Finset.sum_subset (Finset.range_subset.2 hPX)]
  · apply Finset.sum_congr rfl
    intro m hm
    have hm' : m < P := Finset.mem_range.1 hm
    have h1 : P - 1 + t + X - m = (P - 1 + t - m) + X := by omega
    rw [h1, Nat.add_mod_right, Nat.mod_eq_of_lt (by omega), window_getD _ _ _ _ (by omega),
      paddedPatch_getD, mul_comm]
  · intro m _ hm
    have hm' : P ≤ m := by simpa using hm
    rw [paddedPatch_getD, @List.getD_eq_default _ patch 0 m (by omega), mul_zero]

theorem stride_pos (P : Nat) : 0 < stride P := by
  unfold stride; omega

theorem chunkSize_ge (P : Nat) : 2 * P ≤ chunkSize P := by
  have := Pow2Ceil_ge P
  unfold chunkSize; omega

theorem stride_add (P : Nat) (hP : 1 ≤ P) : stride P + (P - 1) = chunkSize P := by
  have := chunkSize_ge P
  unfold stride; omega

/-- What the constructor builds when `1 ≤ P ≤ S`. -/
theorem new_spec (signal patch : List α) (h1 : 1 ≤ patch.length)
    (h2 : patch.length ≤ signal.length) :
    ∃ c, OverlapSaveConvolver.new signal patch = some c ∧
      c.signal_size_ = signal.length ∧ c.patch_size_ = patch.length ∧
      c.result_size_ = resultSize signal.length patch.length ∧
      c.result_chunksize_ = chunkSize patch.length ∧
      c.result_stride_ = stride patch.length ∧
      c.padded_patch_ =
        paddedSignal patch 0 (2 * Pow2Ceil patch.length - patch.length) ∧
      c.padded_signal_ = paddedSignal signal (patch.length - 1)
        (chunkSize patch.length -
          resultSize signal.length patch.length % stride patch.length) ∧
      c.padded_signal_.length = resultSize signal.length patch.length +
        chunkSize patch.length -
          resultSize signal.length patch.length % stride patch.length ∧
      c.s_chunks_ =
        (List.range' 0 (resultSize signal.length patch.length / stride patch.length + 1)).map
          (fun k => window c.padded_signal_ (k * stride patch.length)
            (chunkSize patch.length)) ∧
      c.state_ = State.kUninitialized := by
  have hX := chunkSize_ge patch.length
  have hL := stride_pos patch.length
  have hXlen : (paddedSignal patch 0 (2 * Pow2Ceil patch.length - patch.length)).length =
      chunkSize patch.length := by
    rw [paddedSignal_length]; unfold chunkSize at *; omega
  have hdm := Nat.div_add_mod (resultSize signal.length patch.length) (stride patch.length)
  have hmod := Nat.mod_lt (resultSize signal.length patch.length) hL
  have hLX := stride_add patch.length h1
  have hplen : (paddedSignal signal (patch.length - 1) (chunkSize patch.length -
      resultSize signal.length patch.length % stride patch.length)).length =
      resultSize signal.length patch.length + chunkSize patch.length -
        resultSize signal.length patch.length % stride patch.length := by
    rw [paddedSignal_length]; unfold resultSize at *; omega
  have hM : (paddedSignal signal (patch.length - 1) (chunkSize patch.length -
      resultSize signal.length patch.length % stride patch.length)).length -
      chunkSize patch.length =
      (resultSize signal.length patch.length / stride patch.length) * stride patch.length := by
    rw [hplen, Nat.mul_comm]; omega
  have hq : resultSize signal.length patch.length / stride patch.length ≤
      resultSize signal.length patch.length := Nat.div_le_self _ _
  have hloop := chunkLoop_mul _ (chunkSize patch.length) (stride patch.length) _ hL hM
    ((paddedSignal signal (patch.length - 1) (chunkSize patch.length -
      resultSize signal.length patch.length % stride patch.length)).length + 1) 0
    (Nat.zero_le _) (by
      rw [hplen]
      clear hdm hM
      generalize resultSize signal.length patch.length / stride patch.length = q at hq
      generalize resultSize signal.length patch.length % stride patch.length = r at hmod
      omega)
  rw [Nat.zero_mul] at hloop
  unfold OverlapSaveConvolver.new check_a_less_equal_b
  simp only [gt_iff_lt, Nat.not_lt.2 h2, if_false, Option.some_bind,
    CheckRealComplexRatio_ok, planLoop_ok]
  refine ⟨_, rfl, ?_⟩
  simp only [hXlen]
  refine ⟨?_, ?_, ?_, ?_, ?_, ?_, ?_, ?_, ?_, ?_⟩ <;> trivial

/-- The filling loop of `extractResult` run on the chunks the constructor builds, after
an operation `op` was applied to each of them: it succeeds, returns `U` samples, and
sample `n` is sample `off + n % L` of chunk `n / L`. -/
theorem extract_core (signal patch : List α) (h1 : 1 ≤ patch.length)
    (op : List α → List α → List α) (hop : ∀ a b, (op a b).length = a.length)
    (off : Nat) (hoff : off + stride patch.length ≤ chunkSize patch.length)
    (padded pp : List α)
    (hplen : padded.length = resultSize signal.length patch.length +
      chunkSize patch.length - resultSize signal.length patch.length % stride patch.length) :
    ∃ r, extractLoop (stride patch.length) (resultSize signal.length patch.length) off
        (((List.range' 0
            (resultSize signal.length patch.length / stride patch.length + 1)).map
          (fun k => window padded (k * stride patch.length) (chunkSize patch.length))).map
          (fun s => op s pp)) 0
        (List.replicate (resultSize signal.length patch.length) 0) = some r ∧
      r.length = resultSize signal.length patch.length ∧
      ∀ n, n < resultSize signal.length patch.length →
        n / stride patch.length * stride patch.length + chunkSize patch.length ≤
          padded.length ∧
        r.getD n 0 =
          (op (window padded (n / stride patch.length * stride patch.length)
            (chunkSize patch.length)) pp).getD (off + n % stride patch.length) 0 := by
  have hL := stride_pos patch.length
  have hLX := stride_add patch.length h1
  have hdm := Nat.div_add_mod (resultSize signal.length patch.length) (stride patch.length)
  have hmod := Nat.mod_lt (resultSize signal.length patch.length) hL
  have hdiv : ∀ n, n < resultSize signal.length patch.length →
      n / stride patch.length ≤
        resultSize signal.length patch.length / stride patch.length :=
    fun n hn => Nat.div_le_div_right (Nat.le_of_lt hn)
  have hndm : ∀ n, n / stride patch.length * stride patch.length + n % stride patch.length = n :=
    fun n => by rw [Nat.mul_comm]; exact Nat.div_add_mod n _
  have hnmod : ∀ n, n % stride patch.length < stride patch.length := fun n => Nat.mod_lt n hL
  rw [Nat.mul_comm] at hdm
  generalize resultSize signal.length patch.length / stride patch.length = q at *
  generalize resultSize signal.length patch.length % stride patch.length = r0 at *
  generalize resultSize signal.length patch.length = U at *
  generalize chunkSize patch.length = X at *
  generalize stride patch.length = L at *
  have hkL : ∀ k, k ≤ q → k * L ≤ q * L := fun k hk => Nat.mul_le_mul_right L hk
  have hwin : ∀ k, k ≤ q → (window padded (k * L) X).length = X := fun k hk => by
    have := hkL k hk
    exact window_length _ _ _ (by omega)
  obtain ⟨r, hr, hrlen, -, hrmid⟩ := extractLoop_spec L U off X hoff
    (((List.range' 0 (q + 1)).map (fun k => window padded (k * L) X)).map (fun s => op s pp))
    0 (List.replicate U 0) (by simp)
    (by
      intro xc hxc
      simp only [List.mem_map, List.mem_range'_1] at hxc
      obtain ⟨_, ⟨k, hk, rfl⟩, rfl⟩ := hxc
      rw [hop, hwin k (by omega)])
    (by
      intro j hj
      simp only [List.length_map, List.length_range'] at hj
      have := hkL j (by omega)
      rw [Nat.zero_add]
      omega)
  refine ⟨r, hr, hrlen, ?_⟩
  intro n hn
  have hj := hdiv n hn
  have hjL := hkL _ hj
  have h3 := hndm n
  have h4 := hnmod n
  have h5 := hrmid (n / L) (n % L)
  generalize n / L = j at *
  generalize n % L = t at *
  constructor
  · omega
  · rw [Nat.zero_add, h3] at h5
    rw [h5 (by simp; omega) h4 (by omega)]
    congr 1
    simp [List.getD_eq_getElem?_getD, List.getElem?_range' 0 1 (show j < q + 1 by omega)]

/-- The cross-correlation pass on valid inputs: the constructor succeeds, `extractResult`
after `executeXcorr` returns `U` samples, and sample `n` is the direct correlation at
lag `n - (P - 1)`. -/
theorem xcorr_extract (signal patch : List α) (h1 : 1 ≤ patch.length)
    (h2 : patch.length ≤ signal.length) :
    ∃ c r, OverlapSaveConvolver.new signal patch = some c ∧
      c.executeXcorr.extractResult = some r ∧
      r.length = resultSize signal.length patch.length ∧
      ∀ n, n < resultSize signal.length patch.length →
        r.getD n 0 = directXcorr signal patch ((n : Int) - ((patch.length - 1 : Nat) : Int)) := by
  obtain ⟨c, hc, -, -, hU, hX, hL, hpp, hps, hplen, hchunks, hst⟩ :=
    new_spec signal patch h1 h2
  have hLX := stride_add patch.length h1
  have hXP := chunkSize_ge patch.length
  obtain ⟨r, hr, hrlen, hrval⟩ := extract_core signal patch h1 circularXcorr
    circularXcorr_length 0 (by omega) c.padded_signal_ c.padded_patch_ hplen
  refine ⟨c, r, hc, ?_, hrlen, ?_⟩
  · simp only [OverlapSaveConvolver.extractResult, OverlapSaveConvolver.executeXcorr,
      OverlapSaveConvolver.execute, OverlapSaveConvolver.check_last_executed_not_null,
      OverlapSaveConvolver.discardOffset, if_true, if_false, Option.some_bind,
      reduceCtorEq]
    rw [hL, hU, hchunks]
    exact hr
  · intro n hn
    obtain ⟨hin, hval⟩ := hrval n hn
    have hndm : n / stride patch.length * stride patch.length + n % stride patch.length = n := by
      rw [Nat.mul_comm]; exact Nat.div_add_mod n _
    have hnmod := Nat.mod_lt n (stride_pos patch.length)
    rw [hval, Nat.zero_add, hpp,
      circularXcorr_getD c.padded_signal_ patch (chunkSize patch.length) patch.length _ _ _
        hin h1 (by omega) rfl (by unfold stride at hnmod; exact hnmod)]
    unfold directXcorr
    apply Finset.sum_congr rfl
    intro m _
    rw [hndm, hps, paddedSignal_getD]
    congr 2
    push_cast
    ring

/-- The convolution pass on valid inputs: the constructor succeeds, `extractResult`
after `executeConv` returns `U` samples, and sample `n` is the direct linear convolution
at index `n`. -/
theorem conv_extract (signal patch : List α) (h1 : 1 ≤ patch.length)
    (h2 : patch.length ≤ signal.length) :
    ∃ c r, OverlapSaveConvolver.new signal patch = some c ∧
      c.executeConv.extractResult = some r ∧
      r.length = resultSize signal.length patch.length ∧
      ∀ n, n < resultSize signal.length patch.length →
        r.getD n 0 = directConv signal patch (n : Int) := by
  obtain ⟨c, hc, -, -, hU, hX, hL, hpp, hps, hplen, hchunks, hst⟩ :=
    new_spec signal patch h1 h2
  have hLX := stride_add patch.length h1
  have hXP := chunkSize_ge patch.length
  obtain ⟨r, hr, hrlen, hrval⟩ := extract_core signal patch h1 circularConv
    circularConv_length (patch.length - 1) (by omega) c.padded_signal_ c.padded_patch_ hplen
  have hoff : chunkSize patch.length - stride patch.length = patch.length - 1 := by omega
  refine ⟨c, r, hc, ?_, hrlen, ?_⟩
  · simp only [OverlapSaveConvolver.extractResult, OverlapSaveConvolver.executeConv,
      OverlapSaveConvolver.execute, OverlapSaveConvolver.check_last_executed_not_null,
      OverlapSaveConvolver.discardOffset, if_true, if_false, Option.some_bind,
      reduceCtorEq]
    rw [hL, hU, hX, hchunks, hoff]
    exact hr
  · intro n hn
    obtain ⟨hin, hval⟩ := hrval n hn
    have hndm : n / stride patch.length * stride patch.length + n % stride patch.length = n := by
      rw [Nat.mul_comm]; exact Nat.div_add_mod n _
    have hnmod := Nat.mod_lt n (stride_pos patch.length)
    rw [hval, hpp,
      circularConv_getD c.padded_signal_ patch (chunkSize patch.length) patch.length _ _ _
        hin h1 (by omega) rfl (by unfold stride at hnmod; exact hnmod)]
    unfold directConv
    apply Finset.sum_congr rfl
    intro m hm
    have hm' : m < patch.length := Finset.mem_range.1 hm
    rw [hps, paddedSignal_getD]
    congr 2
    generalize n / stride patch.length * stride patch.length = a at *
    generalize n % stride patch.length = t at *
    omega

/-- Every signal chunk built by the constructor has exactly `X` samples. -/
theorem new_chunks_length (signal patch : List α) (h1 : 1 ≤ patch.length)
    (h2 : patch.length ≤ signal.length) (c : OverlapSaveConvolver α)
    (hc : OverlapSaveConvolver.new signal patch = some c) :
    c.s_chunks_.length = resultSize signal.length patch.length / stride patch.length + 1 ∧
      ∀ s ∈ c.s_chunks_, s.length = chunkSize patch.length := by
  obtain ⟨c0, hc0, -, -, hU, hX, hL, hpp, hps, hplen, hchunks, hst⟩ :=
    new_spec signal patch h1 h2
  obtain rfl : c0 = c := Option.some.inj (hc0.symm.trans hc)
  have hLpos := stride_pos patch.length
  have hdm := Nat.div_add_mod (resultSize signal.length patch.length) (stride patch.length)
  rw [Nat.mul_comm] at hdm
  refine ⟨by rw [hchunks]; simp, ?_⟩
  intro s hs
  rw [hchunks] at hs
  simp only [List.mem_map, List.mem_range'_1] at hs
  obtain ⟨k, hk, rfl⟩ := hs
  have hkL : k * stride patch.length ≤
      resultSize signal.length patch.length / stride patch.length * stride patch.length :=
    Nat.mul_le_mul_right _ (by omega)
  apply window_length
  rw [hplen]
  generalize resultSize signal.length patch.length / stride patch.length = q at *
  generalize resultSize signal.length patch.length % stride patch.length = r0 at *
  omega

/-- The copy sizes of `extractResult` for stride `L > 0` and result length `U`: chunks
`0 .. U / L` are copied, each copy is non-negative, at most `L`, stays inside the result,
the sizes add up to `U`, and every result index is written by exactly one chunk. -/
theorem copy_geometry (L U : Nat) (hL : 0 < L) :
    (∀ i, i < U / L + 1 → 0 ≤ copySize L U i ∧ (copySize L U i).toNat ≤ L ∧
      i * L + (copySize L U i).toNat ≤ U) ∧
    (∑ i in range (U / L + 1), copySize L U i = (U : Int)) ∧
    (∀ n, n < U → ∃! i, i < U / L + 1 ∧ i * L ≤ n ∧ n < i * L + (copySize L U i).toNat) := by
  have hdm := Nat.div_add_mod U L
  have hmod := Nat.mod_lt U hL
  rw [Nat.mul_comm] at hdm
  have hdivn : ∀ n, n / L * L + n % L = n ∧ n % L < L := fun n =>
    ⟨by rw [Nat.mul_comm]; exact Nat.div_add_mod n L, Nat.mod_lt n hL⟩
  have hdivle : ∀ n, n < U → n / L ≤ U / L := fun n hn => Nat.div_le_div_right (Nat.le_of_lt hn)
  generalize U / L = q at *
  generalize U % L = r0 at *
  have hkL : ∀ k, k ≤ q → k * L ≤ q * L := fun k hk => Nat.mul_le_mul_right L hk
  have hsucc : ∀ k, (k + 1) * L = k * L + L := fun k => by ring
  have hfull : ∀ i, i < q → copySize L U i = (L : Int) := by
    intro i hi
    have := hkL (i + 1) (by omega)
    rw [hsucc] at this
    rw [copySize_eq L U i (by omega)]
    omega
  have hlast : copySize L U q = (r0 : Int) := by
    rw [copySize_eq L U q (by omega)]
    omega
  refine ⟨?_, ?_, ?_⟩
  · intro i hi
    have := hkL i (by omega)
    rw [copySize_eq L U i (by omega)]
    omega
  · rw [Finset.sum_range_succ, hlast, Finset.sum_congr rfl
      (fun i hi => hfull i (Finset.mem_range.1 hi)), Finset.sum_const, Finset.card_range,
      nsmul_eq_mul, ← hdm]
    push_cast
    ring
  · intro n hn
    obtain ⟨h3, h4⟩ := hdivn n
    have h5 := hdivle n hn
    have h6 := hkL _ h5
    refine ⟨n / L, ⟨by omega, by omega, ?_⟩, ?_⟩
    · rw [copySize_eq L U _ (by omega)]
      generalize n / L = j at *
      generalize n % L = t at *
      simp only [Int.toNat_ofNat]
      omega
    · rintro i ⟨hi1, hi2, hi3⟩
      have hi4 := hkL i (by omega)
      rw [copySize_eq L U i (by omega), Int.toNat_ofNat] at hi3
      have hi5 : n < i * L + L := by omega
      rw [← hsucc] at hi5
      have hle : i ≤ n / L := (Nat.le_div_iff_mul_le hL).2 hi2
      have hlt : n / L < i + 1 := (Nat.div_lt_iff_lt_mul hL).2 hi5
      omega

/-! ## C1 – C3: the overlap-save kernel -/

/-- C1: for `1 ≤ P ≤ S`, with each chunk's FFT pipeline taken as the length-`X` circular
cross-correlation, the constructor succeeds, `extractResult` after `executeXcorr` returns
a signal, and for every lag `k` with `-(P-1) ≤ k ≤ S-1` its sample `P-1+k` equals
`Σ_{j<P} patch[j] · signal[k+j]` (signal zero outside `[0, S)`). -/
theorem xcorr_result_indexing (signal patch : List α) (h1 : 1 ≤ patch.length)
    (h2 : patch.length ≤ signal.length) :
    ∃ c r, OverlapSaveConvolver.new signal patch = some c ∧
      c.executeXcorr.extractResult = some r ∧
      ∀ k : Int, -((patch.length : Int) - 1) ≤ k → k ≤ (signal.length : Int) - 1 →
        r.getD ((patch.length : Int) - 1 + k).toNat 0 =
          ∑ j in range patch.length, patch.getD j 0 * sigAt signal (k + j) := by
  obtain ⟨c, r, hc, hr, -, hval⟩ := xcorr_extract signal patch h1 h2
  refine ⟨c, r, hc, hr, ?_⟩
  intro k hk1 hk2
  have hn : ((patch.length : Int) - 1 + k).toNat < resultSize signal.length patch.length := by
    unfold resultSize; omega
  rw [hval _ hn]
  unfold directXcorr
  have hk : ((((patch.length : Int) - 1 + k).toNat : Nat) : Int) -
      ((patch.length - 1 : Nat) : Int) = k := by omega
  rw [hk]

/-- C1 applied to the example in the comment of `extractResult`:
signal `[1 .. 7]`, patch `[1, 1, 1]`. -/
theorem xcorr_result_indexing_witness :
    1 ≤ ([1, 1, 1] : List ℚ).length ∧
    ([1, 1, 1] : List ℚ).length ≤ ([1, 2, 3, 4, 5, 6, 7] : List ℚ).length ∧
    ∃ c r, OverlapSaveConvolver.new ([1, 2, 3, 4, 5, 6, 7] : List ℚ) [1, 1, 1] = some c ∧
      c.executeXcorr.extractResult = some r ∧
      ∀ k : Int, -((([1, 1, 1] : List ℚ).length : Int) - 1) ≤ k →
        k ≤ ((([1, 2, 3, 4, 5, 6, 7] : List ℚ).length : Int)) - 1 →
        r.getD (((([1, 1, 1] : List ℚ).length : Int)) - 1 + k).toNat 0 =
          ∑ j in range ([1, 1, 1] : List ℚ).length,
            ([1, 1, 1] : List ℚ).getD j 0 * sigAt [1, 2, 3, 4, 5, 6, 7] (k + j) :=
  ⟨by decide, by decide,
    xcorr_result_indexing [1, 2, 3, 4, 5, 6, 7] [1, 1, 1] (by decide) (by decide)⟩

/-- C2: for `1 ≤ P ≤ S`, with each chunk's FFT pipeline taken as the length-`X` circular
convolution, `extractResult` after `executeConv` returns the direct linear convolution:
sample `n` is `Σ_{m<P} patch[m] · signal[n-m]` for every `n < S+P-1`. -/
theorem conv_result_is_linear_convolution (signal patch : List α) (h1 : 1 ≤ patch.length)
    (h2 : patch.length ≤ signal.length) :
    ∃ c r, OverlapSaveConvolver.new signal patch = some c ∧
      c.executeConv.extractResult = some r ∧
      r.length = signal.length + patch.length - 1 ∧
      ∀ n, n < signal.length + patch.length - 1 →
        r.getD n 0 =
          ∑ m in range patch.length, patch.getD m 0 * sigAt signal ((n : Int) - (m : Int)) := by
  obtain ⟨c, r, hc, hr, hlen, hval⟩ := conv_extract signal patch h1 h2
  exact ⟨c, r, hc, hr, hlen, fun n hn => hval n hn⟩

/-- C2 applied to signal `[1 .. 7]`, patch `[1, 1, 1]`. -/
theorem conv_result_is_linear_convolution_witness :
    1 ≤ ([1, 1, 1] : List ℚ).length ∧
    ([1, 1, 1] : List ℚ).length ≤ ([1, 2, 3, 4, 5, 6, 7] : List ℚ).length ∧
    ∃ c r, OverlapSaveConvolver.new ([1, 2, 3, 4, 5, 6, 7] : List ℚ) [1, 1, 1] = some c ∧
      c.executeConv.extractResult = some r ∧
      r.length = ([1, 2, 3, 4, 5, 6, 7] : List ℚ).length + ([1, 1, 1] : List ℚ).length - 1 ∧
      ∀ n, n < ([1, 2, 3, 4, 5, 6, 7] : List ℚ).length + ([1, 1, 1] : List ℚ).length - 1 →
        r.getD n 0 =
          ∑ m in range ([1, 1, 1] : List ℚ).length,
            ([1, 1, 1] : List ℚ).getD m 0 *
              sigAt [1, 2, 3, 4, 5, 6, 7] ((n : Int) - (m : Int)) :=
  ⟨by decide, by decide,
    conv_result_is_linear_convolution [1, 2, 3, 4, 5, 6, 7] [1, 1, 1] (by decide) (by decide)⟩

/-- The filling loop over `cs1 ++ cs2` is the loop over `cs1` followed by the loop over
`cs2`, the chunk index running on. -/
theorem extractLoop_append (L U off : Nat) :
    ∀ (cs1 cs2 : List (List α)) (i : Nat) (res : List α),
      extractLoop L U off (cs1 ++ cs2) i res =
        (extractLoop L U off cs1 i res).bind (extractLoop L U off cs2 (i + cs1.length)) := by
  intro cs1
  induction cs1 with
  | nil =>
    intro cs2 i res
    simp [extractLoop]
  | cons xc rest ih =>
    intro cs2 i res
    rw [List.cons_append, extractLoop, extractLoop]
    by_cases h : copySize L U i < 0
    · rw [if_pos h, if_pos h]
      rfl
    · rw [if_neg h, if_neg h, Option.bind_assoc]
      congr 1
      funext r
      rw [ih cs2 (i + 1) r, List.length_cons,
        show i + 1 + rest.length = i + (rest.length + 1) by omega]

/-- The filling loop leaves every index from `(i0 + chunks) * L` on untouched. -/
theorem extractLoop_frame (L U off X : Nat) (hoff : off + L ≤ X) :
    ∀ (cs : List (List α)) (i0 : Nat) (res r : List α), res.length = U →
      (∀ xc ∈ cs, xc.length = X) → (∀ j, j < cs.length → (i0 + j) * L ≤ U) →
      extractLoop L U off cs i0 res = some r →
      ∀ n, (i0 + cs.length) * L ≤ n → r.getD n 0 = res.getD n 0 := by
  intro cs
  induction cs with
  | nil =>
    intro i0 res r _ _ _ hr n _
    rw [extractLoop] at hr
    rw [Option.some.inj hr]
  | cons xc rest ih =>
    intro i0 res r hres hlen hidx hr n hn
    have hi0 : i0 * L ≤ U := by simpa using hidx 0 (by simp)
    have hcs := copySize_eq L U i0 hi0
    have hxc : xc.length = X := hlen xc (by simp)
    obtain ⟨r1, hr1, hr1len, hr1lo, hr1mid, hr1hi⟩ :=
      memcpy_spec res (i0 * L) xc off (min L (U - i0 * L)) (by omega) (by omega)
    rw [extractLoop, if_neg (by rw [hcs]; omega), hcs, Int.toNat_ofNat, hr1] at hr
    have hmul : (i0 + (rest.length + 1)) * L = (i0 + 1 + rest.length) * L := by ring
    have hmul2 : (i0 + 1 + rest.length) * L = i0 * L + L + rest.length * L := by ring
    rw [List.length_cons, hmul] at hn
    rw [ih (i0 + 1) r1 r (by omega) (fun x hx => hlen x (List.mem_cons_of_mem _ hx))
      (fun j hj => by
        have := hidx (j + 1) (by simpa using hj)
        rwa [show i0 + 1 + j = i0 + (j + 1) by omega]) hr n hn]
    exact hr1hi n (by omega)

/-- The filling loop of `extractResult` copy by copy, from chunk index `0` on a buffer of
`U` samples: the loop succeeds; sample `n` of its result is sample `off + n % L` of chunk
`n / L`; and for every chunk `j` the buffer `before` the copy is the loop over the chunks
before `j` and still holds the initial samples from `j * L` on, the copy is the `memcpy`
of `copy_size` samples from offset `off` of chunk `j` to position `j * L`, it changes no
other index, and the rest of the loop changes no index below `(j + 1) * L`. -/
theorem extractLoop_trace (L U off X : Nat) (hL : 0 < L) (hoff : off + L ≤ X)
    (cs : List (List α)) (res : List α) (hres : res.length = U)
    (hlen : ∀ xc ∈ cs, xc.length = X) (hidx : ∀ j, j < cs.length → j * L ≤ U) :
    ∃ r, extractLoop L U off cs 0 res = some r ∧ r.length = U ∧
      (∀ n, n < U → n / L < cs.length →
        r.getD n 0 = (cs.getD (n / L) []).getD (off + n % L) 0) ∧
      (∀ j, j < cs.length → ∃ before after,
        extractLoop L U off (cs.take j) 0 res = some before ∧
        memcpy before (j * L) (cs.getD j []) off (copySize L U j).toNat = some after ∧
        extractLoop L U off (cs.drop (j + 1)) (j + 1) after = some r ∧
        (∀ n, j * L ≤ n → before.getD n 0 = res.getD n 0) ∧
        (∀ n, n < j * L ∨ j * L + (copySize L U j).toNat ≤ n →
          after.getD n 0 = before.getD n 0) ∧
        (∀ n, n < (j + 1) * L → r.getD n 0 = after.getD n 0)) := by
  obtain ⟨r, hr, hrlen, -, hrmid⟩ := extractLoop_spec L U off X hoff cs 0 res hres hlen
    (fun j hj => by rw [Nat.zero_add]; exact hidx j hj)
  refine ⟨r, hr, hrlen, ?_, ?_⟩
  · intro n hn hj
    have h := hrmid (n / L) (n % L) hj (Nat.mod_lt n hL)
    have hdm : n / L * L + n % L = n := by rw [Nat.mul_comm]; exact Nat.div_add_mod n L
    rw [Nat.zero_add, hdm] at h
    exact h hn
  · intro j hj
    have hsplit : cs = cs.take j ++ (cs.getD j [] :: cs.drop (j + 1)) := by
      have h1 : cs.getD j [] = cs[j] := by
        rw [List.getD_eq_getElem?_getD, List.getElem?_eq_getElem hj]
        rfl
      rw [h1, ← List.drop_eq_getElem_cons hj, List.take_append_drop]
    have htl : (cs.take j).length = j := by rw [List.length_take]; omega
    have hjU := hidx j hj
    obtain ⟨before, hb, hblen, -, -⟩ := extractLoop_spec L U off X hoff (cs.take j) 0 res hres
      (fun xc hxc => hlen xc (List.mem_of_mem_take hxc))
      (fun k hk => by rw [Nat.zero_add]; exact hidx k (by omega))
    have hbframe := extractLoop_frame L U off X hoff (cs.take j) 0 res before hres
      (fun xc hxc => hlen xc (List.mem_of_mem_take hxc))
      (fun k hk => by rw [Nat.zero_add]; exact hidx k (by omega)) hb
    rw [Nat.zero_add, htl] at hbframe
    have hcs := copySize_eq L U j hjU
    have hxj : (cs.getD j []).length = X := by
      apply hlen
      rw [List.getD_eq_getElem?_getD, List.getElem?_eq_getElem hj]
      exact List.getElem_mem _
    obtain ⟨after, ha, halen, halo, -, hahi⟩ :=
      memcpy_spec before (j * L) (cs.getD j []) off (min L (U - j * L)) (by omega) (by omega)
    have hwhole := hr
    rw [hsplit, extractLoop_append, hb, Option.some_bind, htl, Nat.zero_add, extractLoop,
      if_neg (by rw [hcs]; omega), hcs, Int.toNat_ofNat, ha, Option.some_bind] at hwhole
    obtain ⟨r2, hr2, -, hr2lo, -⟩ := extractLoop_spec L U off X hoff (cs.drop (j + 1)) (j + 1)
      after (by omega) (fun xc hxc => hlen xc (List.mem_of_mem_drop hxc))
      (fun k hk => by
        rw [List.length_drop] at hk
        exact hidx (j + 1 + k) (by omega))
    obtain rfl : r2 = r := Option.some.inj (hr2.symm.trans hwhole)
    refine ⟨before, after, hb, ?_, hwhole, hbframe, ?_, hr2lo⟩
    · rw [hcs, Int.toNat_ofNat]
      exact ha
    · rw [hcs, Int.toNat_ofNat]
      rintro n (hn | hn)
      · exact halo n hn
      · exact hahi n hn

/-- The members `extractResult` reads, after one execute call on a convolver built with
`1 ≤ P ≤ S`: stride, result size, chunk size, the number and length of the result chunks,
the state, and the discard offset. -/
theorem call_fields (signal patch : List α) (h1 : 1 ≤ patch.length)
    (h2 : patch.length ≤ signal.length) (c : OverlapSaveConvolver α)
    (hc : OverlapSaveConvolver.new signal patch = some c) (op : ExecuteCall) :
    (c.call op).result_stride_ = stride patch.length ∧
    (c.call op).result_size_ = resultSize signal.length patch.length ∧
    (c.call op).result_chunksize_ = chunkSize patch.length ∧
    (c.call op).result_chunks_.length =
      resultSize signal.length patch.length / stride patch.length + 1 ∧
    (∀ xc ∈ (c.call op).result_chunks_, xc.length = chunkSize patch.length) ∧
    (c.call op).state_ = op.state ∧
    (c.call op).discardOffset + stride patch.length ≤ chunkSize patch.length := by
  obtain ⟨c0, hc0, -, -, hU, hX, hL, -, -, -, -, -⟩ := new_spec signal patch h1 h2
  obtain rfl : c0 = c := Option.some.inj (hc0.symm.trans hc)
  obtain ⟨hnum, hclen⟩ := new_chunks_length signal patch h1 h2 c0 hc
  have hLX := stride_add patch.length h1
  cases op with
  | conv =>
    refine ⟨hL, hU, hX, ?_, ?_, rfl, ?_⟩
    · simp [OverlapSaveConvolver.call, OverlapSaveConvolver.executeConv,
        OverlapSaveConvolver.execute, hnum]
    · intro xc hxc
      simp only [OverlapSaveConvolver.call, OverlapSaveConvolver.executeConv,
        OverlapSaveConvolver.execute, List.mem_map] at hxc
      obtain ⟨s0, hs0, rfl⟩ := hxc
      simp only [Bool.false_eq_true, if_false, circularConv_length]
      exact hclen s0 hs0
    · simp only [OverlapSaveConvolver.call, OverlapSaveConvolver.discardOffset,
        OverlapSaveConvolver.executeConv, OverlapSaveConvolver.execute, if_true]
      rw [hX, hL]; omega
  | xcorr =>
    refine ⟨hL, hU, hX, ?_, ?_, rfl, ?_⟩
    · simp [OverlapSaveConvolver.call, OverlapSaveConvolver.executeXcorr,
        OverlapSaveConvolver.execute, hnum]
    · intro xc hxc
      simp only [OverlapSaveConvolver.call, OverlapSaveConvolver.executeXcorr,
        OverlapSaveConvolver.execute, List.mem_map] at hxc
      obtain ⟨s0, hs0, rfl⟩ := hxc
      simp only [if_true, circularXcorr_length]
      exact hclen s0 hs0
    · simp only [OverlapSaveConvolver.call, OverlapSaveConvolver.discardOffset,
        OverlapSaveConvolver.executeXcorr, OverlapSaveConvolver.execute, reduceCtorEq,
        if_false]
      omega

/-- What `extractResult` does after one execute call on a convolver built with `1 ≤ P ≤ S`,
copy by copy: it is the filling loop over the result chunks from a zeroed buffer of
`result_size_` samples; it returns `S + P - 1` samples, sample `n` being sample
`discard_offset + n % L` of result chunk `n / L`; and for every chunk `j` the `memcpy` of
`copy_size` samples from offset `discard_offset` of chunk `j` to position `j * L` succeeds
on a buffer that is still zero from `j * L` on, changes no other index, and no later copy
changes an index below `(j + 1) * L`. -/
theorem call_extract (signal patch : List α) (h1 : 1 ≤ patch.length)
    (h2 : patch.length ≤ signal.length) (c : OverlapSaveConvolver α)
    (hc : OverlapSaveConvolver.new signal patch = some c) (op : ExecuteCall) :
    (c.call op).extractResult =
      extractLoop (c.call op).result_stride_ (c.call op).result_size_
        (c.call op).discardOffset (c.call op).result_chunks_ 0
        (List.replicate (c.call op).result_size_ 0) ∧
    ∃ r, (c.call op).extractResult = some r ∧
      r.length = signal.length + patch.length - 1 ∧
      (∀ n, n < signal.length + patch.length - 1 →
        r.getD n 0 = ((c.call op).result_chunks_.getD (n / (c.call op).result_stride_) []).getD
          ((c.call op).discardOffset + n % (c.call op).result_stride_) 0) ∧
      (∀ j, j < (c.call op).result_chunks_.length → ∃ before after,
        extractLoop (c.call op).result_stride_ (c.call op).result_size_
            (c.call op).discardOffset ((c.call op).result_chunks_.take j) 0
            (List.replicate (c.call op).result_size_ 0) = some before ∧
        memcpy before (j * (c.call op).result_stride_) ((c.call op).result_chunks_.getD j [])
            (c.call op).discardOffset
            (copySize (c.call op).result_stride_ (c.call op).result_size_ j).toNat =
          some after ∧
        extractLoop (c.call op).result_stride_ (c.call op).result_size_
            (c.call op).discardOffset ((c.call op).result_chunks_.drop (j + 1)) (j + 1)
            after = some r ∧
        (∀ n, j * (c.call op).result_stride_ ≤ n → before.getD n 0 = 0) ∧
        (∀ n, n < j * (c.call op).result_stride_ ∨
            j * (c.call op).result_stride_ +
              (copySize (c.call op).result_stride_ (c.call op).result_size_ j).toNat ≤ n →
          after.getD n 0 = before.getD n 0) ∧
        (∀ n, n < (j + 1) * (c.call op).result_stride_ → r.getD n 0 = after.getD n 0)) := by
  obtain ⟨hL, hU, hX, hnum, hclen, hst, hoff⟩ := call_fields signal patch h1 h2 c hc op
  have hLpos := stride_pos patch.length
  have hex : (c.call op).extractResult =
      extractLoop (c.call op).result_stride_ (c.call op).result_size_
        (c.call op).discardOffset (c.call op).result_chunks_ 0
        (List.replicate (c.call op).result_size_ 0) := by
    unfold OverlapSaveConvolver.extractResult
      OverlapSaveConvolver.check_last_executed_not_null
    rw [hst, if_neg (by cases op <;> simp [ExecuteCall.state])]
    rfl
  refine ⟨hex, ?_⟩
  rw [hex]
  generalize (c.call op).discardOffset = off at *
  generalize (c.call op).result_chunks_ = chunks at *
  rw [hL, hU]
  have hidx : ∀ j, j < chunks.length →
      j * stride patch.length ≤ resultSize signal.length patch.length := by
    intro j hj
    rw [hnum] at hj
    have h1 : j * stride patch.length ≤
        resultSize signal.length patch.length / stride patch.length * stride patch.length :=
      Nat.mul_le_mul_right _ (by omega)
    exact le_trans h1 (Nat.div_mul_le_self _ _)
  obtain ⟨r, hr, hrlen, hcont, htrace⟩ := extractLoop_trace (stride patch.length)
    (resultSize signal.length patch.length) off (chunkSize patch.length) hLpos hoff chunks
    (List.replicate (resultSize signal.length patch.length) 0) (by simp) hclen hidx
  refine ⟨r, hr, hrlen, ?_, ?_⟩
  · intro n hn
    apply hcont n hn
    rw [hnum]
    exact Nat.lt_succ_of_le (Nat.div_le_div_right (Nat.le_of_lt hn))
  · intro j hj
    obtain ⟨before, after, t1, t2, t3, t4, t5, t6⟩ := htrace j hj
    refine ⟨before, after, t1, t2, t3, ?_, t5, t6⟩
    intro n hn
    rw [t4 n hn, List.getD_eq_getElem?_getD, List.getElem?_replicate]
    split <;> rfl

/-- C3: for `1 ≤ P ≤ S` and after either execute, `extractResult` is the filling loop over
the result chunks from a zeroed buffer and returns exactly `S+P-1` samples, sample `n`
being sample `discard_offset + n % L` of result chunk `n / L`; copy by copy: for every
chunk `j` the buffer before the copy is still zero from `j * L` on, the `memcpy` of
`copy_size` samples from `[discard_offset, discard_offset + copy_size)` of chunk `j` to
position `j * L` succeeds (so both ranges lie inside their buffers) and changes no other
index, and no later copy changes an index below `(j + 1) * L`.  Every result chunk has `X`
samples; each copy size is non-negative, its source range lies inside the chunk and its
destination range inside the result; the copy sizes sum to `U = S+P-1`; and every index
`n < U` lies in the destination range of exactly one chunk. -/
theorem extractResult_length_and_copies (signal patch : List α) (h1 : 1 ≤ patch.length)
    (h2 : patch.length ≤ signal.length) :
    ∃ c, OverlapSaveConvolver.new signal patch = some c ∧
      ∀ e, (e = c.executeConv ∨ e = c.executeXcorr) →
        e.extractResult =
          extractLoop e.result_stride_ e.result_size_ e.discardOffset e.result_chunks_ 0
            (List.replicate e.result_size_ 0) ∧
        (∃ r, e.extractResult = some r ∧ r.length = signal.length + patch.length - 1 ∧
          (∀ n, n < signal.length + patch.length - 1 →
            r.getD n 0 = (e.result_chunks_.getD (n / e.result_stride_) []).getD
              (e.discardOffset + n % e.result_stride_) 0) ∧
          (∀ j, j < e.result_chunks_.length → ∃ before after,
            extractLoop e.result_stride_ e.result_size_ e.discardOffset
                (e.result_chunks_.take j) 0 (List.replicate e.result_size_ 0) =
              some before ∧
            memcpy before (j * e.result_stride_) (e.result_chunks_.getD j [])
                e.discardOffset (copySize e.result_stride_ e.result_size_ j).toNat =
              some after ∧
            extractLoop e.result_stride_ e.result_size_ e.discardOffset
                (e.result_chunks_.drop (j + 1)) (j + 1) after = some r ∧
            (∀ n, j * e.result_stride_ ≤ n → before.getD n 0 = 0) ∧
            (∀ n, n < j * e.result_stride_ ∨
                j * e.result_stride_ +
                  (copySize e.result_stride_ e.result_size_ j).toNat ≤ n →
              after.getD n 0 = before.getD n 0) ∧
            (∀ n, n < (j + 1) * e.result_stride_ → r.getD n 0 = after.getD n 0))) ∧
        (∀ xc ∈ e.result_chunks_, xc.length = e.result_chunksize_) ∧
        (∀ i, i < e.result_chunks_.length →
          0 ≤ copySize e.result_stride_ e.result_size_ i ∧
          e.discardOffset + (copySize e.result_stride_ e.result_size_ i).toNat ≤
            e.result_chunksize_ ∧
          i * e.result_stride_ + (copySize e.result_stride_ e.result_size_ i).toNat ≤
            e.result_size_) ∧
        (∑ i in range e.result_chunks_.length, copySize e.result_stride_ e.result_size_ i =
          ((signal.length + patch.length - 1 : Nat) : Int)) ∧
        (∀ n, n < signal.length + patch.length - 1 →
          ∃! i, i < e.result_chunks_.length ∧ i * e.result_stride_ ≤ n ∧
            n < i * e.result_stride_ + (copySize e.result_stride_ e.result_size_ i).toNat) := by
  obtain ⟨c, hc, -⟩ := new_spec signal patch h1 h2
  obtain ⟨hg1, hg2, hg3⟩ := copy_geometry (stride patch.length)
    (resultSize signal.length patch.length) (stride_pos patch.length)
  refine ⟨c, hc, ?_⟩
  have key : ∀ op : ExecuteCall,
      (c.call op).extractResult =
          extractLoop (c.call op).result_stride_ (c.call op).result_size_
            (c.call op).discardOffset (c.call op).result_chunks_ 0
            (List.replicate (c.call op).result_size_ 0) ∧
        (∃ r, (c.call op).extractResult = some r ∧
          r.length = signal.length + patch.length - 1 ∧
          (∀ n, n < signal.length + patch.length - 1 →
            r.getD n 0 =
              ((c.call op).result_chunks_.getD (n / (c.call op).result_stride_) []).getD
                ((c.call op).discardOffset + n % (c.call op).result_stride_) 0) ∧
          (∀ j, j < (c.call op).result_chunks_.length → ∃ before after,
            extractLoop (c.call op).result_stride_ (c.call op).result_size_
                (c.call op).discardOffset ((c.call op).result_chunks_.take j) 0
                (List.replicate (c.call op).result_size_ 0) = some before ∧
            memcpy before (j * (c.call op).result_stride_)
                ((c.call op).result_chunks_.getD j []) (c.call op).discardOffset
                (copySize (c.call op).result_stride_ (c.call op).result_size_ j).toNat =
              some after ∧
            extractLoop (c.call op).result_stride_ (c.call op).result_size_
                (c.call op).discardOffset ((c.call op).result_chunks_.drop (j + 1)) (j + 1)
                after = some r ∧
            (∀ n, j * (c.call op).result_stride_ ≤ n → before.getD n 0 = 0) ∧
            (∀ n, n < j * (c.call op).result_stride_ ∨
                j * (c.call op).result_stride_ +
                  (copySize (c.call op).result_stride_ (c.call op).result_size_ j).toNat ≤
                    n →
              after.getD n 0 = before.getD n 0) ∧
            (∀ n, n < (j + 1) * (c.call op).result_stride_ →
              r.getD n 0 = after.getD n 0))) ∧
        (∀ xc ∈ (c.call op).result_chunks_, xc.length = (c.call op).result_chunksize_) ∧
        (∀ i, i < (c.call op).result_chunks_.length →
          0 ≤ copySize (c.call op).result_stride_ (c.call op).result_size_ i ∧
          (c.call op).discardOffset +
              (copySize (c.call op).result_stride_ (c.call op).result_size_ i).toNat ≤
            (c.call op).result_chunksize_ ∧
          i * (c.call op).result_stride_ +
              (copySize (c.call op).result_stride_ (c.call op).result_size_ i).toNat ≤
            (c.call op).result_size_) ∧
        (∑ i in range (c.call op).result_chunks_.length,
            copySize (c.call op).result_stride_ (c.call op).result_size_ i =
          ((signal.length + patch.length - 1 : Nat) : Int)) ∧
        (∀ n, n < signal.length + patch.length - 1 →
          ∃! i, i < (c.call op).result_chunks_.length ∧
            i * (c.call op).result_stride_ ≤ n ∧
            n < i * (c.call op).result_stride_ +
              (copySize (c.call op).result_stride_ (c.call op).result_size_ i).toNat) := by
    intro op
    obtain ⟨hex, hres⟩ := call_extract signal patch h1 h2 c hc op
    obtain ⟨hL, hU, hX, hnum, hclen, hst, hoff⟩ := call_fields signal patch h1 h2 c hc op
    refine ⟨hex, hres, ?_, ?_, ?_, ?_⟩
    · intro xc hxc
      rw [hclen xc hxc, hX]
    · intro i hi
      rw [hnum] at hi
      obtain ⟨a1, a2, a3⟩ := hg1 i hi
      rw [hL, hU, hX]
      exact ⟨a1, by omega, a3⟩
    · rw [hL, hU, hnum]
      exact hg2
    · rw [hL, hU, hnum]
      exact hg3
  rintro e (rfl | rfl)
  · exact key ExecuteCall.conv
  · exact key ExecuteCall.xcorr

/-- C3 applied to signal `[1 .. 7]`, patch `[1, 1, 1]`. -/
theorem extractResult_length_and_copies_witness :
    1 ≤ ([1, 1, 1] : List ℚ).length ∧
    ([1, 1, 1] : List ℚ).length ≤ ([1, 2, 3, 4, 5, 6, 7] : List ℚ).length ∧
    ∃ c, OverlapSaveConvolver.new ([1, 2, 3, 4, 5, 6, 7] : List ℚ) [1, 1, 1] = some c ∧
      ∃ r, c.executeXcorr.extractResult = some r ∧ r.length = 9 ∧
        ∀ n, n < 9 →
          r.getD n 0 = (c.executeXcorr.result_chunks_.getD
            (n / c.executeXcorr.result_stride_) []).getD
              (c.executeXcorr.discardOffset + n % c.executeXcorr.result_stride_) 0 := by
  refine ⟨by decide, by decide, ?_⟩
  obtain ⟨c, hc, h⟩ :=
    extractResult_length_and_copies ([1, 2, 3, 4, 5, 6, 7] : List ℚ) [1, 1, 1]
      (by decide) (by decide)
  obtain ⟨r, hr, hlen, hcont, -⟩ := (h c.executeXcorr (Or.inr rfl)).2.1
  exact ⟨c, hc, r, hr, hlen, hcont⟩

/-! ## The argmax scan of `bestPatchPosition` -/

/-- Invariant of the scan after the indices `P, …, P + n - 1`: the running maximum is
non-negative and bounds every visited sample; it is either still the initial `(0, 0)`
with no positive sample seen, or a positive sample together with the first index where
that value occurs. -/
theorem scan_invariant (data : List α) (P : Nat) :
    ∀ n acc, acc = (List.range' P n).foldl (scanStep data P) (0, 0) →
      0 ≤ acc.1 ∧ (∀ i, P ≤ i → i < P + n → data.getD i 0 ≤ acc.1) ∧
      ((acc = (0, 0) ∧ ∀ i, P ≤ i → i < P + n → data.getD i 0 ≤ 0) ∨
        (0 < acc.1 ∧ P + acc.2 < P + n ∧ data.getD (P + acc.2) 0 = acc.1 ∧
          ∀ i, P ≤ i → i < P + acc.2 → data.getD i 0 < acc.1)) := by
  intro n
  induction n with
  | zero =>
    intro acc hacc
    rw [List.range'_zero, List.foldl_nil] at hacc
    subst hacc
    exact ⟨le_refl _, fun i h1 h2 => by omega, Or.inl ⟨rfl, fun i h1 h2 => by omega⟩⟩
  | succ n ih =>
    intro acc1 hacc1
    rw [List.range'_concat, List.foldl_append] at hacc1
    simp only [List.foldl_cons, List.foldl_nil, Nat.one_mul] at hacc1
    obtain ⟨h0, hub, hcase⟩ := ih _ rfl
    generalize (List.range' P n).foldl (scanStep data P) (0, 0) = acc at *
    unfold scanStep at hacc1
    by_cases hf : data.getD (P + n) 0 > acc.1
    · rw [if_pos hf] at hacc1
      have hidx : P + n - P = n := by omega
      rw [hidx] at hacc1
      subst hacc1
      refine ⟨le_of_lt (lt_of_le_of_lt h0 hf), ?_, Or.inr ⟨lt_of_le_of_lt h0 hf, by omega,
        rfl, fun i hi1 hi2 => lt_of_le_of_lt (hub i hi1 hi2) hf⟩⟩
      intro i hi1 hi2
      by_cases hi : i = P + n
      · rw [hi]
      · exact le_of_lt (lt_of_le_of_lt (hub i hi1 (by omega)) hf)
    · rw [if_neg hf] at hacc1
      subst hacc1
      have hle : data.getD (P + n) 0 ≤ acc1.1 := not_lt.1 hf
      have hub2 : ∀ i, P ≤ i → i < P + (n + 1) → data.getD i 0 ≤ acc1.1 := by
        intro i hi1 hi2
        by_cases hi : i = P + n
        · rw [hi]; exact hle
        · exact hub i hi1 (by omega)
      refine ⟨h0, hub2, ?_⟩
      rcases hcase with ⟨hz, hall⟩ | ⟨hpos, hlt, hval, hfirst⟩
      · refine Or.inl ⟨hz, fun i hi1 hi2 => ?_⟩
        have := hub2 i hi1 hi2
        rw [hz] at this
        exact this
      · exact Or.inr ⟨hpos, by omega, hval, hfirst⟩

/-- What `bestPatchPosition` returns on valid inputs, in terms of the extracted
cross-correlation `r` (which is the direct correlation, sample `n` at lag `n - (P-1)`). -/
theorem bestPatchPosition_char (source patch : List α) (h1 : 1 ≤ patch.length)
    (h2 : patch.length ≤ source.length) :
    ∃ c r res, OverlapSaveConvolver.new source patch = some c ∧
      c.executeXcorr.extractResult = some r ∧
      r.length = source.length + patch.length - 1 ∧
      (∀ n, n < source.length + patch.length - 1 →
        r.getD n 0 = directXcorr source patch ((n : Int) - ((patch.length - 1 : Nat) : Int))) ∧
      bestPatchPosition source patch = some res ∧
      res.timestamp = (res.sampleIdx : α) / 1024 ∧
      0 ≤ res.value ∧
      (∀ i, patch.length ≤ i → i < r.length → r.getD i 0 ≤ res.value) ∧
      ((res.value = 0 ∧ res.sampleIdx = 0 ∧
          ∀ i, patch.length ≤ i → i < r.length → r.getD i 0 ≤ 0) ∨
        (0 < res.value ∧ patch.length + res.sampleIdx < r.length ∧
          r.getD (patch.length + res.sampleIdx) 0 = res.value ∧
          ∀ i, patch.length ≤ i → i < patch.length + res.sampleIdx →
            r.getD i 0 < res.value)) := by
  obtain ⟨c, r, hc, hr, hlen, hval⟩ := xcorr_extract source patch h1 h2
  have hUP : patch.length + (r.length - patch.length) = r.length := by
    rw [hlen]; unfold resultSize; omega
  obtain ⟨i0, i1, i2⟩ := scan_invariant r patch.length (r.length - patch.length)
    (scanMax r patch.length r.length) rfl
  rw [hUP] at i1 i2
  have hbest : bestPatchPosition source patch = some
      ⟨(scanMax r patch.length r.length).2, (scanMax r patch.length r.length).1,
        ((scanMax r patch.length r.length).2 : α) / (SAMPLE_RATE : α)⟩ := by
    unfold bestPatchPosition
    rw [if_neg (by omega), hc, Option.some_bind, hr, Option.some_bind]
  refine ⟨c, r, _, hc, hr, hlen, hval, hbest, ?_, i0, i1, ?_⟩
  · simp [SAMPLE_RATE]
  · rcases i2 with ⟨hz, hall⟩ | hhit
    · left
      exact ⟨by rw [hz], by rw [hz], hall⟩
    · right
      exact hhit

/-! ## C4: `bestPatchPosition` -/

/-- C4 as stated fails: for source `[-1, -1]` and patch `[1]` the correlation on the
scanned range `[P, U) = [1, 2)` is `r[1] = -1`, but the returned value is `0` (the running
maximum starts at `0`), so the value is not the maximum of `r` over the range. -/
theorem bestPatchPosition_value_not_range_max :
    ∃ c r res, OverlapSaveConvolver.new ([-1, -1] : List ℚ) [1] = some c ∧
      c.executeXcorr.extractResult = some r ∧
      bestPatchPosition ([-1, -1] : List ℚ) [1] = some res ∧
      r.length = 2 ∧ r.getD 1 0 = -1 ∧ res.value = 0 ∧
      ¬ ∃ i, 1 ≤ i ∧ i < 2 ∧ res.value = r.getD i 0 := by
  obtain ⟨c, r, res, hc, hr, hlen, hval, hres, -, h0, -, hcase⟩ :=
    bestPatchPosition_char ([-1, -1] : List ℚ) [1] (by decide) (by decide)
  have hr1 : r.getD 1 0 = -1 := by
    rw [hval 1 (by decide)]
    simp [directXcorr, sigAt]
  have hv : res.value = 0 := by
    rcases hcase with ⟨hz, -, -⟩ | ⟨hpos, hlt, hat, -⟩
    · exact hz
    · exfalso
      rw [hlen] at hlt
      have hidx : res.sampleIdx = 0 := by
        simp only [List.length_cons, List.length_nil] at hlt
        omega
      rw [hidx] at hat
      have : r.getD 1 0 = res.value := hat
      rw [hr1] at this
      linarith
  refine ⟨c, r, res, hc, hr, hres, hlen, hr1, hv, ?_⟩
  rintro ⟨i, hi1, hi2, hi3⟩
  have hi : i = 1 := by omega
  rw [hi, hr1, hv] at hi3
  norm_num at hi3

/-- C4, amended: for `1 ≤ P ≤ S`, `bestPatchPosition` succeeds; its value is
non-negative and bounds the correlation `r[i]` on `P ≤ i < U`; if some `r[i]` in that
range is positive, the value is attained at index `P + sampleIdx` of the range and at no
earlier index of the range (first maximum wins); if none is positive, value and
`sampleIdx` are both `0`; and `timestamp = sampleIdx / 1024`. -/
theorem bestPatchPosition_argmax (source patch : List α) (h1 : 1 ≤ patch.length)
    (h2 : patch.length ≤ source.length) :
    ∃ c r res, OverlapSaveConvolver.new source patch = some c ∧
      c.executeXcorr.extractResult = some r ∧
      r.length = source.length + patch.length - 1 ∧
      bestPatchPosition source patch = some res ∧
      res.timestamp = (res.sampleIdx : α) / 1024 ∧
      0 ≤ res.value ∧
      (∀ i, patch.length ≤ i → i < r.length → r.getD i 0 ≤ res.value) ∧
      ((∃ i, patch.length ≤ i ∧ i < r.length ∧ 0 < r.getD i 0) →
        patch.length + res.sampleIdx < r.length ∧
        r.getD (patch.length + res.sampleIdx) 0 = res.value ∧
        ∀ i, patch.length ≤ i → i < patch.length + res.sampleIdx →
          r.getD i 0 < res.value) ∧
      ((∀ i, patch.length ≤ i → i < r.length → r.getD i 0 ≤ 0) →
        res.value = 0 ∧ res.sampleIdx = 0) := by
  obtain ⟨c, r, res, hc, hr, hlen, -, hres, hts, h0, hub, hcase⟩ :=
    bestPatchPosition_char source patch h1 h2
  refine ⟨c, r, res, hc, hr, hlen, hres, hts, h0, hub, ?_, ?_⟩
  · rintro ⟨i, hi1, hi2, hi3⟩
    rcases hcase with ⟨-, -, hall⟩ | ⟨-, hlt, hat, hfirst⟩
    · exact absurd hi3 (not_lt.2 (hall i hi1 hi2))
    · exact ⟨hlt, hat, hfirst⟩
  · intro hall
    rcases hcase with ⟨hz, hidx, -⟩ | ⟨hpos, hlt, hat, -⟩
    · exact ⟨hz, hidx⟩
    · exfalso
      have := hall _ (Nat.le_add_right _ _) hlt
      rw [hat] at this
      exact absurd hpos (not_lt.2 this)

/-- C4 (amended) applied to source `[0, 1, 0]` and patch `[1]`. -/
theorem bestPatchPosition_argmax_witness :
    1 ≤ ([1] : List ℚ).length ∧ ([1] : List ℚ).length ≤ ([0, 1, 0] : List ℚ).length ∧
    ∃ res, bestPatchPosition ([0, 1, 0] : List ℚ) [1] = some res ∧
      res.timestamp = (res.sampleIdx : ℚ) / 1024 ∧ 0 ≤ res.value := by
  refine ⟨by decide, by decide, ?_⟩
  obtain ⟨c, r, res, -, -, -, hres, hts, h0, -⟩ :=
    bestPatchPosition_argmax ([0, 1, 0] : List ℚ) [1] (by decide) (by decide)
  exact ⟨res, hres, hts, h0⟩

/-! ## C5: the reported index against the best start offset -/

/-- If the correlation on the scanned range has a positive maximum whose first
occurrence is at index `i`, `bestPatchPosition` reports `sampleIdx = i - P`. -/
theorem bestPatchPosition_first_max (source patch : List α) (h1 : 1 ≤ patch.length)
    (h2 : patch.length ≤ source.length) (corr : Nat → α)
    (hcorr : ∀ n, corr n = directXcorr source patch ((n : Int) - ((patch.length - 1 : Nat) : Int)))
    (i : Nat) (hi1 : patch.length ≤ i) (hi2 : i < source.length + patch.length - 1)
    (hpos : 0 < corr i) (hfirst : ∀ n, patch.length ≤ n → n < i → corr n < corr i)
    (hmax : ∀ n, patch.length ≤ n → n < source.length + patch.length - 1 → corr n ≤ corr i) :
    ∃ res, bestPatchPosition source patch = some res ∧ res.sampleIdx = i - patch.length ∧
      res.value = corr i := by
  obtain ⟨c, r, res, hc, hr, hlen, hval, hres, -, h0, hub, hcase⟩ :=
    bestPatchPosition_char source patch h1 h2
  have hrc : ∀ n, n < source.length + patch.length - 1 → r.getD n 0 = corr n :=
    fun n hn => by rw [hval n hn, hcorr]
  refine ⟨res, hres, ?_⟩
  rcases hcase with ⟨-, -, hall⟩ | ⟨-, hlt, hat, hfirst2⟩
  · have := hall i hi1 (by omega)
    rw [hrc i hi2] at this
    exact absurd hpos (not_lt.2 this)
  · rw [hlen] at hlt
    have hge : corr i ≤ res.value := by
      have := hub i hi1 (by omega)
      rwa [hrc i hi2] at this
    have hle : res.value ≤ corr i := by
      rw [← hat, hrc _ hlt]
      exact hmax _ (Nat.le_add_right _ _) hlt
    have hv : res.value = corr i := le_antisymm hle hge
    refine ⟨?_, hv⟩
    rcases Nat.lt_trichotomy (patch.length + res.sampleIdx) i with hlt2 | heq | hgt
    · have := hfirst _ (Nat.le_add_right _ _) hlt2
      rw [← hrc _ hlt, hat, hv] at this
      exact absurd this (lt_irrefl _)
    · omega
    · have := hfirst2 i hi1 hgt
      rw [hrc i hi2, hv] at this
      exact absurd this (lt_irrefl _)

theorem knownShiftPatch_length : knownShiftPatch.length = 256 := by
  unfold knownShiftPatch
  rw [List.length_replicate]

theorem knownShiftSource_length : knownShiftSource.length = 8192 := by
  unfold knownShiftSource
  rw [List.length_append, List.length_append, List.length_replicate, List.length_replicate,
    List.length_replicate]

theorem knownShiftSource_sigAt (k : Int) :
    sigAt knownShiftSource k = if 2000 ≤ k ∧ k ≤ 2256 then 1 else 0 := by
  have hsrc : knownShiftSource = paddedSignal (List.replicate 257 (1 : ℚ)) 2000 5935 := rfl
  unfold sigAt
  by_cases hk : 0 ≤ k
  · rw [if_pos hk, hsrc, paddedSignal_getD]
    unfold sigAt
    by_cases hk2 : 2000 ≤ k
    · have h0 : (0 : Int) ≤ ((k.toNat : Nat) : Int) - ((2000 : Nat) : Int) := by omega
      rw [if_pos h0, List.getD_eq_getElem?_getD, List.getElem?_replicate]
      by_cases hk3 : k ≤ 2256
      · rw [if_pos (by omega), if_pos ⟨hk2, hk3⟩]; rfl
      · rw [if_neg (by omega), if_neg (by omega)]; rfl
    · have h0 : ¬ (0 : Int) ≤ ((k.toNat : Nat) : Int) - ((2000 : Nat) : Int) := by omega
      rw [if_neg h0, if_neg (by omega)]
  · rw [if_neg hk, if_neg (by omega)]

theorem knownShiftPatch_getD (j : Nat) (hj : j < 256) : knownShiftPatch.getD j 0 = 1 := by
  unfold knownShiftPatch
  rw [List.getD_eq_getElem?_getD, List.getElem?_replicate, if_pos hj]
  rfl

theorem knownShift_term (k : Int) (j : Nat) (hj : j < 256) :
    knownShiftPatch.getD j 0 * sigAt knownShiftSource (k + j) =
      if 2000 ≤ k + j ∧ k + j ≤ 2256 then 1 else 0 := by
  rw [knownShiftPatch_getD j hj, knownShiftSource_sigAt, one_mul]

theorem knownShift_corr_le (k : Int) : directXcorr knownShiftSource knownShiftPatch k ≤ 256 := by
  unfold directXcorr
  have hlen := knownShiftPatch_length
  rw [hlen]
  calc ∑ j in range 256, knownShiftPatch.getD j 0 * sigAt knownShiftSource (k + j)
      ≤ ∑ j in range 256, (1 : ℚ) := by
        apply Finset.sum_le_sum
        intro j hj
        rw [knownShift_term k j (Finset.mem_range.1 hj)]
        split <;> norm_num
    _ = 256 := by simp

theorem knownShift_corr_lt (k : Int) (hk : k < 2000) :
    directXcorr knownShiftSource knownShiftPatch k ≤ 255 := by
  unfold directXcorr
  have hlen := knownShiftPatch_length
  rw [hlen, Finset.sum_range_succ']
  have h0 : knownShiftPatch.getD 0 0 * sigAt knownShiftSource (k + ((0 : Nat) : Int)) = 0 := by
    rw [knownShift_term k 0 (by decide), if_neg (by omega)]
  rw [h0, add_zero]
  calc ∑ j in range 255, knownShiftPatch.getD (j + 1) 0 *
        sigAt knownShiftSource (k + ((j + 1 : Nat) : Int))
      ≤ ∑ j in range 255, (1 : ℚ) := by
        apply Finset.sum_le_sum
        intro j hj
        have hj' : j < 255 := Finset.mem_range.1 hj
        rw [knownShift_term k (j + 1) (by omega)]
        split <;> norm_num
    _ = 255 := by simp

theorem knownShift_corr_eq : directXcorr knownShiftSource knownShiftPatch 2000 = 256 := by
  unfold directXcorr
  have hlen := knownShiftPatch_length
  rw [hlen]
  calc ∑ j in range 256, knownShiftPatch.getD j 0 * sigAt knownShiftSource (2000 + (j : Int))
      = ∑ j in range 256, (1 : ℚ) := by
        apply Finset.sum_congr rfl
        intro j hj
        have hj' : j < 256 := Finset.mem_range.1 hj
        rw [knownShift_term 2000 j hj', if_pos (by omega)]
    _ = 256 := by simp

/-- C5 (code at the failing input): on the "known shift" scenario the best start offset
is `2000` (correlation `256` there, at most `255` at offset `1999`), but
`bestPatchPosition` reports `sampleIdx = 1999`: the scan maps index `i` to `i - P`
although index `i` of the correlation is the alignment starting at `i - (P - 1)`. -/
theorem knownShift_reports_1999 :
    ∃ res, bestPatchPosition knownShiftSource knownShiftPatch = some res ∧
      res.sampleIdx = 1999 ∧ res.value = 256 ∧
      directXcorr knownShiftSource knownShiftPatch 2000 = 256 ∧
      directXcorr knownShiftSource knownShiftPatch 1999 ≤ 255 := by
  have hP := knownShiftPatch_length
  have hS := knownShiftSource_length
  obtain ⟨res, hres, hidx, hv⟩ := bestPatchPosition_first_max knownShiftSource knownShiftPatch
    (by rw [hP]; decide) (by rw [hP, hS]; decide)
    (fun n => directXcorr knownShiftSource knownShiftPatch
      ((n : Int) - ((knownShiftPatch.length - 1 : Nat) : Int)))
    (fun n => rfl) 2255 (by rw [hP]; decide) (by rw [hP, hS]; decide)
    (by
      have : ((2255 : Nat) : Int) - ((knownShiftPatch.length - 1 : Nat) : Int) = 2000 := by
        rw [hP]; rfl
      simp only [this, knownShift_corr_eq]
      norm_num)
    (by
      intro n hn1 hn2
      have h2 : ((2255 : Nat) : Int) - ((knownShiftPatch.length - 1 : Nat) : Int) = 2000 := by
        rw [hP]; rfl
      simp only [h2, knownShift_corr_eq]
      have := knownShift_corr_lt ((n : Int) - ((knownShiftPatch.length - 1 : Nat) : Int))
        (by rw [hP]; omega)
      linarith)
    (by
      intro n hn1 hn2
      have h2 : ((2255 : Nat) : Int) - ((knownShiftPatch.length - 1 : Nat) : Int) = 2000 := by
        rw [hP]; rfl
      simp only [h2, knownShift_corr_eq]
      exact knownShift_corr_le _)
  have h2 : ((2255 : Nat) : Int) - ((knownShiftPatch.length - 1 : Nat) : Int) = 2000 := by
    rw [hP]; rfl
  simp only [h2, knownShift_corr_eq] at hv
  refine ⟨res, hres, ?_, hv, knownShift_corr_eq, knownShift_corr_lt 1999 (by decide)⟩
  rw [hidx, hP]

/-! ## C9, C10: `signalSlice` -/

/-- Behaviour of `signalSlice` on times `0 ≤ start ≤ end_`: it trips its assertion exactly when
`⌊start · 1024⌋ ≥ len`; otherwise it returns `⌊end_ · 1024⌋ - ⌊start · 1024⌋` samples,
sample `j` being sample `⌊start · 1024⌋ + j` of the signal, or `0` past its end. -/
theorem signalSlice_spec [FloorRing α] (signal : List α) (start end_ : α)
    (h0 : 0 ≤ start) (h1 : start ≤ end_) :
    (signal.length ≤ ⌊start * 1024⌋₊ → signalSlice signal start end_ = none) ∧
    (⌊start * 1024⌋₊ < signal.length →
      ∃ r, signalSlice signal start end_ = some r ∧
        r.length = ⌊end_ * 1024⌋₊ - ⌊start * 1024⌋₊ ∧
        ∀ j, j < r.length → r.getD j 0 = signal.getD (⌊start * 1024⌋₊ + j) 0) := by
  have hmono : ⌊start * 1024⌋₊ ≤ ⌊end_ * 1024⌋₊ :=
    Nat.floor_mono (mul_le_mul_of_nonneg_right h1 (by norm_num))
  have hsr : ((SAMPLE_RATE : Nat) : α) = 1024 := by simp [SAMPLE_RATE]
  unfold signalSlice
  simp only [hsr, if_pos hmono]
  generalize ⌊start * 1024⌋₊ = a at *
  generalize ⌊end_ * 1024⌋₊ = b at *
  constructor
  · intro hlen
    rw [if_neg (by omega)]
  · intro hlen
    rw [if_pos hlen]
    by_cases hshort : signal.length < a + (b - a)
    · rw [if_pos hshort]
      obtain ⟨r, hr, hrlen, -, hmid, hhi⟩ := memcpy_spec (List.replicate (b - a) (0 : α)) 0
        signal a (signal.length - a) (by simp; omega) (by omega)
      refine ⟨r, hr, by simpa using hrlen, ?_⟩
      intro j hj
      by_cases hja : j < signal.length - a
      · have := hmid j hja
        rwa [Nat.zero_add] at this
      · rw [hhi j (by omega), @List.getD_eq_default _ signal 0 (a + j) (by omega),
          List.getD_eq_getElem?_getD, List.getElem?_replicate]
        split <;> rfl
    · rw [if_neg hshort]
      refine ⟨_, rfl, window_length _ _ _ (by omega), ?_⟩
      intro j hj
      rw [window_length _ _ _ (by omega)] at hj
      exact window_getD _ _ _ _ hj

/-- C9 as stated fails: for `t0 = 1/2048` and `t1 = 1/1024` the slice has
`⌊t1 · 1024⌋ - ⌊t0 · 1024⌋ = 1 - 0 = 1` sample, while `⌊(t1 - t0) · 1024⌋ = 0`. -/
theorem signalSlice_floor_difference_mismatch :
    (0 : ℚ) ≤ 1 / 2048 ∧ (1 / 2048 : ℚ) ≤ 1 / 1024 ∧
    ⌊(1 / 2048 : ℚ) * 1024⌋₊ < ([5] : List ℚ).length ∧
    ∃ r, signalSlice ([5] : List ℚ) (1 / 2048) (1 / 1024) = some r ∧ r.length = 1 ∧
      r.length ≠ ⌊((1 / 1024 : ℚ) - 1 / 2048) * 1024⌋₊ := by
  have hf0 : ⌊(1 / 2048 : ℚ) * 1024⌋₊ = 0 := by norm_num
  have hf1 : ⌊(1 / 1024 : ℚ) * 1024⌋₊ = 1 := by norm_num
  have hfd : ⌊((1 / 1024 : ℚ) - 1 / 2048) * 1024⌋₊ = 0 := by norm_num
  obtain ⟨r, hr, hlen, -⟩ := (signalSlice_spec ([5] : List ℚ) (1 / 2048) (1 / 1024)
    (by norm_num) (by norm_num)).2 (by rw [hf0]; decide)
  rw [hf0, hf1] at hlen
  exact ⟨by norm_num, by norm_num, by rw [hf0]; decide, r, hr, hlen, by rw [hlen, hfd]; decide⟩

/-- C9, amended: for `0 ≤ t0 ≤ t1` with `⌊t0 · 1024⌋ < len(s)`, `signalSlice s t0 t1`
returns a signal of length `⌊t1 · 1024⌋ - ⌊t0 · 1024⌋`, whose sample `j` is sample
`⌊t0 · 1024⌋ + j` of `s` within the available range and zero thereafter. -/
theorem signalSlice_length [FloorRing α] (s : List α) (t0 t1 : α)
    (h0 : 0 ≤ t0) (h1 : t0 ≤ t1) (h2 : ⌊t0 * 1024⌋₊ < s.length) :
    ∃ r, signalSlice s t0 t1 = some r ∧
      r.length = ⌊t1 * 1024⌋₊ - ⌊t0 * 1024⌋₊ ∧
      ∀ j, j < r.length → r.getD j 0 =
        if ⌊t0 * 1024⌋₊ + j < s.length then s.getD (⌊t0 * 1024⌋₊ + j) 0 else 0 := by
  obtain ⟨r, hr, hlen, hval⟩ := (signalSlice_spec s t0 t1 h0 h1).2 h2
  refine ⟨r, hr, hlen, fun j hj => ?_⟩
  rw [hval j hj]
  split
  · rfl
  · exact List.getD_eq_default _ _ (by omega)

/-- C9 (amended) applied to `s = [5, 6, 7]`, `t0 = 1/1024`, `t1 = 4/1024`. -/
theorem signalSlice_length_witness :
    (0 : ℚ) ≤ 1 / 1024 ∧ (1 / 1024 : ℚ) ≤ 4 / 1024 ∧
    ⌊(1 / 1024 : ℚ) * 1024⌋₊ < ([5, 6, 7] : List ℚ).length ∧
    ∃ r, signalSlice ([5, 6, 7] : List ℚ) (1 / 1024) (4 / 1024) = some r ∧ r.length = 3 := by
  have hf0 : ⌊(1 / 1024 : ℚ) * 1024⌋₊ = 1 := by norm_num
  have hf1 : ⌊(4 / 1024 : ℚ) * 1024⌋₊ = 4 := by norm_num
  have h2 : ⌊(1 / 1024 : ℚ) * 1024⌋₊ < ([5, 6, 7] : List ℚ).length := by rw [hf0]; decide
  obtain ⟨r, hr, hlen, -⟩ := signalSlice_length ([5, 6, 7] : List ℚ) (1 / 1024) (4 / 1024)
    (by norm_num) (by norm_num) h2
  rw [hf0, hf1] at hlen
  exact ⟨by norm_num, by norm_num, h2, r, hr, hlen⟩

/-- C10: for `0 ≤ start ≤ end_`, `signalSlice` fails (its assertion trips) if and only
if `start · 1024 ≥ len(s)`; whenever `start · 1024 < len(s)` it returns a signal of
exactly `⌊end_ · 1024⌋ - ⌊start · 1024⌋` samples, whose sample `j` is sample
`⌊start · 1024⌋ + j` of `s` while that index is inside `s` and zero once the source has
run out. -/
theorem signalSlice_fails_iff [FloorRing α] (s : List α) (start end_ : α)
    (h0 : 0 ≤ start) (h1 : start ≤ end_) :
    (signalSlice s start end_ = none ↔ (s.length : α) ≤ start * 1024) ∧
    (start * 1024 < (s.length : α) →
      ∃ r, signalSlice s start end_ = some r ∧
        r.length = ⌊end_ * 1024⌋₊ - ⌊start * 1024⌋₊ ∧
        (∀ j, j < r.length → r.getD j 0 =
          if ⌊start * 1024⌋₊ + j < s.length then s.getD (⌊start * 1024⌋₊ + j) 0 else 0) ∧
        (∀ j, j < ⌊end_ * 1024⌋₊ - ⌊start * 1024⌋₊ → ⌊start * 1024⌋₊ + j < s.length →
          r[j]? = s[⌊start * 1024⌋₊ + j]?) ∧
        (∀ j, j < ⌊end_ * 1024⌋₊ - ⌊start * 1024⌋₊ → s.length ≤ ⌊start * 1024⌋₊ + j →
          r[j]? = some 0)) := by
  have hnn : (0 : α) ≤ start * 1024 := mul_nonneg h0 (by norm_num)
  have hiff : s.length ≤ ⌊start * 1024⌋₊ ↔ (s.length : α) ≤ start * 1024 :=
    Nat.le_floor_iff hnn
  obtain ⟨hfail, hok⟩ := signalSlice_spec s start end_ h0 h1
  refine ⟨⟨?_, fun h => hfail (hiff.2 h)⟩, ?_⟩
  · intro hnone
    by_contra hlt
    obtain ⟨r, hr, -⟩ := hok (by
      by_contra hge
      exact hlt (hiff.1 (not_lt.1 hge)))
    rw [hnone] at hr
    exact Option.noConfusion hr
  · intro hlt
    obtain ⟨r, hr, hlen, hval⟩ := hok (by
      by_contra hge
      exact absurd (hiff.1 (not_lt.1 hge)) (not_le.2 hlt))
    refine ⟨r, hr, hlen, fun j hj => ?_, fun j hj hin => ?_, fun j hj hout => ?_⟩
    · rw [hval j hj]
      split
      · rfl
      · exact List.getD_eq_default _ _ (by omega)
    · have hjr : j < r.length := by rw [hlen]; exact hj
      have := hval j hjr
      rw [List.getD_eq_getElem?_getD, List.getD_eq_getElem?_getD,
        List.getElem?_eq_getElem hjr, List.getElem?_eq_getElem hin] at this
      rw [List.getElem?_eq_getElem hjr, List.getElem?_eq_getElem hin]
      exact congrArg some this
    · have hjr : j < r.length := by rw [hlen]; exact hj
      have := hval j hjr
      rw [List.getD_eq_default _ _ hout, List.getD_eq_getElem?_getD,
        List.getElem?_eq_getElem hjr] at this
      rw [List.getElem?_eq_getElem hjr]
      exact congrArg some this

/-- C10 applied to `s = [5, 6, 7]`, `start = 1/1024`, `end_ = 6/1024`: the slice has five
samples, the two left in the source and three zeros. -/
theorem signalSlice_fails_iff_witness :
    (0 : ℚ) ≤ 1 / 1024 ∧ (1 / 1024 : ℚ) ≤ 6 / 1024 ∧
    (signalSlice ([5, 6, 7] : List ℚ) (1 / 1024) (6 / 1024) = none ↔
      ((([5, 6, 7] : List ℚ).length : Nat) : ℚ) ≤ 1 / 1024 * 1024) ∧
    ∃ r, signalSlice ([5, 6, 7] : List ℚ) (1 / 1024) (6 / 1024) = some r ∧ r.length = 5 ∧
      r[0]? = some 6 ∧ r[1]? = some 7 ∧ r[2]? = some 0 ∧ r[3]? = some 0 ∧
      r[4]? = some 0 := by
  have hf0 : ⌊(1 / 1024 : ℚ) * 1024⌋₊ = 1 := by norm_num
  have hf1 : ⌊(6 / 1024 : ℚ) * 1024⌋₊ = 6 := by norm_num
  obtain ⟨hiff, hok⟩ := signalSlice_fails_iff ([5, 6, 7] : List ℚ) (1 / 1024) (6 / 1024)
    (by norm_num) (by norm_num)
  obtain ⟨r, hr, hlen, -, hin, hout⟩ := hok (by norm_num)
  rw [hf0, hf1] at hlen hin hout
  exact ⟨by norm_num, by norm_num, hiff, r, hr, hlen, hin 0 (by decide) (by decide),
    hin 1 (by decide) (by decide), hout 2 (by decide) (by decide),
    hout 3 (by decide) (by decide), hout 4 (by decide) (by decide)⟩

/-! ## C6 – C8: `howCloseAreSignals` -/

theorem normalizedA_length (sqrtf : α → α) (data : List α) (size : Nat)
    (h : size ≤ data.length) : (normalizedA sqrtf data size).length = size := by
  simp [normalizedA, subScalar, divScalar, h]

theorem normalizedB_length (sqrtf : α → α) (data : List α) (size : Nat)
    (h : size ≤ data.length) : (normalizedB sqrtf data size).length = size := by
  simp [normalizedB, subScalar, divScalar, h]

theorem nonConstant_length (s : List α) (h : nonConstant s) : 2 ≤ s.length := by
  obtain ⟨x, hx, y, hy, hxy⟩ := h
  match s, hx, hy with
  | [], hx, _ => simp at hx
  | [z], hx, hy =>
    simp only [List.mem_singleton] at hx hy
    exact absurd (hx.trans hy.symm) hxy
  | _ :: _ :: _, _, _ => simp

/-- Behaviour of `howCloseAreSignals` on non-empty signals returns the result of larger value among
the two `bestPatchPosition` calls (the second one on a tie). -/
theorem howCloseAreSignals_char (sqrtf : α → α) (one two : List α)
    (h1 : 1 ≤ one.length) (h2 : 1 ≤ two.length) :
    ∃ resA resB,
      bestPatchPosition (normalizedA sqrtf one (min one.length two.length))
        (normalizedB sqrtf two (min one.length two.length)) = some resA ∧
      bestPatchPosition (normalizedA sqrtf two (min one.length two.length))
        (normalizedB sqrtf one (min one.length two.length)) = some resB ∧
      howCloseAreSignals sqrtf one two =
        some (if resA.value > resB.value then resA else resB) := by
  have hN : 1 ≤ min one.length two.length := le_min h1 h2
  have hl1 := normalizedA_length sqrtf one _ (min_le_left one.length two.length)
  have hl2 := normalizedB_length sqrtf two _ (min_le_right one.length two.length)
  have hl3 := normalizedA_length sqrtf two _ (min_le_right one.length two.length)
  have hl4 := normalizedB_length sqrtf one _ (min_le_left one.length two.length)
  obtain ⟨-, -, resA, -, -, -, -, hA, -⟩ := bestPatchPosition_char
    (normalizedA sqrtf one (min one.length two.length))
    (normalizedB sqrtf two (min one.length two.length)) (by rw [hl2]; exact hN)
    (by rw [hl1, hl2])
  obtain ⟨-, -, resB, -, -, -, -, hB, -⟩ := bestPatchPosition_char
    (normalizedA sqrtf two (min one.length two.length))
    (normalizedB sqrtf one (min one.length two.length)) (by rw [hl4]; exact hN)
    (by rw [hl3, hl4])
  refine ⟨resA, resB, hA, hB, ?_⟩
  unfold howCloseAreSignals
  simp only [hA, hB, Option.some_bind]

/-- C7: for non-constant signals `a` and `b` (of any lengths), both
`howCloseAreSignals a b` and `howCloseAreSignals b a` return a result, and the two
values are equal exactly. -/
theorem howCloseAreSignals_value_symmetric (sqrtf : α → α) (a b : List α)
    (ha : nonConstant a) (hb : nonConstant b) :
    ∃ r1 r2, howCloseAreSignals sqrtf a b = some r1 ∧
      howCloseAreSignals sqrtf b a = some r2 ∧ r1.value = r2.value := by
  have hla := nonConstant_length a ha
  have hlb := nonConstant_length b hb
  obtain ⟨rA, rB, hA, hB, hab⟩ := howCloseAreSignals_char sqrtf a b (by omega) (by omega)
  obtain ⟨rA2, rB2, hA2, hB2, hba⟩ := howCloseAreSignals_char sqrtf b a (by omega) (by omega)
  rw [min_comm b.length a.length] at hA2 hB2
  obtain rfl : rB = rA2 := Option.some.inj (hB.symm.trans hA2)
  obtain rfl : rA = rB2 := Option.some.inj (hA.symm.trans hB2)
  refine ⟨_, _, hab, hba, ?_⟩
  rcases lt_trichotomy rA.value rB.value with h | h | h
  · rw [if_neg (not_lt.2 (le_of_lt h)), if_pos h]
  · rw [if_neg (by rw [h]; exact lt_irrefl _), if_neg (by rw [h]; exact lt_irrefl _), h]
  · rw [if_pos h, if_neg (not_lt.2 (le_of_lt h))]

/-- C7 applied to `a = [1, -1]` and `b = [1, 2, 4]` (different lengths) over `ℝ`. -/
theorem howCloseAreSignals_value_symmetric_witness :
    nonConstant ([1, -1] : List ℝ) ∧ nonConstant ([1, 2, 4] : List ℝ) ∧
    ∃ r1 r2, howCloseAreSignals Real.sqrt ([1, -1] : List ℝ) [1, 2, 4] = some r1 ∧
      howCloseAreSignals Real.sqrt ([1, 2, 4] : List ℝ) [1, -1] = some r2 ∧
      r1.value = r2.value :=
  have ha : nonConstant ([1, -1] : List ℝ) := ⟨1, by simp, -1, by simp, by norm_num⟩
  have hb : nonConstant ([1, 2, 4] : List ℝ) := ⟨1, by simp, 2, by simp, by norm_num⟩
  ⟨ha, hb, howCloseAreSignals_value_symmetric Real.sqrt [1, -1] [1, 2, 4] ha hb⟩

/-- If no correlation sample of the scanned range `[P, U)` is positive,
`bestPatchPosition` returns value `0` at index `0`. -/
theorem bestPatchPosition_nonpos (source patch : List α) (h1 : 1 ≤ patch.length)
    (h2 : patch.length ≤ source.length)
    (hall : ∀ n, patch.length ≤ n → n < source.length + patch.length - 1 →
      directXcorr source patch ((n : Int) - ((patch.length - 1 : Nat) : Int)) ≤ 0) :
    ∃ res, bestPatchPosition source patch = some res ∧ res.value = 0 ∧
      res.sampleIdx = 0 := by
  obtain ⟨c, r, res, hc, hr, hlen, hval, hres, -, h0, hub, hcase⟩ :=
    bestPatchPosition_char source patch h1 h2
  refine ⟨res, hres, ?_⟩
  rcases hcase with ⟨hz, hidx, -⟩ | ⟨hpos, hlt, hat, -⟩
  · exact ⟨hz, hidx⟩
  · exfalso
    rw [hlen] at hlt
    have := hall _ (Nat.le_add_right _ _) hlt
    rw [← hval _ hlt, hat] at this
    exact absurd hpos (not_lt.2 this)

theorem normalizedA_one_minus_one (sqrtf : α → α) (hs : sqrtf 1 = 1) :
    normalizedA sqrtf [1, -1] 2 = [1 / 2, -1 / 2] := by
  have hm : mean ([1, -1] : List α) = 0 := by simp [mean]
  have hsub : subScalar ([1, -1] : List α) 0 = [1, -1] := by simp [subScalar]
  have hstd : std sqrtf ([1, -1] : List α) = 1 := by
    unfold std
    rw [hm]
    have : (List.map (fun v : α => |v - 0| * |v - 0|) [1, -1]).sum /
        ((([1, -1] : List α).length : Nat) : α) = 1 := by
      simp
    rw [this, hs]
  unfold normalizedA
  simp only [List.take, hm, hsub, hstd]
  simp [divScalar]

theorem normalizedB_one_minus_one (sqrtf : α → α) (hs : sqrtf 1 = 1) :
    normalizedB sqrtf [1, -1] 2 = [1, -1] := by
  have hm : mean ([1, -1] : List α) = 0 := by simp [mean]
  have hsub : subScalar ([1, -1] : List α) 0 = [1, -1] := by simp [subScalar]
  have hstd : std sqrtf ([1, -1] : List α) = 1 := by
    unfold std
    rw [hm]
    have : (List.map (fun v : α => |v - 0| * |v - 0|) [1, -1]).sum /
        ((([1, -1] : List α).length : Nat) : α) = 1 := by
      simp
    rw [this, hs]
  unfold normalizedB
  simp only [List.take, hm, hsub, hstd]
  simp [divScalar]

/-- Self-similarity of `[1, -1]` for any square root with `sqrtf 1 = 1`: the correlation
of the normalised copies at full overlap (lag `0`) is the Pearson coefficient `1`, but
the only scanned lag is `1`, where it is `-1/2`; the returned value is `0`. -/
theorem howClose_one_minus_one (sqrtf : α → α) (hs : sqrtf 1 = 1) :
    ∃ res, howCloseAreSignals sqrtf ([1, -1] : List α) [1, -1] = some res ∧
      res.value = 0 ∧
      directXcorr (normalizedA sqrtf [1, -1] 2) (normalizedB sqrtf [1, -1] 2) 0 = 1 ∧
      directXcorr (normalizedA sqrtf [1, -1] 2) (normalizedB sqrtf [1, -1] 2) 1 = -1 / 2 := by
  obtain ⟨rA, rB, hA, hB, hres⟩ := howCloseAreSignals_char sqrtf ([1, -1] : List α) [1, -1]
    (by simp) (by simp)
  have hmin : min ([1, -1] : List α).length ([1, -1] : List α).length = 2 := by simp
  rw [hmin] at hA hB
  rw [normalizedA_one_minus_one sqrtf hs, normalizedB_one_minus_one sqrtf hs] at hA hB ⊢
  have hlag1 : directXcorr ([1 / 2, -1 / 2] : List α) [1, -1] 1 = -1 / 2 := by
    simp [directXcorr, sigAt, Finset.sum_range_succ]
  have hlag0 : directXcorr ([1 / 2, -1 / 2] : List α) [1, -1] 0 = 1 := by
    simp [directXcorr, sigAt, Finset.sum_range_succ]
    norm_num
  obtain ⟨r0, hr0, hv0, -⟩ := bestPatchPosition_nonpos ([1 / 2, -1 / 2] : List α) [1, -1]
    (by simp) (by simp) (by
      intro n hn1 hn2
      simp only [List.length_cons, List.length_nil] at hn1 hn2
      have hn : n = 2 := by omega
      subst hn
      have : (((2 : Nat) : Int)) - (((([1, -1] : List α).length - 1 : Nat)) : Int) = 1 := by
        simp
      rw [this, hlag1]
      norm_num)
  obtain rfl : rA = r0 := Option.some.inj (hA.symm.trans hr0)
  obtain rfl : rB = rA := Option.some.inj (hB.symm.trans hr0)
  refine ⟨_, hres, ?_, hlag0, hlag1⟩
  rw [if_neg (lt_irrefl _)]
  exact hv0

/-- C6 (code at the failing input): over the reals, `howCloseAreSignals a a` for the
non-constant signal `a = [1, -1]` returns value `0`, not a value `≥ 0.999`; the Pearson
coefficient `1` sits at lag `0` (index `P - 1` of the correlation), which the scan of
`bestPatchPosition` (starting at index `P`) never reads. -/
theorem howClose_self_is_zero :
    nonConstant ([1, -1] : List ℝ) ∧
    ∃ res, howCloseAreSignals Real.sqrt ([1, -1] : List ℝ) [1, -1] = some res ∧
      res.value = 0 ∧ ¬ (0.999 ≤ res.value) ∧
      directXcorr (normalizedA Real.sqrt ([1, -1] : List ℝ) 2)
        (normalizedB Real.sqrt [1, -1] 2) 0 = 1 := by
  obtain ⟨res, hres, hv, h0, -⟩ := howClose_one_minus_one Real.sqrt Real.sqrt_one
  exact ⟨⟨1, by simp, -1, by simp, by norm_num⟩, res, hres, hv, by rw [hv]; norm_num, h0⟩

theorem sum_subScalar (s : List α) (m : α) :
    (subScalar s m).sum = s.sum - (s.length : α) * m := by
  induction s with
  | nil => simp [subScalar]
  | cons x xs ih =>
    simp only [subScalar, List.map_cons, List.sum_cons, List.length_cons] at ih ⊢
    rw [ih]
    push_cast
    ring

theorem mean_subScalar_mean (s : List α) : mean (subScalar s (mean s)) = 0 := by
  unfold mean
  rw [sum_subScalar]
  by_cases h : (s.length : α) = 0
  · simp [subScalar, h]
  · rw [mul_div_cancel₀ _ h, sub_self, zero_div]

/-- The standard deviation the code computes on the mean-subtracted copy. -/
theorem std_subScalar_mean (sqrtf : α → α) (s : List α) :
    std sqrtf (subScalar s (mean s)) =
      sqrtf ((s.map fun x => (x - mean s) * (x - mean s)).sum / (s.length : α)) := by
  unfold std
  rw [mean_subScalar_mean]
  congr 2
  · unfold subScalar
    rw [List.map_map]
    congr 1
    apply List.map_congr_left
    intro x _
    simp only [Function.comp, sub_zero, abs_mul_abs_self]
  · simp [subScalar]

theorem dot_divScalar (x y : List α) (c d : α) :
    dot (divScalar x c) (divScalar y d) = dot x y / (c * d) := by
  unfold dot divScalar
  induction x generalizing y with
  | nil => simp
  | cons u us ih =>
    cases y with
    | nil => simp
    | cons v vs =>
      simp only [List.map_cons, List.zipWith_cons_cons, List.sum_cons]
      rw [ih vs, div_mul_div_comm, add_div]

theorem dot_subScalar (a b : List α) (m n : α) :
    dot (subScalar a m) (subScalar b n) =
      (List.zipWith (fun x y => (x - m) * (y - n)) a b).sum := by
  unfold dot subScalar
  induction a generalizing b with
  | nil => simp
  | cons u us ih =>
    cases b with
    | nil => simp
    | cons v vs =>
      simp only [List.map_cons, List.zipWith_cons_cons, List.sum_cons]
      rw [ih vs]

theorem sum_sq_nonneg (s : List α) (m : α) :
    0 ≤ (s.map fun x => (x - m) * (x - m)).sum := by
  apply List.sum_nonneg
  intro v hv
  simp only [List.mem_map] at hv
  obtain ⟨x, -, rfl⟩ := hv
  exact mul_self_nonneg _

/-- For a square root on the non-negative elements, `sqrt(v / n) · sqrt(n) = sqrt(v)`. -/
theorem sqrtf_div_mul (sqrtf : α → α)
    (hsq : ∀ x, 0 ≤ x → 0 ≤ sqrtf x ∧ sqrtf x * sqrtf x = x) (v n : α) (hv : 0 ≤ v)
    (hn : 0 < n) : sqrtf (v / n) * sqrtf n = sqrtf v := by
  obtain ⟨h1, h2⟩ := hsq (v / n) (div_nonneg hv (le_of_lt hn))
  obtain ⟨h3, h4⟩ := hsq n (le_of_lt hn)
  obtain ⟨h5, h6⟩ := hsq v hv
  have hsq2 : (sqrtf (v / n) * sqrtf n) * (sqrtf (v / n) * sqrtf n) = sqrtf v * sqrtf v := by
    calc (sqrtf (v / n) * sqrtf n) * (sqrtf (v / n) * sqrtf n)
        = (sqrtf (v / n) * sqrtf (v / n)) * (sqrtf n * sqrtf n) := by ring
      _ = v / n * n := by rw [h2, h4]
      _ = v := div_mul_cancel₀ v (ne_of_gt hn)
      _ = sqrtf v * sqrtf v := h6.symm
  exact (mul_self_inj_of_nonneg (mul_nonneg h1 h3) h5).1 hsq2

/-- C8: for signals truncated to the common length `N = min(len one, len two)`, both
truncations non-constant, and `sqrtf` a square root on the non-negative elements, the
normalised copies built by `howCloseAreSignals` (`a' = (a - mean a) / (std a · N)`,
`b' = (b - mean b) / std b`) have dot product `Σ_j a'[j] · b'[j]` equal to the Pearson
correlation coefficient of the truncated signals. -/
theorem normalized_dot_is_pearson (sqrtf : α → α)
    (hsq : ∀ x, 0 ≤ x → 0 ≤ sqrtf x ∧ sqrtf x * sqrtf x = x) (one two : List α)
    (ha : nonConstant (one.take (min one.length two.length)))
    (hb : nonConstant (two.take (min one.length two.length))) :
    dot (normalizedA sqrtf one (min one.length two.length))
        (normalizedB sqrtf two (min one.length two.length)) =
      pearson sqrtf (one.take (min one.length two.length))
        (two.take (min one.length two.length)) := by
  have hla : (one.take (min one.length two.length)).length = min one.length two.length := by
    simp
  have hlb : (two.take (min one.length two.length)).length = min one.length two.length := by
    simp
  have hN2 := nonConstant_length _ ha
  rw [hla] at hN2
  unfold normalizedA normalizedB pearson
  simp only []
  generalize min one.length two.length = N at *
  generalize one.take N = a at *
  generalize two.take N = b at *
  have hNpos : (0 : α) < (N : α) := by exact_mod_cast (by omega : 0 < N)
  rw [dot_divScalar, dot_subScalar, std_subScalar_mean, std_subScalar_mean, hla, hlb]
  congr 1
  have e1 := sqrtf_div_mul sqrtf hsq _ (N : α) (sum_sq_nonneg a (mean a)) hNpos
  have e2 := sqrtf_div_mul sqrtf hsq _ (N : α) (sum_sq_nonneg b (mean b)) hNpos
  obtain ⟨-, hNN⟩ := hsq (N : α) (le_of_lt hNpos)
  rw [← e1, ← e2]
  calc sqrtf ((a.map fun x => (x - mean a) * (x - mean a)).sum / (N : α)) * (N : α) *
        sqrtf ((b.map fun y => (y - mean b) * (y - mean b)).sum / (N : α))
      = sqrtf ((a.map fun x => (x - mean a) * (x - mean a)).sum / (N : α)) *
          (sqrtf (N : α) * sqrtf (N : α)) *
            sqrtf ((b.map fun y => (y - mean b) * (y - mean b)).sum / (N : α)) := by
        rw [hNN]
    _ = _ := by ring

/-- C8 applied over the reals to `one = [1, -1]`, `two = [1, 2, 4]`. -/
theorem normalized_dot_is_pearson_witness :
    (∀ x : ℝ, 0 ≤ x → 0 ≤ Real.sqrt x ∧ Real.sqrt x * Real.sqrt x = x) ∧
    nonConstant (([1, -1] : List ℝ).take
      (min ([1, -1] : List ℝ).length ([1, 2, 4] : List ℝ).length)) ∧
    nonConstant (([1, 2, 4] : List ℝ).take
      (min ([1, -1] : List ℝ).length ([1, 2, 4] : List ℝ).length)) ∧
    dot (normalizedA Real.sqrt ([1, -1] : List ℝ)
          (min ([1, -1] : List ℝ).length ([1, 2, 4] : List ℝ).length))
        (normalizedB Real.sqrt ([1, 2, 4] : List ℝ)
          (min ([1, -1] : List ℝ).length ([1, 2, 4] : List ℝ).length)) =
      pearson Real.sqrt
        (([1, -1] : List ℝ).take (min ([1, -1] : List ℝ).length ([1, 2, 4] : List ℝ).length))
        (([1, 2, 4] : List ℝ).take
          (min ([1, -1] : List ℝ).length ([1, 2, 4] : List ℝ).length)) :=
  have hsq : ∀ x : ℝ, 0 ≤ x → 0 ≤ Real.sqrt x ∧ Real.sqrt x * Real.sqrt x = x :=
    fun x hx => ⟨Real.sqrt_nonneg x, Real.mul_self_sqrt hx⟩
  have ha : nonConstant (([1, -1] : List ℝ).take
      (min ([1, -1] : List ℝ).length ([1, 2, 4] : List ℝ).length)) :=
    ⟨1, by simp, -1, by simp, by norm_num⟩
  have hb : nonConstant (([1, 2, 4] : List ℝ).take
      (min ([1, -1] : List ℝ).length ([1, 2, 4] : List ℝ).length)) :=
    ⟨1, by simp, 2, by simp, by norm_num⟩
  ⟨hsq, ha, hb, normalized_dot_is_pearson Real.sqrt hsq [1, -1] [1, 2, 4] ha hb⟩

/-! ## C11, C12: construction and state of the convolver -/

/-- C11: constructing an `OverlapSaveConvolver` for a signal of length `S` and a patch of
length `P` fails (throws) if and only if `P > S`; the plan constructors' size checks
never throw. -/
theorem constructor_fails_iff (signal patch : List α) :
    OverlapSaveConvolver.new signal patch = none ↔ signal.length < patch.length := by
  unfold OverlapSaveConvolver.new check_a_less_equal_b
  by_cases h : signal.length < patch.length
  · simp [h]
  · simp [h, CheckRealComplexRatio_ok, planLoop_ok]

theorem calls_append (c : OverlapSaveConvolver α) (ops : List ExecuteCall) (op : ExecuteCall) :
    c.calls (ops ++ [op]) = (c.calls ops).call op := by
  simp [OverlapSaveConvolver.calls, List.foldl_append]

theorem call_call (c : OverlapSaveConvolver α) (o op : ExecuteCall) :
    (c.call o).call op = c.call op := by
  cases o <;> cases op <;> rfl

/-- An execute call depends on the convolver only through the members the calls never
change, so after any earlier calls it gives the same convolver as on a fresh one. -/
theorem calls_call (c : OverlapSaveConvolver α) (ops : List ExecuteCall) (op : ExecuteCall) :
    (c.calls ops).call op = c.call op := by
  induction ops using List.reverseRecOn with
  | nil => rfl
  | append_singleton ops o ih =>
    rw [calls_append, call_call, ih]

theorem calls_last (c : OverlapSaveConvolver α) (ops : List ExecuteCall) (op : ExecuteCall) :
    c.calls (ops ++ [op]) = c.call op := by
  rw [calls_append, calls_call]

/-- C12: for a convolver built with `1 ≤ P ≤ S`, the state starts `kUninitialized`; after
any sequence of `executeConv` / `executeXcorr` calls it is the state of the last call (and
`kUninitialized` only for the empty sequence); `extractResult` and `printChunks` fail if
and only if no execute has been called; the discard offset is `X - L` when the last
call was `executeConv` and `0` when it was `executeXcorr`; and `extractResult` uses it:
when the last call was `executeConv` it is the filling loop run with offset `X - L` and
sample `n` of its result is sample `X - L + n % L` of result chunk `n / L`, when the last
call was `executeXcorr` it is the filling loop run with offset `0` and sample `n` of its
result is sample `0 + n % L` of result chunk `n / L`. -/
theorem state_follows_last_call (signal patch : List α) (h1 : 1 ≤ patch.length)
    (h2 : patch.length ≤ signal.length) :
    ∃ c, OverlapSaveConvolver.new signal patch = some c ∧
      c.state_ = State.kUninitialized ∧
      ∀ ops : List ExecuteCall,
        (c.calls ops).state_ = (ops.getLast?.map ExecuteCall.state).getD State.kUninitialized ∧
        ((c.calls ops).state_ = State.kUninitialized ↔ ops = []) ∧
        ((c.calls ops).extractResult = none ↔ ops = []) ∧
        ((c.calls ops).printChunks = none ↔ ops = []) ∧
        (ops.getLast? = some ExecuteCall.conv → (c.calls ops).discardOffset =
          (c.calls ops).result_chunksize_ - (c.calls ops).result_stride_) ∧
        (ops.getLast? = some ExecuteCall.xcorr → (c.calls ops).discardOffset = 0) ∧
        (ops.getLast? = some ExecuteCall.conv →
          (c.calls ops).extractResult =
            extractLoop (c.calls ops).result_stride_ (c.calls ops).result_size_
              ((c.calls ops).result_chunksize_ - (c.calls ops).result_stride_)
              (c.calls ops).result_chunks_ 0
              (List.replicate (c.calls ops).result_size_ 0) ∧
          ∃ r, (c.calls ops).extractResult = some r ∧
            r.length = signal.length + patch.length - 1 ∧
            ∀ n, n < signal.length + patch.length - 1 →
              r.getD n 0 =
                ((c.calls ops).result_chunks_.getD (n / (c.calls ops).result_stride_) []).getD
                  ((c.calls ops).result_chunksize_ - (c.calls ops).result_stride_ +
                    n % (c.calls ops).result_stride_) 0) ∧
        (ops.getLast? = some ExecuteCall.xcorr →
          (c.calls ops).extractResult =
            extractLoop (c.calls ops).result_stride_ (c.calls ops).result_size_ 0
              (c.calls ops).result_chunks_ 0
              (List.replicate (c.calls ops).result_size_ 0) ∧
          ∃ r, (c.calls ops).extractResult = some r ∧
            r.length = signal.length + patch.length - 1 ∧
            ∀ n, n < signal.length + patch.length - 1 →
              r.getD n 0 =
                ((c.calls ops).result_chunks_.getD (n / (c.calls ops).result_stride_) []).getD
                  (0 + n % (c.calls ops).result_stride_) 0) := by
  obtain ⟨c, r1, hc, hr1, -, -⟩ := conv_extract signal patch h1 h2
  obtain ⟨c2, r2, hc2, hr2, -, -⟩ := xcorr_extract signal patch h1 h2
  obtain rfl : c2 = c := Option.some.inj (hc2.symm.trans hc)
  obtain ⟨c3, hc3, -, -, -, -, -, -, -, -, -, hst⟩ := new_spec signal patch h1 h2
  obtain rfl : c3 = c2 := Option.some.inj (hc3.symm.trans hc)
  refine ⟨c3, hc, hst, ?_⟩
  intro ops
  induction ops using List.reverseRecOn with
  | nil =>
    simp [OverlapSaveConvolver.calls, hst, OverlapSaveConvolver.extractResult,
      OverlapSaveConvolver.printChunks, OverlapSaveConvolver.check_last_executed_not_null]
  | append_singleton ops op _ =>
    rw [calls_last]
    obtain ⟨hex, r, hr, hrlen, hcont, -⟩ := call_extract signal patch h1 h2 c3 hc op
    cases op with
    | conv =>
      have hoff : (c3.call ExecuteCall.conv).discardOffset =
          (c3.call ExecuteCall.conv).result_chunksize_ -
            (c3.call ExecuteCall.conv).result_stride_ := by
        simp [OverlapSaveConvolver.call, OverlapSaveConvolver.executeConv,
          OverlapSaveConvolver.discardOffset]
      refine ⟨by simp [OverlapSaveConvolver.call, OverlapSaveConvolver.executeConv,
        ExecuteCall.state], by simp [OverlapSaveConvolver.call,
        OverlapSaveConvolver.executeConv], ?_, ?_, ?_, ?_, ?_, ?_⟩
      · simp only [OverlapSaveConvolver.call, hr1]
        simp
      · simp [OverlapSaveConvolver.call, OverlapSaveConvolver.executeConv,
          OverlapSaveConvolver.printChunks, OverlapSaveConvolver.check_last_executed_not_null]
      · intro _
        exact hoff
      · intro h
        simp at h
      · intro _
        rw [← hoff]
        exact ⟨hex, r, hr, hrlen, hcont⟩
      · intro h
        simp at h
    | xcorr =>
      have hoff : (c3.call ExecuteCall.xcorr).discardOffset = 0 := by
        simp [OverlapSaveConvolver.call, OverlapSaveConvolver.executeXcorr,
          OverlapSaveConvolver.discardOffset]
      refine ⟨by simp [OverlapSaveConvolver.call, OverlapSaveConvolver.executeXcorr,
        ExecuteCall.state], by simp [OverlapSaveConvolver.call,
        OverlapSaveConvolver.executeXcorr], ?_, ?_, ?_, ?_, ?_, ?_⟩
      · simp only [OverlapSaveConvolver.call, hr2]
        simp
      · simp [OverlapSaveConvolver.call, OverlapSaveConvolver.executeXcorr,
          OverlapSaveConvolver.printChunks, OverlapSaveConvolver.check_last_executed_not_null]
      · intro h
        simp at h
      · intro _
        exact hoff
      · intro h
        simp at h
      · intro _
        rw [← hoff]
        exact ⟨hex, r, hr, hrlen, hcont⟩

/-- C12 applied to signal `[1 .. 7]`, patch `[1, 1, 1]` and the calls
`executeConv(); executeXcorr()`. -/
theorem state_follows_last_call_witness :
    1 ≤ ([1, 1, 1] : List ℚ).length ∧
    ([1, 1, 1] : List ℚ).length ≤ ([1, 2, 3, 4, 5, 6, 7] : List ℚ).length ∧
    ∃ c, OverlapSaveConvolver.new ([1, 2, 3, 4, 5, 6, 7] : List ℚ) [1, 1, 1] = some c ∧
      (c.calls [ExecuteCall.conv, ExecuteCall.xcorr]).state_ = State.kXcorr ∧
      (c.calls [ExecuteCall.conv, ExecuteCall.xcorr]).discardOffset = 0 ∧
      (c.calls [ExecuteCall.conv, ExecuteCall.xcorr]).extractResult =
        extractLoop (c.calls [ExecuteCall.conv, ExecuteCall.xcorr]).result_stride_
          (c.calls [ExecuteCall.conv, ExecuteCall.xcorr]).result_size_ 0
          (c.calls [ExecuteCall.conv, ExecuteCall.xcorr]).result_chunks_ 0
          (List.replicate (c.calls [ExecuteCall.conv, ExecuteCall.xcorr]).result_size_ 0) := by
  refine ⟨by decide, by decide, ?_⟩
  obtain ⟨c, hc, -, h⟩ :=
    state_follows_last_call ([1, 2, 3, 4, 5, 6, 7] : List ℚ) [1, 1, 1] (by decide) (by decide)
  obtain ⟨hs, -, -, -, -, hx, -, hy⟩ := h [ExecuteCall.conv, ExecuteCall.xcorr]
  exact ⟨c, hc, hs, hx rfl, (hy rfl).1⟩

/-! ## C13: `nextBestIntro` -/

theorem seedAccepted_iff (introInfo : IntroInfo α) :
    seedAccepted introInfo = true ↔ qualifies introInfo := by
  have h580 : (((SOURCE_END - 20 : Nat) : Nat) : α) = 580 := by
    simp [SOURCE_END]
  have h20 : (((20 : Nat) : Nat) : α) = 20 := by simp
  simp only [seedAccepted, qualifies, ACCEPTANCE_THRESHOLD, h580, h20, Bool.and_eq_true,
    Bool.not_eq_true', Bool.or_eq_false_iff, decide_eq_true_eq, decide_eq_false_iff_not,
    not_le, ge_iff_le, gt_iff_lt]
  constructor
  · rintro ⟨⟨h1, h2, h3⟩, h4⟩
    exact ⟨h1, h2, h3, h4⟩
  · rintro ⟨h1, h2, h3, h4⟩
    exact ⟨⟨h1, h2, h3⟩, h4⟩

/-- The loop of `nextBestIntro`, when the pair extractor returns `info i` on pair `i` and
the slice of an accepted pair can be cut: it returns `-1` and leaves `result` untouched if
no pair from `i` on is accepted, and otherwise the first accepted index with its slice. -/
theorem nextBestIntroFrom_char [FloorRing α]
    (g : List α → List α → Option (IntroInfo α)) (files : List (FileSignal α))
    (result : IntroInfo α) (info : Nat → IntroInfo α)
    (hg : ∀ i fi fj, files[i]? = some fi → files[i + 1]? = some fj →
      g fi.signal fj.signal = some (info i))
    (hs : ∀ i fi, files[i]? = some fi → seedAccepted (info i) = true →
      0 ≤ (info i).startTime ∧ (info i).startTime * 1024 < (fi.signal.length : α)) :
    ∀ n i, i + n + 1 = files.length →
      ((∀ j, i ≤ j → j < i + n → seedAccepted (info j) = false) →
        nextBestIntroFrom g files result n i = some (-1, result)) ∧
      (∀ k, i ≤ k → k < i + n → seedAccepted (info k) = true →
        (∀ j, i ≤ j → j < k → seedAccepted (info j) = false) →
        ∃ fk intro, files[k]? = some fk ∧
          signalSlice fk.signal (info k).startTime (info k).endTime = some intro ∧
          nextBestIntroFrom g files result n i =
            some ((k : Int), { info k with intro := some intro })) := by
  intro n
  induction n with
  | zero =>
    intro i _
    exact ⟨fun _ => rfl, fun k h1 h2 => absurd h2 (by omega)⟩
  | succ n ih =>
    intro i hlen
    have hi : i < files.length := by omega
    have hi1 : i + 1 < files.length := by omega
    have e1 : files[i]? = some files[i] := List.getElem?_eq_getElem hi
    have e2 : files[i + 1]? = some files[i + 1] := List.getElem?_eq_getElem hi1
    have hgi := hg i _ _ e1 e2
    obtain ⟨ih1, ih2⟩ := ih (i + 1) (by omega)
    have hunf : nextBestIntroFrom g files result (n + 1) i =
        if seedAccepted (info i) then
          (signalSlice files[i].signal (info i).startTime (info i).endTime).bind fun intro =>
            some ((i : Int), { info i with intro := some intro })
        else nextBestIntroFrom g files result n (i + 1) := by
      rw [nextBestIntroFrom]
      simp only [e1, e2, hgi, Option.some_bind]
    constructor
    · intro hall
      rw [hunf, hall i (le_refl _) (by omega)]
      simp only [Bool.false_eq_true, if_false]
      exact ih1 fun j hj1 hj2 => hall j (by omega) (by omega)
    · intro k hk1 hk2 hacc hfirst
      by_cases hki : k = i
      · subst hki
        obtain ⟨h0, hlt⟩ := hs k _ e1 hacc
        have hq := (seedAccepted_iff (info k)).1 hacc
        have hle : (info k).startTime ≤ (info k).endTime := by
          have := hq.2.2.2
          linarith
        have hfl : ⌊(info k).startTime * 1024⌋₊ < files[k].signal.length := by
          rw [Nat.floor_lt (mul_nonneg h0 (by norm_num))]
          exact hlt
        obtain ⟨intro, hintro, -⟩ := (signalSlice_spec _ _ _ h0 hle).2 hfl
        refine ⟨_, intro, e1, hintro, ?_⟩
        rw [hunf, hacc, if_pos rfl, hintro, Option.some_bind]
      · have hfi := hfirst i (le_refl _) (by omega)
        obtain ⟨fk, intro, hfk, hintro, hres⟩ := ih2 k (by omega) (by omega) hacc
          fun j hj1 hj2 => hfirst j (by omega) hj2
        refine ⟨fk, intro, hfk, hintro, ?_⟩
        rw [hunf, hfi]
        simp only [Bool.false_eq_true, if_false]
        exact hres

/-- The result of `nextBestIntro` on a non-empty list from a non-negative `start`: either
`-1` with `result` untouched and no qualifying pair in `start ≤ i ≤ len - 2`, or the
smallest qualifying index of that range with the slice of its file attached. -/
theorem nextBestIntro_char [FloorRing α]
    (g : List α → List α → Option (IntroInfo α)) (files : List (FileSignal α))
    (result : IntroInfo α) (start : Nat) (info : Nat → IntroInfo α)
    (hne : files ≠ [])
    (hg : ∀ i fi fj, files[i]? = some fi → files[i + 1]? = some fj →
      g fi.signal fj.signal = some (info i))
    (hs : ∀ i fi, files[i]? = some fi → qualifies (info i) →
      0 ≤ (info i).startTime ∧ (info i).startTime * 1024 < (fi.signal.length : α)) :
    ∃ idx out, nextBestIntro g files result (start : Int) = some (idx, out) ∧
      ((idx = -1 ∧ out = result ∧
          ∀ i, start ≤ i → i + 2 ≤ files.length → ¬ qualifies (info i)) ∨
        (∃ k : Nat, idx = (k : Int) ∧ start ≤ k ∧ k + 2 ≤ files.length ∧
          qualifies (info k) ∧ (∀ j, start ≤ j → j < k → ¬ qualifies (info j)) ∧
          ∃ fk intro, files[k]? = some fk ∧
            signalSlice fk.signal (info k).startTime (info k).endTime = some intro ∧
            out = { info k with intro := some intro })) := by
  have hlen : files.length ≠ 0 := fun h => hne (List.length_eq_zero.1 h)
  have hunf : nextBestIntro g files result (start : Int) =
      nextBestIntroFrom g files result (files.length - 1 - start) start := by
    unfold nextBestIntro
    rw [if_neg hlen, if_neg (by omega), Int.toNat_ofNat]
  rw [hunf]
  by_cases hst : start + 1 ≤ files.length
  · obtain ⟨c1, c2⟩ := nextBestIntroFrom_char g files result info hg
      (fun i fi h1 h2 => hs i fi h1 ((seedAccepted_iff _).1 h2))
      (files.length - 1 - start) start (by omega)
    by_cases hex : ∃ k, start ≤ k ∧ k < start + (files.length - 1 - start) ∧
        seedAccepted (info k) = true
    · have hk := Nat.find_spec hex
      have hmin := fun j (hj : j < Nat.find hex) => Nat.find_min hex hj
      generalize Nat.find hex = k at hk hmin
      obtain ⟨hk1, hk2, hk3⟩ := hk
      have hfirst : ∀ j, start ≤ j → j < k → seedAccepted (info j) = false := by
        intro j hj1 hj2
        have := hmin j hj2
        cases hb : seedAccepted (info j) with
        | false => rfl
        | true => exact absurd ⟨hj1, by omega, hb⟩ this
      obtain ⟨fk, intro, hfk, hintro, hres⟩ := c2 k hk1 hk2 hk3 hfirst
      refine ⟨_, _, hres, Or.inr ⟨k, rfl, hk1, by omega, (seedAccepted_iff _).1 hk3, ?_,
        fk, intro, hfk, hintro, rfl⟩⟩
      intro j hj1 hj2 hq
      have := hfirst j hj1 hj2
      rw [(seedAccepted_iff _).2 hq] at this
      exact Bool.noConfusion this
    · have hall : ∀ j, start ≤ j → j < start + (files.length - 1 - start) →
          seedAccepted (info j) = false := by
        intro j hj1 hj2
        cases hb : seedAccepted (info j) with
        | false => rfl
        | true => exact absurd ⟨j, hj1, hj2, hb⟩ hex
      refine ⟨_, _, c1 hall, Or.inl ⟨rfl, rfl, ?_⟩⟩
      intro i hi1 hi2 hq
      have := hall i hi1 (by omega)
      rw [(seedAccepted_iff _).2 hq] at this
      exact Bool.noConfusion this
  · have hz : files.length - 1 - start = 0 := by omega
    rw [hz]
    exact ⟨_, _, rfl, Or.inl ⟨rfl, rfl, fun i hi1 hi2 => absurd hi2 (by omega)⟩⟩

/-- C13: for every non-empty file list, every `start ≥ 0` and every outcome `info i` of
the pair extractor on the adjacent pairs (the start time of a qualifying outcome lying
inside its file, so that the slice can be cut), `nextBestIntro` returns; it returns the
smallest index `i` with `start ≤ i ≤ len - 2` whose outcome has `match_percent ≥ 0.8`,
`end < 580`, `other_end < 580` and `end - start > 20`, attaching the slice of `files[i]`
over `[start_time, end_time]` as the intro; and it returns `-1` exactly when no index of
that range satisfies these conditions. -/
theorem nextBestIntro_smallest_qualifying [FloorRing α]
    (g : List α → List α → Option (IntroInfo α)) (files : List (FileSignal α))
    (result : IntroInfo α) (start : Nat) (info : Nat → IntroInfo α)
    (hne : files ≠ [])
    (hg : ∀ i fi fj, files[i]? = some fi → files[i + 1]? = some fj →
      g fi.signal fj.signal = some (info i))
    (hs : ∀ i fi, files[i]? = some fi → qualifies (info i) →
      0 ≤ (info i).startTime ∧ (info i).startTime * 1024 < (fi.signal.length : α)) :
    ∃ idx out, nextBestIntro g files result (start : Int) = some (idx, out) ∧
      (idx = -1 ↔ ∀ i, start ≤ i → i + 2 ≤ files.length → ¬ qualifies (info i)) ∧
      (idx ≠ -1 → ∃ k : Nat, idx = (k : Int) ∧ start ≤ k ∧ k + 2 ≤ files.length ∧
        qualifies (info k) ∧ (∀ j, start ≤ j → j < k → ¬ qualifies (info j)) ∧
        ∃ fk intro, files[k]? = some fk ∧
          signalSlice fk.signal (info k).startTime (info k).endTime = some intro ∧
          out = { info k with intro := some intro }) := by
  obtain ⟨idx, out, hres, hcase⟩ := nextBestIntro_char g files result start info hne hg hs
  refine ⟨idx, out, hres, ?_, ?_⟩
  · rcases hcase with ⟨h1, -, h3⟩ | ⟨k, hk, hk1, hk2, hq, -⟩
    · exact ⟨fun _ => h3, fun _ => h1⟩
    · constructor
      · intro h
        omega
      · intro h
        exact absurd hq (h k hk1 hk2)
  · intro hidx
    rcases hcase with ⟨h1, -, -⟩ | h
    · exact absurd h1 hidx
    · exact h

theorem seedInfo_qualifies : qualifies seedInfo := by
  simp only [qualifies, seedInfo]
  norm_num

theorem fileNamed_getElem? (names : List String) (i : Nat) (fi : FileSignal ℚ)
    (h : (names.map fileNamed)[i]? = some fi) : fi.signal = [1] := by
  rw [List.getElem?_map] at h
  cases hn : names[i]? with
  | none => rw [hn] at h; exact Option.noConfusion h
  | some n =>
    rw [hn] at h
    simp only [Option.map_some', Option.some.injEq] at h
    rw [← h]
    rfl

/-- C13 applied to two files and a pair extractor whose outcome qualifies. -/
theorem nextBestIntro_smallest_qualifying_witness :
    (["A", "B"].map fileNamed) ≠ [] ∧
    (∀ i fi fj, (["A", "B"].map fileNamed)[i]? = some fi →
      (["A", "B"].map fileNamed)[i + 1]? = some fj →
      alwaysSeed fi.signal fj.signal = some ((fun _ => seedInfo) i)) ∧
    (∀ i fi, (["A", "B"].map fileNamed)[i]? = some fi →
      qualifies ((fun _ : Nat => seedInfo) i) →
      0 ≤ ((fun _ : Nat => seedInfo) i).startTime ∧
        ((fun _ : Nat => seedInfo) i).startTime * 1024 < (fi.signal.length : ℚ)) ∧
    ∃ idx out, nextBestIntro alwaysSeed (["A", "B"].map fileNamed) (IntroInfo.blank ℚ)
        ((0 : Nat) : Int) = some (idx, out) ∧
      (idx = -1 ↔ ∀ i, 0 ≤ i → i + 2 ≤ (["A", "B"].map fileNamed).length →
        ¬ qualifies ((fun _ : Nat => seedInfo) i)) :=
  have hne : (["A", "B"].map fileNamed) ≠ [] := by simp
  have hg : ∀ i fi fj, (["A", "B"].map fileNamed)[i]? = some fi →
      (["A", "B"].map fileNamed)[i + 1]? = some fj →
      alwaysSeed fi.signal fj.signal = some ((fun _ => seedInfo) i) :=
    fun _ _ _ _ _ => rfl
  have hs : ∀ i fi, (["A", "B"].map fileNamed)[i]? = some fi →
      qualifies ((fun _ : Nat => seedInfo) i) →
      0 ≤ ((fun _ : Nat => seedInfo) i).startTime ∧
        ((fun _ : Nat => seedInfo) i).startTime * 1024 < (fi.signal.length : ℚ) := by
    intro i fi hfi _
    rw [fileNamed_getElem? _ i fi hfi]
    simp [seedInfo]
  have h := nextBestIntro_smallest_qualifying alwaysSeed (["A", "B"].map fileNamed)
    (IntroInfo.blank ℚ) 0 (fun _ => seedInfo) hne hg hs
  ⟨hne, hg, hs, h.elim fun idx h2 => h2.elim fun out h3 => ⟨idx, out, h3.1, h3.2.1⟩⟩

/-! ## The per-file loop of `FindSoundTask::run` -/

/-- What one pass through the body of the per-file loop does: either the file is skipped
(stored best `≥ 0.9`) and nothing changes, or it is scored, one result is emitted, and
the locals are updated as in the source. -/
theorem sweepFile_cases (e : FileSignal α → IntroInfo α → Option (α × α × α))
    (files : List (FileSignal α)) (info : IntroInfo α) (st : Discovery α) (i : Nat)
    (f : FileSignal α) (st1 : Discovery α) (b : Bool)
    (h : sweepFile e files info st i f = some (st1, b)) :
    (st.bestMatches f.file ≥ 0.9 ∧ st1 = st ∧ b = false) ∨
    (¬ st.bestMatches f.file ≥ 0.9 ∧
      ∃ ev seedFile r, e f info = some ev ∧
        files[st.lastBestIntroIdx.toNat]? = some seedFile ∧
        r.file = f.file ∧ r.index = i ∧ r.introInfo.matchPercent = ev.2.2 ∧
        r.isBetter = decide (st.bestMatches f.file < ev.2.2) ∧
        r.isProgress = decide (st.bestMatches f.file < ACCEPTANCE_THRESHOLD α ∧
          ev.2.2 ≥ ACCEPTANCE_THRESHOLD α) ∧
        r.isSourceOfIntro = decide (f.file = seedFile.file) ∧
        st1.emitted = st.emitted ++ [r] ∧
        st1.lastBestIntroIdx = st.lastBestIntroIdx ∧
        st1.bestMatches = (if st.bestMatches f.file < ev.2.2 then
          fun k => if k = f.file then ev.2.2 else st.bestMatches k else st.bestMatches) ∧
        st1.badStreak = (if ev.2.2 < 0.2 ∧ st.bestMatches f.file = 0 then st.badStreak + 1
          else 0) ∧
        (b = true ↔ 5 ≤ st1.badStreak) ∧
        (b = true → st1.rest = files.filter fun x =>
          decide (st1.bestMatches x.file < ACCEPTANCE_THRESHOLD α)) ∧
        (b = false → st1.rest =
          if st.bestMatches f.file < ACCEPTANCE_THRESHOLD α ∧
              ev.2.2 ≥ ACCEPTANCE_THRESHOLD α then st.rest
          else if ev.2.2 < ACCEPTANCE_THRESHOLD α ∧
              st.bestMatches f.file < ACCEPTANCE_THRESHOLD α then st.rest ++ [f]
          else st.rest)) := by
  unfold sweepFile at h
  by_cases hskip : st.bestMatches f.file ≥ 0.9
  · left
    simp only [hskip, if_true, Option.some.injEq, Prod.mk.injEq] at h
    exact ⟨hskip, h.1.symm, h.2.symm⟩
  · right
    refine ⟨hskip, ?_⟩
    simp only [hskip, if_false] at h
    cases hev : e f info with
    | none => rw [hev] at h; exact Option.noConfusion h
    | some ev =>
      cases hseed : files[st.lastBestIntroIdx.toNat]? with
      | none => rw [hev, hseed] at h; exact Option.noConfusion h
      | some seedFile =>
        rw [hev, hseed] at h
        simp only [Option.some_bind] at h
        by_cases hbad : (if ev.2.2 < 0.2 ∧ st.bestMatches f.file = 0 then st.badStreak + 1
            else 0) ≥ 5
        · rw [if_pos hbad] at h
          simp only [Option.some.injEq, Prod.mk.injEq] at h
          obtain ⟨h1, h2⟩ := h
          subst h1 h2
          exact ⟨ev, seedFile, _, rfl, rfl, rfl, rfl, rfl, rfl, rfl, rfl, rfl, rfl, rfl, rfl,
            ⟨fun _ => hbad, fun _ => rfl⟩, fun _ => rfl, fun hb => Bool.noConfusion hb⟩
        · rw [if_neg hbad] at h
          simp only [Option.some.injEq, Prod.mk.injEq] at h
          obtain ⟨h1, h2⟩ := h
          subst h1 h2
          exact ⟨ev, seedFile, _, rfl, rfl, rfl, rfl, rfl, rfl, rfl, rfl, rfl, rfl, rfl, rfl,
            ⟨fun hb => Bool.noConfusion hb, fun hb => absurd hb hbad⟩,
            fun hb => Bool.noConfusion hb, fun _ => rfl⟩

/-! ## C14: the stored best matches -/

theorem bestSoFar_append (f : String) (rs : List (FindSoundResult α))
    (r : FindSoundResult α) :
    bestSoFar f (rs ++ [r]) =
      if r.file = f then max (bestSoFar f rs) r.introInfo.matchPercent else bestSoFar f rs := by
  unfold bestSoFar scoresOf
  by_cases h : r.file = f
  · simp [List.filter_append, h, List.foldl_append]
  · simp [List.filter_append, h]

theorem sweepFile_inv (e : FileSignal α → IntroInfo α → Option (α × α × α))
    (files : List (FileSignal α)) (info : IntroInfo α) (st : Discovery α) (i : Nat)
    (f : FileSignal α) (st1 : Discovery α) (b : Bool)
    (h : sweepFile e files info st i f = some (st1, b)) (hinv : bestInvariant st) :
    bestInvariant st1 ∧ (∀ g, st.bestMatches g ≤ st1.bestMatches g) ∧
      ∃ more, st1.emitted = st.emitted ++ more := by
  rcases sweepFile_cases e files info st i f st1 b h with
    ⟨-, rfl, -⟩ | ⟨-, ev, seedFile, r, -, -, hrf, -, hrm, hrb, -, -, hem, -, hbm, -⟩
  · exact ⟨hinv, fun g => le_refl _, [], by simp⟩
  · obtain ⟨i1, i2⟩ := hinv
    have hbest : ∀ g, st1.bestMatches g =
        if f.file = g then max (st.bestMatches g) ev.2.2 else st.bestMatches g := by
      intro g
      rw [hbm]
      by_cases hfg : f.file = g
      · subst hfg
        rw [if_pos rfl]
        by_cases hlt : st.bestMatches f.file < ev.2.2
        · simp [hlt, max_eq_right (le_of_lt hlt)]
        · simp [hlt, max_eq_left (not_lt.1 hlt)]
      · rw [if_neg hfg]
        by_cases hlt : st.bestMatches f.file < ev.2.2
        · simp [hlt, Ne.symm hfg]
        · simp [hlt]
    refine ⟨⟨?_, ?_⟩, ?_, [r], hem⟩
    · intro g
      rw [hbest g, hem, bestSoFar_append, hrf, hrm, i1 g]
    · intro k x hx
      rw [hem] at hx ⊢
      by_cases hk : k < st.emitted.length
      · rw [List.getElem?_append_left hk] at hx
        rw [List.take_append_of_le_length (le_of_lt hk)]
        exact i2 k x hx
      · have hk2 : k = st.emitted.length := by
          by_contra hne
          rw [List.getElem?_eq_none (by simp; omega)] at hx
          exact Option.noConfusion hx
        subst hk2
        simp only [List.getElem?_concat_length, Option.some.injEq] at hx
        subst hx
        rw [List.take_left' rfl, hrb, hrf, hrm, i1 f.file]
    · intro g
      rw [hbest g]
      split
      · exact le_max_left _ _
      · exact le_refl _

theorem sweep_inv (e : FileSignal α → IntroInfo α → Option (α × α × α))
    (files : List (FileSignal α)) (info : IntroInfo α) :
    ∀ (todo : List (FileSignal α)) (i : Nat) (st st1 : Discovery α),
      sweep e files info todo i st = some st1 → bestInvariant st →
      bestInvariant st1 ∧ (∀ g, st.bestMatches g ≤ st1.bestMatches g) ∧
        ∃ more, st1.emitted = st.emitted ++ more := by
  intro todo
  induction todo with
  | nil =>
    intro i st st1 h hinv
    simp only [sweep, Option.some.injEq] at h
    subst h
    exact ⟨hinv, fun g => le_refl _, [], by simp⟩
  | cons f more ih =>
    intro i st st1 h hinv
    rw [sweep] at h
    cases hsf : sweepFile e files info st i f with
    | none => rw [hsf] at h; exact Option.noConfusion h
    | some r =>
      obtain ⟨st2, b⟩ := r
      rw [hsf, Option.some_bind] at h
      obtain ⟨j1, j2, m1, j3⟩ := sweepFile_inv e files info st i f st2 b hsf hinv
      cases b with
      | true =>
        simp only [if_true, Option.some.injEq] at h
        subst h
        exact ⟨j1, j2, m1, j3⟩
      | false =>
        simp only [Bool.false_eq_true, if_false] at h
        obtain ⟨k1, k2, m2, k3⟩ := ih (i + 1) st2 st1 h j1
        exact ⟨k1, fun g => le_trans (j2 g) (k2 g), m1 ++ m2, by rw [k3, j3, List.append_assoc]⟩

theorem outerIteration_inv [FloorRing α]
    (g : List α → List α → Option (IntroInfo α))
    (e : FileSignal α → IntroInfo α → Option (α × α × α))
    (files : List (FileSignal α)) (st st1 : Discovery α)
    (h : outerIteration g e files st = Loop.running st1 ∨
      outerIteration g e files st = Loop.finished st1)
    (hinv : bestInvariant st) :
    bestInvariant st1 ∧ (∀ f, st.bestMatches f ≤ st1.bestMatches f) ∧
      ∃ more, st1.emitted = st.emitted ++ more := by
  unfold outerIteration at h
  by_cases hrest : st.rest.length > 1
  · simp only [hrest, if_true] at h
    cases hn : nextBestIntro g st.rest (IntroInfo.blank α) st.lastBestIntroIdx with
    | none =>
      rw [hn] at h
      rcases h with h | h <;> exact Loop.noConfusion h
    | some r =>
      obtain ⟨idx, info⟩ := r
      rw [hn] at h
      simp only at h
      by_cases hidx : idx < 0
      · simp only [hidx, if_true] at h
        rcases h with h | h
        · exact Loop.noConfusion h
        · injection h with h
          subst h
          exact ⟨hinv, fun f => le_refl _, [], by simp⟩
      · simp only [hidx, if_false] at h
        cases hsw : sweep e files info files 0
            { st with badStreak := 0, lastBestIntroIdx := idx, rest := [] } with
        | none =>
          rw [hsw] at h
          rcases h with h | h <;> exact Loop.noConfusion h
        | some st2 =>
          rw [hsw] at h
          rcases h with h | h
          · injection h with h
            subst h
            exact sweep_inv e files info files 0
              { st with badStreak := 0, lastBestIntroIdx := idx, rest := [] } _ hsw hinv
          · exact Loop.noConfusion h
  · simp only [hrest, if_false] at h
    rcases h with h | h
    · exact Loop.noConfusion h
    · injection h with h
      subst h
      exact ⟨hinv, fun f => le_refl _, [], by simp⟩

theorem outerLoop_inv [FloorRing α]
    (g : List α → List α → Option (IntroInfo α))
    (e : FileSignal α → IntroInfo α → Option (α × α × α))
    (files : List (FileSignal α)) :
    ∀ (fuel : Nat) (st st1 : Discovery α),
      (outerLoop g e files fuel st = Loop.running st1 ∨
        outerLoop g e files fuel st = Loop.finished st1) →
      bestInvariant st →
      bestInvariant st1 ∧ (∀ f, st.bestMatches f ≤ st1.bestMatches f) ∧
        ∃ more, st1.emitted = st.emitted ++ more := by
  intro fuel
  induction fuel with
  | zero =>
    intro st st1 h hinv
    simp only [outerLoop] at h
    rcases h with h | h
    · injection h with h
      subst h
      exact ⟨hinv, fun f => le_refl _, [], by simp⟩
    · exact Loop.noConfusion h
  | succ fuel ih =>
    intro st st1 h hinv
    rw [outerLoop] at h
    cases hit : outerIteration g e files st with
    | running st2 =>
      rw [hit] at h
      simp only at h
      obtain ⟨j1, j2, m1, j3⟩ := outerIteration_inv g e files st st2 (Or.inl hit) hinv
      obtain ⟨k1, k2, m2, k3⟩ := ih st2 st1 h j1
      exact ⟨k1, fun f => le_trans (j2 f) (k2 f), m1 ++ m2,
        by rw [k3, j3, List.append_assoc]⟩
    | finished st2 =>
      rw [hit] at h
      simp only at h
      rcases h with h | h
      · exact Loop.noConfusion h
      · injection h with h
        subst h
        exact outerIteration_inv g e files st st2 (Or.inr hit) hinv
    | failed =>
      rw [hit] at h
      rcases h with h | h <;> exact Loop.noConfusion h

theorem bestInvariant_init (files : List (FileSignal α)) :
    bestInvariant (Discovery.init files) := by
  constructor
  · intro f
    simp [Discovery.init, bestSoFar, scoresOf]
  · intro k r h
    simp [Discovery.init] at h

theorem outerLoop_add [FloorRing α]
    (g : List α → List α → Option (IntroInfo α))
    (e : FileSignal α → IntroInfo α → Option (α × α × α))
    (files : List (FileSignal α)) :
    ∀ (a b : Nat) (st st1 : Discovery α),
      outerLoop g e files a st = Loop.running st1 →
      outerLoop g e files (a + b) st = outerLoop g e files b st1 := by
  intro a
  induction a with
  | zero =>
    intro b st st1 h
    simp only [outerLoop] at h
    injection h with h
    subst h
    rw [Nat.zero_add]
  | succ a ih =>
    intro b st st1 h
    rw [outerLoop] at h
    rw [show a + 1 + b = (a + b) + 1 by omega, outerLoop]
    cases hit : outerIteration g e files st with
    | running st2 =>
      rw [hit] at h
      exact ih b st2 st1 h
    | finished st2 =>
      rw [hit] at h
      exact Loop.noConfusion h
    | failed =>
      rw [hit] at h
      exact Loop.noConfusion h

/-! ## C16: the bad streak -/

theorem sweep_cons_continue (e : FileSignal α → IntroInfo α → Option (α × α × α))
    (files : List (FileSignal α)) (info : IntroInfo α) (f : FileSignal α)
    (more : List (FileSignal α)) (i : Nat) (st st1 : Discovery α)
    (h : sweepFile e files info st i f = some (st1, false)) :
    sweep e files info (f :: more) i st = sweep e files info more (i + 1) st1 := by
  rw [sweep, h]
  rfl

theorem sweep_cons_break (e : FileSignal α → IntroInfo α → Option (α × α × α))
    (files : List (FileSignal α)) (info : IntroInfo α) (f : FileSignal α)
    (more : List (FileSignal α)) (i : Nat) (st st1 : Discovery α)
    (h : sweepFile e files info st i f = some (st1, true)) :
    sweep e files info (f :: more) i st = some st1 := by
  rw [sweep, h]
  rfl

/-- C16: within one sweep (streak below `5` so far), a skipped file (stored best `≥ 0.9`)
changes nothing; an evaluated file emits one result and makes the streak
`bad_streak + 1` if its score is `< 0.2` while its stored best was still `0`, and `0`
otherwise; while the streak stays below `5` the sweep goes on with the next file; as soon
as it reaches `5` the sweep ends with the state right after this file, whatever files
were still to come (none of them is evaluated or emitted), and `rest` is exactly the
files of the original list, in original order, whose stored best is below `0.8`. -/
theorem bad_streak_rule (e : FileSignal α → IntroInfo α → Option (α × α × α))
    (files : List (FileSignal α)) (info : IntroInfo α) (st st1 : Discovery α) (i : Nat)
    (f : FileSignal α) (b : Bool) (hbs : st.badStreak < 5)
    (h : sweepFile e files info st i f = some (st1, b)) :
    (st.bestMatches f.file ≥ 0.9 → st1 = st ∧
      ∀ more, sweep e files info (f :: more) i st = sweep e files info more (i + 1) st) ∧
    (¬ st.bestMatches f.file ≥ 0.9 →
      ∃ ev r, e f info = some ev ∧ r.file = f.file ∧ r.introInfo.matchPercent = ev.2.2 ∧
        st1.emitted = st.emitted ++ [r] ∧
        st1.badStreak =
          (if ev.2.2 < 0.2 ∧ st.bestMatches f.file = 0 then st.badStreak + 1 else 0) ∧
        (st1.badStreak < 5 → ∀ more,
          sweep e files info (f :: more) i st = sweep e files info more (i + 1) st1) ∧
        (5 ≤ st1.badStreak → st1.badStreak = 5 ∧
          (∀ more, sweep e files info (f :: more) i st = some st1) ∧
          st1.rest = files.filter fun x =>
            decide (st1.bestMatches x.file < 0.8))) := by
  rcases sweepFile_cases e files info st i f st1 b h with
    ⟨hskip, hst, hbf⟩ | ⟨hskip, ev, seedFile, r, hev, -, hrf, -, hrm, -, -, -, hem, -, -,
      hstreak, hb, hrest, -⟩
  · rw [hbf, hst] at h
    exact ⟨fun _ => ⟨hst, fun more => sweep_cons_continue e files info f more i st st h⟩,
      fun hn => absurd hskip hn⟩
  · refine ⟨fun hs => absurd hs hskip, fun _ => ⟨ev, r, hev, hrf, hrm, hem, hstreak, ?_, ?_⟩⟩
    · intro hlt more
      cases b with
      | true => exact absurd (hb.1 rfl) (by omega)
      | false => exact sweep_cons_continue e files info f more i st st1 h
    · intro hge
      have hbt : b = true := hb.2 hge
      subst hbt
      refine ⟨?_, fun more => sweep_cons_break e files info f more i st st1 h, hrest rfl⟩
      rw [hstreak] at hge ⊢
      split at hge <;> split <;> omega

/-! ## Scenarios: a seed that always qualifies, scores that are always zero -/

theorem nextBestIntro_alwaysSeed (names : List String) (start : Nat)
    (h : start + 2 ≤ names.length) (result : IntroInfo ℚ) :
    ∃ intro, nextBestIntro alwaysSeed (names.map fileNamed) result (start : Int) =
      some ((start : Int), { seedInfo with intro := some intro }) := by
  obtain ⟨idx, out, hres, hcase⟩ := nextBestIntro_char alwaysSeed (names.map fileNamed)
    result start (fun _ => seedInfo)
    (by intro hnil; rw [List.map_eq_nil_iff] at hnil; rw [hnil] at h; simp at h)
    (fun _ _ _ _ _ => rfl)
    (by
      intro i fi hfi _
      rw [fileNamed_getElem? _ i fi hfi]
      simp [seedInfo])
  rcases hcase with ⟨-, -, hnone⟩ | ⟨k, hk, hk1, hk2, -, hfirst, fk, intro, -, -, hout⟩
  · exact absurd seedInfo_qualifies (hnone start (le_refl _) (by simpa using h))
  · have hks : k = start := by
      by_contra hne
      exact hfirst start (le_refl _) (by omega) seedInfo_qualifies
    subst hks
    exact ⟨intro, by rw [hres, hk, hout]⟩

theorem sweepFile_scoreByFile (sc : String → ℚ) (files : List (FileSignal ℚ))
    (info info2 : IntroInfo ℚ) (st : Discovery ℚ) (i : Nat) (f : FileSignal ℚ) :
    sweepFile (scoreByFile sc) files info st i f =
      sweepFile (scoreByFile sc) files info2 st i f := rfl

theorem sweep_scoreByFile (sc : String → ℚ) (files : List (FileSignal ℚ))
    (info info2 : IntroInfo ℚ) :
    ∀ (todo : List (FileSignal ℚ)) (i : Nat) (st : Discovery ℚ),
      sweep (scoreByFile sc) files info todo i st =
        sweep (scoreByFile sc) files info2 todo i st := by
  intro todo
  induction todo with
  | nil => intro i st; rfl
  | cons f more ih =>
    intro i st
    rw [sweep, sweep, sweepFile_scoreByFile sc files info info2]
    congr 1
    funext r
    rw [ih]


theorem sweepFile_zero (files : List (FileSignal ℚ)) (info : IntroInfo ℚ) (st : Discovery ℚ)
    (i : Nat) (f seed : FileSignal ℚ) (hbm : st.bestMatches = fun _ => 0)
    (hseed : files[st.lastBestIntroIdx.toNat]? = some seed) :
    ∃ r, sweepFile zeroScore files info st i f =
      some (if 5 ≤ st.badStreak + 1 then
          (Discovery.mk files (fun _ => 0) (st.badStreak + 1) st.lastBestIntroIdx
            (st.emitted ++ [r]), true)
        else
          (Discovery.mk (st.rest ++ [f]) (fun _ => 0) (st.badStreak + 1) st.lastBestIntroIdx
            (st.emitted ++ [r]), false)) := by
  unfold sweepFile zeroScore scoreByFile
  simp only [hbm, hseed, Option.some_bind]
  norm_num [ACCEPTANCE_THRESHOLD]
  exact ⟨_, by split <;> rfl⟩

/-- With every score `0` and nothing stored, a sweep over at least `5 - streak` files is
abandoned: it ends with streak `5`, `rest` the whole list and the stored bests untouched. -/
theorem sweep_zero (files : List (FileSignal ℚ)) (info : IntroInfo ℚ) (seed : FileSignal ℚ) :
    ∀ (todo : List (FileSignal ℚ)) (i : Nat) (st : Discovery ℚ),
      st.bestMatches = (fun _ => 0) → st.badStreak < 5 → 5 ≤ st.badStreak + todo.length →
      files[st.lastBestIntroIdx.toNat]? = some seed →
      ∃ em1, sweep zeroScore files info todo i st =
        some (Discovery.mk files (fun _ => 0) 5 st.lastBestIntroIdx em1) := by
  intro todo
  induction todo with
  | nil =>
    intro i st _ h1 h2 _
    simp only [List.length_nil] at h2
    omega
  | cons f more ih =>
    intro i st hbm h1 h2 hseed
    obtain ⟨r, hr⟩ := sweepFile_zero files info st i f seed hbm hseed
    by_cases h5 : 5 ≤ st.badStreak + 1
    · rw [if_pos h5] at hr
      have hb : st.badStreak + 1 = 5 := by omega
      rw [hb] at hr
      exact ⟨_, sweep_cons_break zeroScore files info f more i st _ hr⟩
    · rw [if_neg h5] at hr
      rw [sweep_cons_continue zeroScore files info f more i st _ hr]
      simp only [List.length_cons] at h2
      exact ih (i + 1) _ rfl (by simp only; omega) (by simp only; omega) hseed

/-- With a pair extractor for which every pair qualifies and a scoring that is always `0`,
one pass of the outer loop over at least five files ends by abandonment and leaves the
loop in the situation it started from (only the emitted results have grown). -/
theorem outerIteration_zero (names : List String) (h5 : 5 ≤ names.length) (b : Nat)
    (em : List (FindSoundResult ℚ)) :
    ∃ em1, outerIteration alwaysSeed zeroScore (names.map fileNamed)
        (Discovery.mk (names.map fileNamed) (fun _ => 0) b 0 em) =
      Loop.running (Discovery.mk (names.map fileNamed) (fun _ => 0) 5 0 em1) := by
  obtain ⟨intro, hn⟩ := nextBestIntro_alwaysSeed names 0 (by omega) (IntroInfo.blank ℚ)
  have hpos : 0 < (names.map fileNamed).length := by simp; omega
  have hseed : (names.map fileNamed)[(0 : Int).toNat]? = some (names.map fileNamed)[0] :=
    List.getElem?_eq_getElem hpos
  obtain ⟨em1, hsw⟩ := sweep_zero (names.map fileNamed) { seedInfo with intro := some intro }
    _ (names.map fileNamed) 0 (Discovery.mk [] (fun _ => 0) 0 0 em) rfl (by simp)
    (by simp; omega) hseed
  refine ⟨em1, ?_⟩
  unfold outerIteration
  have hlen : (names.map fileNamed).length > 1 := by simp; omega
  simp only [hlen, if_true]
  have hn2 : nextBestIntro alwaysSeed (names.map fileNamed) (IntroInfo.blank ℚ) 0 =
      some (0, { seedInfo with intro := some intro }) := hn
  rw [hn2]
  simp only [lt_self_iff_false, if_false]
  rw [hsw]

theorem outerLoop_zero (names : List String) (h5 : 5 ≤ names.length) :
    ∀ (n b : Nat) (em : List (FindSoundResult ℚ)),
      ∃ b1 em1, outerLoop alwaysSeed zeroScore (names.map fileNamed) n
          (Discovery.mk (names.map fileNamed) (fun _ => 0) b 0 em) =
        Loop.running (Discovery.mk (names.map fileNamed) (fun _ => 0) b1 0 em1) := by
  intro n
  induction n with
  | zero => intro b em; exact ⟨b, em, rfl⟩
  | succ n ih =>
    intro b em
    obtain ⟨em1, h1⟩ := outerIteration_zero names h5 b em
    obtain ⟨b2, em2, h2⟩ := ih 5 em1
    refine ⟨b2, em2, ?_⟩
    rw [outerLoop, h1]
    exact h2

/-! ## C14: claim -/

/-- C14: in every state discovery reaches (after any number of passes of the outer
loop), the stored best of each file is the maximum of `0` and every score emitted so far
for that file; every sweep result has `isBetter = true` if and only if its score is
strictly greater than the best stored before it, in which case the stored best becomes
that score, and otherwise the stored best is left unchanged; and from then on a file's
stored best never decreases. -/
theorem best_matches_running_max [FloorRing α]
    (g : List α → List α → Option (IntroInfo α))
    (e : FileSignal α → IntroInfo α → Option (α × α × α))
    (files : List (FileSignal α)) (fuel : Nat) (s : Discovery α)
    (h : outerLoop g e files fuel (Discovery.init files) = Loop.running s ∨
      outerLoop g e files fuel (Discovery.init files) = Loop.finished s) :
    (∀ f, s.bestMatches f = bestSoFar f s.emitted) ∧
    (∀ k r, s.emitted[k]? = some r →
      (r.isBetter = true ↔
        bestSoFar r.file (s.emitted.take k) < r.introInfo.matchPercent) ∧
      bestSoFar r.file (s.emitted.take (k + 1)) =
        (if r.isBetter then r.introInfo.matchPercent
          else bestSoFar r.file (s.emitted.take k))) ∧
    (∀ more s2, (outerLoop g e files more s = Loop.running s2 ∨
        outerLoop g e files more s = Loop.finished s2) →
      ∀ f, s.bestMatches f ≤ s2.bestMatches f) := by
  obtain ⟨⟨i1, i2⟩, -, -⟩ := outerLoop_inv g e files fuel _ s h (bestInvariant_init files)
  refine ⟨i1, ?_, ?_⟩
  · intro k r hr
    have hb := i2 k r hr
    refine ⟨by rw [hb, decide_eq_true_eq], ?_⟩
    rw [List.take_succ, hr, Option.toList_some, bestSoFar_append, if_pos rfl, hb]
    by_cases hlt : bestSoFar r.file (s.emitted.take k) < r.introInfo.matchPercent
    · simp [hlt, max_eq_right (le_of_lt hlt)]
    · simp [hlt, max_eq_left (not_lt.1 hlt)]
  · intro more s2 h2 f
    exact (outerLoop_inv g e files more s s2 h2 ⟨i1, i2⟩).2.1 f

/-- C14 applied to five files whose scores are all `0`, after one pass of the loop. -/
theorem best_matches_running_max_witness :
    ∃ s, (outerLoop alwaysSeed zeroScore (["A", "B", "C", "D", "E"].map fileNamed) 1
          (Discovery.init (["A", "B", "C", "D", "E"].map fileNamed)) = Loop.running s ∨
        outerLoop alwaysSeed zeroScore (["A", "B", "C", "D", "E"].map fileNamed) 1
          (Discovery.init (["A", "B", "C", "D", "E"].map fileNamed)) = Loop.finished s) ∧
      ∀ f, s.bestMatches f = bestSoFar f s.emitted := by
  obtain ⟨b1, em1, h⟩ := outerLoop_zero ["A", "B", "C", "D", "E"] (by decide) 1 0 []
  exact ⟨_, Or.inl h, (best_matches_running_max alwaysSeed zeroScore
    (["A", "B", "C", "D", "E"].map fileNamed) 1 _ (Or.inl h)).1⟩

/-! ## C17, C18: re-seeding and termination -/

/-- When the first pass of the outer loop leaves the loop without a sweep (nothing
emitted, `rest` still the whole list), `run` finishes with one progress-only result per
file. -/
theorem run_without_sweep [FloorRing α]
    (g : List α → List α → Option (IntroInfo α))
    (e : FileSignal α → IntroInfo α → Option (α × α × α))
    (files : List (FileSignal α)) (fuel : Nat) (st : Discovery α)
    (h : outerIteration g e files (Discovery.init files) = Loop.finished st)
    (hrest : st.rest = files) (hem : st.emitted = []) :
    FindSoundTask.run g e files (fuel + 1) =
      Loop.finished (files.map fun _ => progressOnly α) := by
  unfold FindSoundTask.run
  rw [outerLoop, h]
  simp only [hrest, hem, List.nil_append]

theorem outerIteration_short [FloorRing α]
    (g : List α → List α → Option (IntroInfo α))
    (e : FileSignal α → IntroInfo α → Option (α × α × α))
    (files : List (FileSignal α)) (h : files.length < 2) :
    outerIteration g e files (Discovery.init files) = Loop.finished (Discovery.init files) := by
  unfold outerIteration
  rw [if_neg (by simp only [Discovery.init]; omega)]

/-- C19 as stated fails: for a single file, discovery performs no sweep but emits one
result, the trailing progress-only result of that file. -/
theorem single_file_emits_one_result :
    FindSoundTask.run alwaysSeed zeroScore [fileNamed "A"] 1 =
        Loop.finished [progressOnly ℚ] ∧
      [progressOnly ℚ] ≠ [] ∧ ([fileNamed "A"] : List (FileSignal ℚ)).length < 2 :=
  ⟨run_without_sweep alwaysSeed zeroScore [fileNamed "A"] 0 _
      (outerIteration_short alwaysSeed zeroScore [fileNamed "A"] (by decide)) rfl rfl,
    List.cons_ne_nil _ _, by decide⟩

/-- C19, amended: for every input list with fewer than 2 files, discovery performs no
sweep (the loop is left at once, nothing having been emitted) and then emits one
progress-only result per file: none for the empty list, exactly one (with
`isProgress = true`, `isBetter = false`) for a single file. -/
theorem run_fewer_than_two_files [FloorRing α]
    (g : List α → List α → Option (IntroInfo α))
    (e : FileSignal α → IntroInfo α → Option (α × α × α))
    (files : List (FileSignal α)) (fuel : Nat) (h : files.length < 2) :
    outerIteration g e files (Discovery.init files) = Loop.finished (Discovery.init files) ∧
      (Discovery.init files).emitted = [] ∧
      FindSoundTask.run g e files (fuel + 1) =
        Loop.finished (files.map fun _ => progressOnly α) ∧
      (files = [] → FindSoundTask.run g e files (fuel + 1) = Loop.finished []) ∧
      (∀ f, files = [f] →
        FindSoundTask.run g e files (fuel + 1) = Loop.finished [progressOnly α]) ∧
      (progressOnly α).isProgress = true ∧ (progressOnly α).isBetter = false := by
  have h1 := outerIteration_short g e files h
  have h2 := run_without_sweep g e files fuel _ h1 rfl rfl
  refine ⟨h1, rfl, h2, ?_, ?_, rfl, rfl⟩
  · intro hnil
    rw [h2, hnil]
    rfl
  · intro f hf
    rw [h2, hf]
    rfl

/-- C19 (amended) applied to the empty list. -/
theorem run_fewer_than_two_files_witness :
    ([] : List (FileSignal ℚ)).length < 2 ∧
      FindSoundTask.run alwaysSeed zeroScore [] 1 = Loop.finished [] :=
  ⟨by decide, (run_fewer_than_two_files alwaysSeed zeroScore [] 0 (by decide)).2.2.2.1 rfl⟩

/-- C20: for `n ≥ 2` files of which no adjacent pair qualifies as a seed
(`nextBestIntro` returns `-1` on its first call), discovery terminates after that call
without a sweep, having emitted exactly one result per file, hence at most `n` results,
each a progress-only result with `isProgress = true` and `isBetter = false`. -/
theorem run_without_seed [FloorRing α]
    (g : List α → List α → Option (IntroInfo α))
    (e : FileSignal α → IntroInfo α → Option (α × α × α))
    (files : List (FileSignal α)) (fuel : Nat) (out : IntroInfo α)
    (h2 : 2 ≤ files.length)
    (hfirst : nextBestIntro g files (IntroInfo.blank α) 0 = some (-1, out)) :
    ∃ results, FindSoundTask.run g e files (fuel + 1) = Loop.finished results ∧
      results.length ≤ files.length ∧ results.length = files.length ∧
      ∀ r ∈ results, r = progressOnly α ∧ r.isProgress = true ∧ r.isBetter = false := by
  have hit : outerIteration g e files (Discovery.init files) =
      Loop.finished { Discovery.init files with badStreak := 0, lastBestIntroIdx := -1 } := by
    unfold outerIteration
    rw [if_pos (by simp only [Discovery.init]; omega)]
    have hf : nextBestIntro g (Discovery.init files).rest (IntroInfo.blank α)
        (Discovery.init files).lastBestIntroIdx = some (-1, out) := hfirst
    rw [hf]
    simp
  refine ⟨_, run_without_sweep g e files fuel _ hit rfl rfl, by simp, by simp, ?_⟩
  intro r hr
  simp only [List.mem_map] at hr
  obtain ⟨_, _, rfl⟩ := hr
  exact ⟨rfl, rfl, rfl⟩

theorem nextBestIntro_neverSeed (names : List String) (hne : names ≠ []) :
    nextBestIntro neverSeed (names.map fileNamed) (IntroInfo.blank ℚ) 0 =
      some (-1, IntroInfo.blank ℚ) := by
  obtain ⟨idx, out, hres, hcase⟩ := nextBestIntro_char neverSeed (names.map fileNamed)
    (IntroInfo.blank ℚ) 0 (fun _ => IntroInfo.blank ℚ)
    (by intro hnil; rw [List.map_eq_nil_iff] at hnil; exact hne hnil)
    (fun _ _ _ _ _ => rfl)
    (by
      intro i fi hfi _
      rw [fileNamed_getElem? _ i fi hfi]
      simp [IntroInfo.blank])
  have hnq : ¬ qualifies (IntroInfo.blank ℚ) := by
    intro hq
    have := hq.1
    simp only [IntroInfo.blank] at this
    norm_num at this
  rcases hcase with ⟨h1, h2, -⟩ | ⟨k, -, -, -, hq, -⟩
  · have h0 : nextBestIntro neverSeed (names.map fileNamed) (IntroInfo.blank ℚ) 0 =
        some (idx, out) := hres
    rw [h0, h1, h2]
  · exact absurd hq hnq

/-- C20 applied to two files and a pair extractor for which no pair qualifies. -/
theorem run_without_seed_witness :
    2 ≤ (["A", "B"].map fileNamed).length ∧
    nextBestIntro neverSeed (["A", "B"].map fileNamed) (IntroInfo.blank ℚ) 0 =
      some (-1, IntroInfo.blank ℚ) ∧
    ∃ results, FindSoundTask.run neverSeed zeroScore (["A", "B"].map fileNamed) 1 =
        Loop.finished results ∧ results.length = 2 :=
  have hfirst := nextBestIntro_neverSeed ["A", "B"] (by simp)
  ⟨by decide, hfirst,
    (run_without_seed neverSeed zeroScore (["A", "B"].map fileNamed) 0 _ (by decide)
      hfirst).elim fun results h => ⟨results, h.1, h.2.2.1⟩⟩

/-! ## C16: witness -/

/-- C16 applied to the first file of a sweep in which every score is `0`: the streak
becomes `bad_streak + 1` and, being below `5`, lets the sweep go on with the next file. -/
theorem bad_streak_rule_witness :
    (Discovery.init [fileNamed "A"]).badStreak < 5 ∧
    ∃ st1, sweepFile zeroScore [fileNamed "A"] seedInfo (Discovery.init [fileNamed "A"]) 0
        (fileNamed "A") = some (st1, false) ∧
      (¬ (Discovery.init [fileNamed "A"]).bestMatches (fileNamed "A").file ≥ 0.9 →
        ∃ ev r, zeroScore (fileNamed "A") seedInfo = some ev ∧ r.file = (fileNamed "A").file ∧
          r.introInfo.matchPercent = ev.2.2 ∧
          st1.emitted = (Discovery.init [fileNamed "A"]).emitted ++ [r] ∧
          st1.badStreak =
            (if ev.2.2 < 0.2 ∧ (Discovery.init [fileNamed "A"]).bestMatches (fileNamed "A").file = 0
              then (Discovery.init [fileNamed "A"]).badStreak + 1 else 0) ∧
          (st1.badStreak < 5 → ∀ more,
            sweep zeroScore [fileNamed "A"] seedInfo (fileNamed "A" :: more) 0
                (Discovery.init [fileNamed "A"]) =
              sweep zeroScore [fileNamed "A"] seedInfo more (0 + 1) st1) ∧
          (5 ≤ st1.badStreak → st1.badStreak = 5 ∧
            (∀ more, sweep zeroScore [fileNamed "A"] seedInfo (fileNamed "A" :: more) 0
              (Discovery.init [fileNamed "A"]) = some st1) ∧
            st1.rest = [fileNamed "A"].filter fun x =>
              decide (st1.bestMatches x.file < 0.8))) :=
  ⟨by decide,
    (sweepFile_zero [fileNamed "A"] seedInfo (Discovery.init [fileNamed "A"]) 0 (fileNamed "A")
      (fileNamed "A") rfl rfl).elim fun r hr =>
      ⟨_, hr, (bad_streak_rule zeroScore [fileNamed "A"] seedInfo (Discovery.init [fileNamed "A"])
        _ 0 (fileNamed "A") false (by decide) hr).2⟩⟩

/-! ## C15: the source-of-intro flag -/

theorem sweepFile_scored (sc : String → ℚ) (files : List (FileSignal ℚ)) (info : IntroInfo ℚ)
    (st : Discovery ℚ) (i : Nat) (f seed : FileSignal ℚ)
    (hskip : ¬ st.bestMatches f.file ≥ 0.9)
    (hseed : files[st.lastBestIntroIdx.toNat]? = some seed)
    (hgood : ¬ (sc f.file < 0.2 ∧ st.bestMatches f.file = 0)) :
    sweepFile (scoreByFile sc) files info st i f =
      some (Discovery.mk
        (if st.bestMatches f.file < 0.8 ∧ sc f.file < 0.8 then st.rest ++ [f] else st.rest)
        (if st.bestMatches f.file < sc f.file then
          fun k => if k = f.file then sc f.file else st.bestMatches k else st.bestMatches)
        0 st.lastBestIntroIdx
        (st.emitted ++ [FindSoundResult.mk f.file i (IntroInfo.mk 0 30 (sc f.file) none 0 0)
          (decide (st.bestMatches f.file < 0.8 ∧ sc f.file ≥ 0.8))
          (decide (st.bestMatches f.file < sc f.file))
          (decide (f.file = seed.file))]), false) := by
  unfold sweepFile scoreByFile
  simp only [hskip, hseed, hgood, if_false, Option.some_bind, ACCEPTANCE_THRESHOLD]
  have h0 : ¬ ((0 : Nat) ≥ 5) := by omega
  rw [if_neg h0]
  congr 3
  by_cases h1 : st.bestMatches f.file < 0.8 <;> by_cases h2 : sc f.file < 0.8 <;>
    simp [h1, h2, not_lt.1, not_le.2]

theorem outerLoop_step [FloorRing α]
    (g : List α → List α → Option (IntroInfo α))
    (e : FileSignal α → IntroInfo α → Option (α × α × α))
    (files : List (FileSignal α)) (n : Nat) (st st1 : Discovery α)
    (h : outerIteration g e files st = Loop.running st1) :
    outerLoop g e files (n + 1) st = outerLoop g e files n st1 := by
  rw [outerLoop, h]

theorem new_plans (signal patch : List α) (c : OverlapSaveConvolver α)
    (hc : OverlapSaveConvolver.new signal patch = some c) :
    c.forward_plans_ = c.s_chunks_.length + 1 ∧ c.backward_plans_ = c.s_chunks_.length := by
  unfold OverlapSaveConvolver.new check_a_less_equal_b at hc
  by_cases h : patch.length > signal.length
  · simp only [h, if_true, Option.none_bind] at hc
    exact Option.noConfusion hc
  · simp only [h, if_false, Option.some_bind, CheckRealComplexRatio_ok, planLoop_ok,
      Option.some.injEq] at hc
    subst hc
    exact ⟨Nat.add_comm _ _, rfl⟩

/-- C26: for `1 ≤ P ≤ S`, with `X = 2·Pow2Ceil(P)`, `L = X - P + 1`, `U = S + P - 1`: the
stride satisfies `L ≥ P + 1`; the constructor succeeds; the padded signal has length
`U + X - (U mod L)`; the number of chunks is `⌈(padded_len - X)/L⌉ + 1 = ⌊U/L⌋ + 1`; chunk
`i` is the length-`X` window of the padded signal at offset `i·L` and lies inside it, the
last chunk ending exactly at `padded_len`; and there are `chunks + 1` forward plans and
`chunks` backward plans. -/
theorem constructor_geometry (signal patch : List α) (h1 : 1 ≤ patch.length)
    (h2 : patch.length ≤ signal.length) :
    patch.length + 1 ≤ stride patch.length ∧
    ∃ c, OverlapSaveConvolver.new signal patch = some c ∧
      c.result_chunksize_ = chunkSize patch.length ∧
      c.result_stride_ = stride patch.length ∧
      c.padded_signal_.length = resultSize signal.length patch.length +
        chunkSize patch.length -
          resultSize signal.length patch.length % stride patch.length ∧
      c.s_chunks_.length =
        (c.padded_signal_.length - chunkSize patch.length + stride patch.length - 1) /
          stride patch.length + 1 ∧
      c.s_chunks_.length = resultSize signal.length patch.length / stride patch.length + 1 ∧
      (∀ i, i < c.s_chunks_.length →
        c.s_chunks_[i]? = some (window c.padded_signal_ (i * stride patch.length)
          (chunkSize patch.length)) ∧
        (window c.padded_signal_ (i * stride patch.length) (chunkSize patch.length)).length =
          chunkSize patch.length ∧
        i * stride patch.length + chunkSize patch.length ≤ c.padded_signal_.length) ∧
      (c.s_chunks_.length - 1) * stride patch.length + chunkSize patch.length =
        c.padded_signal_.length ∧
      c.forward_plans_ = c.s_chunks_.length + 1 ∧
      c.backward_plans_ = c.s_chunks_.length := by
  have hX := chunkSize_ge patch.length
  have hL := stride_pos patch.length
  have hLX := stride_add patch.length h1
  obtain ⟨c, hc, -, -, hU, hXc, hLc, -, -, hplen, hchunks, -⟩ := new_spec signal patch h1 h2
  obtain ⟨hf, hb⟩ := new_plans signal patch c hc
  have hlen : c.s_chunks_.length =
      resultSize signal.length patch.length / stride patch.length + 1 := by
    rw [hchunks]; simp
  have hdm := Nat.div_add_mod (resultSize signal.length patch.length) (stride patch.length)
  have hmod := Nat.mod_lt (resultSize signal.length patch.length) hL
  rw [Nat.mul_comm] at hdm
  refine ⟨by omega, c, hc, hXc, hLc, hplen, ?_, hlen, ?_, ?_, hf, hb⟩
  · rw [hlen, hplen]
    congr 1
    have e : resultSize signal.length patch.length + chunkSize patch.length -
        resultSize signal.length patch.length % stride patch.length - chunkSize patch.length +
        stride patch.length - 1 =
        (stride patch.length - 1) +
          stride patch.length * (resultSize signal.length patch.length / stride patch.length) := by
      rw [Nat.mul_comm]
      generalize resultSize signal.length patch.length / stride patch.length = q at *
      generalize resultSize signal.length patch.length % stride patch.length = r0 at *
      omega
    rw [e, Nat.add_mul_div_left _ _ hL,
      Nat.div_eq_of_lt (show stride patch.length - 1 < stride patch.length by omega),
      Nat.zero_add]
  · intro i hi
    have hkL : i * stride patch.length ≤
        resultSize signal.length patch.length / stride patch.length * stride patch.length :=
      Nat.mul_le_mul_right _ (by omega)
    have hin : i * stride patch.length + chunkSize patch.length ≤ c.padded_signal_.length := by
      rw [hplen]
      generalize resultSize signal.length patch.length / stride patch.length = q at *
      generalize resultSize signal.length patch.length % stride patch.length = r0 at *
      omega
    refine ⟨?_, window_length _ _ _ hin, hin⟩
    rw [hlen] at hi
    rw [hchunks]
    simp [List.getElem?_map, List.getElem?_range', hi]
  · rw [hlen, hplen, Nat.add_sub_cancel]
    generalize resultSize signal.length patch.length / stride patch.length = q at *
    generalize resultSize signal.length patch.length % stride patch.length = r0 at *
    omega

/-- C26 applied to a signal of 7 samples and a patch of 3 samples. -/
theorem constructor_geometry_witness :
    1 ≤ ([1, 1, 1] : List ℚ).length ∧
    ([1, 1, 1] : List ℚ).length ≤ ([1, 2, 3, 4, 5, 6, 7] : List ℚ).length ∧
    ∃ c, OverlapSaveConvolver.new ([1, 2, 3, 4, 5, 6, 7] : List ℚ) [1, 1, 1] = some c ∧
      c.s_chunks_.length = resultSize 7 3 / stride 3 + 1 ∧
      c.forward_plans_ = c.s_chunks_.length + 1 ∧ c.backward_plans_ = c.s_chunks_.length :=
  ⟨by decide, by decide,
    (constructor_geometry ([1, 2, 3, 4, 5, 6, 7] : List ℚ) [1, 1, 1] (by decide)
      (by decide)).2.elim fun c h =>
      ⟨c, h.1, h.2.2.2.2.2.1, h.2.2.2.2.2.2.2.2.1, h.2.2.2.2.2.2.2.2.2⟩⟩

theorem CheckAllEqual_three (x y z : Nat) :
    CheckAllEqual [x, y, z] = if x = y ∧ y = z then some () else none := by
  by_cases h1 : x = y <;> by_cases h2 : y = z <;> simp [CheckAllEqual, h1, h2]

theorem foldl_set_range {β : Type} (f : Nat → β) (r : List β) :
    ∀ m, m ≤ r.length →
      (List.range m).foldl (fun r i => r.set i (f i)) r = (List.range m).map f ++ r.drop m := by
  intro m
  induction m with
  | zero => intro _; simp
  | succ m ih =>
    intro hm
    rw [List.range_succ, List.foldl_append, ih (by omega)]
    simp only [List.foldl_cons, List.foldl_nil, List.map_append, List.map_cons, List.map_nil]
    have hl : ((List.range m).map f).length = m := by simp
    rw [List.set_append_right _ _ (by rw [hl]), hl, Nat.sub_self]
    have hd : r.drop m = r.getD m (f m) :: r.drop (m + 1) := by
      rw [List.getD_eq_getElem _ _ (by omega)]
      exact List.drop_eq_getElem_cons (by omega)
    rw [hd, List.set_cons_zero, List.append_assoc]
    rfl

theorem convolutionLoop_spec (a b r : List (α × α)) (h : a.length = r.length) :
    (convolutionLoop a b r a.length).length = a.length ∧
    ∀ i, i < a.length → (convolutionLoop a b r a.length).getD i 0 =
      ((a.getD i 0).1 * (b.getD i 0).1 - (a.getD i 0).2 * (b.getD i 0).2,
        (a.getD i 0).2 * (b.getD i 0).1 + (a.getD i 0).1 * (b.getD i 0).2) := by
  unfold convolutionLoop
  rw [foldl_set_range _ r a.length (by omega), h, List.drop_length, List.append_nil]
  refine ⟨by simp, ?_⟩
  intro i hi
  rw [List.getD_eq_getElem _ _ (by simpa using hi)]
  simp

theorem correlationLoop_spec (a b r : List (α × α)) (h : a.length = r.length) :
    (correlationLoop a b r a.length).length = a.length ∧
    ∀ i, i < a.length → (correlationLoop a b r a.length).getD i 0 =
      ((a.getD i 0).1 * (b.getD i 0).1 + (a.getD i 0).2 * (b.getD i 0).2,
        (a.getD i 0).2 * (b.getD i 0).1 - (a.getD i 0).1 * (b.getD i 0).2) := by
  unfold correlationLoop
  rw [foldl_set_range _ r a.length (by omega), h, List.drop_length, List.append_nil]
  refine ⟨by simp, ?_⟩
  intro i hi
  rw [List.getD_eq_getElem _ _ (by simpa using hi)]
  simp

theorem spectral_fail_iff (a b r : List (α × α)) :
    (SpectralConvolution a b r = none ↔ ¬ (a.length = b.length ∧ b.length = r.length)) ∧
    (SpectralCorrelation a b r = none ↔ ¬ (a.length = b.length ∧ b.length = r.length)) := by
  unfold SpectralConvolution SpectralCorrelation
  rw [CheckAllEqual_three]
  by_cases h : a.length = b.length ∧ b.length = r.length <;> simp [h]

/-- C23: for complex buffers `a`, `b`, `r` (samples as `(REAL, IMAG)` pairs of reals) of
equal length `n`, `SpectralConvolution(a, b, r)` leaves `r[i] = a[i]·b[i]` and
`SpectralCorrelation(a, b, r)` leaves `r[i] = a[i]·conj(b[i])` for every `i < n`, the
products being those of the complex numbers; and both fail (nothing is written, the
check comes before the loop) when the three lengths are not all equal. -/
theorem spectral_products (a b r : List (ℝ × ℝ)) :
    (a.length = b.length ∧ b.length = r.length →
      ∃ conv corr, SpectralConvolution a b r = some conv ∧
        SpectralCorrelation a b r = some corr ∧
        conv.length = a.length ∧ corr.length = a.length ∧
        ∀ i, i < a.length →
          Complex.mk (conv.getD i 0).1 (conv.getD i 0).2 =
            Complex.mk (a.getD i 0).1 (a.getD i 0).2 *
              Complex.mk (b.getD i 0).1 (b.getD i 0).2 ∧
          Complex.mk (corr.getD i 0).1 (corr.getD i 0).2 =
            Complex.mk (a.getD i 0).1 (a.getD i 0).2 *
              (starRingEnd ℂ) (Complex.mk (b.getD i 0).1 (b.getD i 0).2)) ∧
    (¬ (a.length = b.length ∧ b.length = r.length) →
      SpectralConvolution a b r = none ∧ SpectralCorrelation a b r = none) := by
  refine ⟨?_, fun h => ⟨(spectral_fail_iff a b r).1.2 h, (spectral_fail_iff a b r).2.2 h⟩⟩
  intro h
  have hr : a.length = r.length := h.1.trans h.2
  obtain ⟨c1, c2⟩ := convolutionLoop_spec a b r hr
  obtain ⟨d1, d2⟩ := correlationLoop_spec a b r hr
  refine ⟨_, _, ?_, ?_, c1, d1, ?_⟩
  · unfold SpectralConvolution
    rw [CheckAllEqual_three, if_pos h]
    rfl
  · unfold SpectralCorrelation
    rw [CheckAllEqual_three, if_pos h]
    rfl
  · intro i hi
    rw [c2 i hi, d2 i hi]
    constructor
    · apply Complex.ext
      · simp
      · simp; ring
    · apply Complex.ext
      · simp
      · simp; ring

/-- C23 applied to `a = [1 + 2i]`, `b = [3 + 4i]` and a result buffer of one sample. -/
theorem spectral_products_witness :
    (([(1, 2)] : List (ℝ × ℝ)).length = ([(3, 4)] : List (ℝ × ℝ)).length ∧
      ([(3, 4)] : List (ℝ × ℝ)).length = ([(0, 0)] : List (ℝ × ℝ)).length) ∧
    ∃ conv corr, SpectralConvolution ([(1, 2)] : List (ℝ × ℝ)) [(3, 4)] [(0, 0)] = some conv ∧
      SpectralCorrelation ([(1, 2)] : List (ℝ × ℝ)) [(3, 4)] [(0, 0)] = some corr ∧
      conv.length = 1 ∧ corr.length = 1 ∧
      Complex.mk (conv.getD 0 0).1 (conv.getD 0 0).2 =
        Complex.mk 1 2 * Complex.mk 3 4 ∧
      Complex.mk (corr.getD 0 0).1 (corr.getD 0 0).2 =
        Complex.mk 1 2 * (starRingEnd ℂ) (Complex.mk 3 4) :=
  ⟨⟨rfl, rfl⟩, ((spectral_products [(1, 2)] [(3, 4)] [(0, 0)]).1 ⟨rfl, rfl⟩).elim fun conv h =>
    h.elim fun corr h => ⟨conv, corr, h.1, h.2.1, h.2.2.1, h.2.2.2.1,
      (h.2.2.2.2 0 (by decide)).1, (h.2.2.2.2 0 (by decide)).2⟩⟩

/-! ## The clustering pass of `getChunkSearchResults` -/

/-- The clustering step on a state whose current block is the last one. -/
theorem clusterStep_last (m : α) (D : Nat) (closed : List (IntroChunkSearchResult α))
    (cur : IntroChunkSearchResult α) (i : Nat) (r : CorrelateResult α) :
    clusterStep m D (closed ++ [cur], closed.length) (i, r) =
      if r.value < m then (closed ++ [cur], closed.length)
      else if |r.timestamp - cur.endTime| < ((D + 1 : Nat) : α) then
        (closed ++ [{ cur with endTime := max r.timestamp cur.endTime, patchEnd := i * D }],
          closed.length)
      else if r.timestamp > cur.startTime ∧ r.timestamp < cur.endTime then
        (closed ++ [{ cur with endTime := cur.endTime + (D : α), patchEnd := i * D }],
          closed.length)
      else
        ((closed ++ [cur]) ++ [⟨r.timestamp, r.timestamp, i * D, i * D⟩],
          (closed ++ [cur]).length) := by
  have hget : (closed ++ [cur]).getD closed.length ⟨0, 0, 0, 0⟩ = cur := by
    rw [List.getD_eq_getElem _ _ (by simp)]
    simp
  have hset : ∀ b, (closed ++ [cur]).set closed.length b = closed ++ [b] := by
    intro b
    rw [List.set_append_right _ _ (le_refl _)]
    simp
  unfold clusterStep
  simp only [hget, hset, List.length_append, List.length_singleton]

/-- Induction over the clustering pass: a property of (index of the next result, results
still to come, closed blocks, current block) that every branch of the step preserves holds
at the end of the pass. -/
theorem clusterFold_inv (m : α) (D : Nat)
    (Inv : Nat → List (CorrelateResult α) → List (IntroChunkSearchResult α) →
      IntroChunkSearchResult α → Prop)
    (hskip : ∀ i r rest closed cur, Inv i (r :: rest) closed cur → r.value < m →
      Inv (i + 1) rest closed cur)
    (hext : ∀ i r rest closed cur, Inv i (r :: rest) closed cur → ¬ r.value < m →
      |r.timestamp - cur.endTime| < ((D + 1 : Nat) : α) →
      Inv (i + 1) rest closed
        { cur with endTime := max r.timestamp cur.endTime, patchEnd := i * D })
    (hin : ∀ i r rest closed cur, Inv i (r :: rest) closed cur → ¬ r.value < m →
      ¬ |r.timestamp - cur.endTime| < ((D + 1 : Nat) : α) →
      r.timestamp > cur.startTime ∧ r.timestamp < cur.endTime →
      Inv (i + 1) rest closed
        { cur with endTime := cur.endTime + (D : α), patchEnd := i * D })
    (hnew : ∀ i r rest closed cur, Inv i (r :: rest) closed cur → ¬ r.value < m →
      ¬ |r.timestamp - cur.endTime| < ((D + 1 : Nat) : α) →
      ¬ (r.timestamp > cur.startTime ∧ r.timestamp < cur.endTime) →
      Inv (i + 1) rest (closed ++ [cur]) ⟨r.timestamp, r.timestamp, i * D, i * D⟩) :
    ∀ (rs : List (CorrelateResult α)) (i : Nat) (closed : List (IntroChunkSearchResult α))
      (cur : IntroChunkSearchResult α), Inv i rs closed cur →
      ∃ closed1 cur1,
        (rs.enumFrom i).foldl (clusterStep m D) (closed ++ [cur], closed.length) =
          (closed1 ++ [cur1], closed1.length) ∧
        Inv (i + rs.length) [] closed1 cur1 := by
  intro rs
  induction rs with
  | nil => intro i closed cur h; exact ⟨closed, cur, rfl, h⟩
  | cons r rest ih =>
    intro i closed cur h
    simp only [List.enumFrom_cons, List.foldl_cons, List.length_cons]
    rw [clusterStep_last, show i + (rest.length + 1) = (i + 1) + rest.length by omega]
    by_cases h1 : r.value < m
    · rw [if_pos h1]
      exact ih (i + 1) closed cur (hskip i r rest closed cur h h1)
    · rw [if_neg h1]
      by_cases h2 : |r.timestamp - cur.endTime| < ((D + 1 : Nat) : α)
      · rw [if_pos h2]
        exact ih (i + 1) closed _ (hext i r rest closed cur h h1 h2)
      · rw [if_neg h2]
        by_cases h3 : r.timestamp > cur.startTime ∧ r.timestamp < cur.endTime
        · rw [if_pos h3]
          exact ih (i + 1) closed _ (hin i r rest closed cur h h1 h2 h3)
        · rw [if_neg h3]
          exact ih (i + 1) (closed ++ [cur]) _ (hnew i r rest closed cur h h1 h2 h3)

/-- The first result never changes the seeded block: the pass over the whole list is the
pass over the results after the first, started from the seeded block. -/
theorem clusterBlocks_cons (first : CorrelateResult α) (rest : List (CorrelateResult α))
    (D : Nat) :
    clusterBlocks (first :: rest) D =
      some ((rest.enumFrom 1).foldl (clusterStep (valueMean (first :: rest)) D)
        ([] ++ [⟨first.timestamp, first.timestamp, 0, 0⟩],
          ([] : List (IntroChunkSearchResult α)).length)).1 := by
  unfold clusterBlocks
  simp only [List.enum, List.enumFrom_cons, List.foldl_cons]
  have h := clusterStep_last (valueMean (first :: rest)) D []
    ⟨first.timestamp, first.timestamp, 0, 0⟩ 0 first
  simp only [List.nil_append, List.length_nil] at h
  rw [h]
  by_cases h1 : first.value < valueMean (first :: rest)
  · rw [if_pos h1]; rfl
  · rw [if_neg h1, if_pos (by simp; positivity)]
    simp

theorem clusterBlocks_some (results : List (CorrelateResult α)) (D : Nat)
    (hne : results ≠ []) : ∃ blocks, clusterBlocks results D = some blocks := by
  cases results with
  | nil => exact absurd rfl hne
  | cons first rest => exact ⟨_, rfl⟩

/-- The pick of `maxBlock`: either no block is longer than the initial one, or the result
is the earliest block of maximal span. -/
theorem maxBlock_fold :
    ∀ (bs : List (IntroChunkSearchResult α)) (init : IntroChunkSearchResult α),
      (bs.foldl maxBlockStep init = init ∧
        ∀ b ∈ bs, b.endTime - b.startTime ≤ init.endTime - init.startTime) ∨
      (∃ k : Nat, bs[k]? = some (bs.foldl maxBlockStep init) ∧
        init.endTime - init.startTime <
          (bs.foldl maxBlockStep init).endTime - (bs.foldl maxBlockStep init).startTime ∧
        (∀ (j : Nat) (b : IntroChunkSearchResult α), j < k → bs[j]? = some b → b.endTime - b.startTime <
          (bs.foldl maxBlockStep init).endTime - (bs.foldl maxBlockStep init).startTime) ∧
        ∀ b ∈ bs, b.endTime - b.startTime ≤
          (bs.foldl maxBlockStep init).endTime - (bs.foldl maxBlockStep init).startTime) := by
  intro bs
  induction bs with
  | nil => intro init; exact Or.inl ⟨rfl, fun b hb => absurd hb (List.not_mem_nil b)⟩
  | cons b bs ih =>
    intro init
    rw [List.foldl_cons]
    by_cases hgt : b.endTime - b.startTime > init.endTime - init.startTime
    · have hstep : maxBlockStep init b = b := by unfold maxBlockStep; rw [if_pos hgt]
      rw [hstep]
      rcases ih b with ⟨h1, h2⟩ | ⟨k, h1, h2, h3, h4⟩
      · right
        rw [h1]
        refine ⟨0, List.getElem?_cons_zero, hgt, fun j _ hj => absurd hj (Nat.not_lt_zero j), ?_⟩
        intro c hc
        rcases List.mem_cons.1 hc with rfl | hc
        · exact le_refl _
        · exact h2 c hc
      · right
        refine ⟨k + 1, by simpa using h1, lt_trans hgt h2, ?_, ?_⟩
        · intro j c hj hc
          cases j with
          | zero =>
            simp only [List.getElem?_cons_zero, Option.some.injEq] at hc
            rw [← hc]; exact h2
          | succ j =>
            simp only [List.getElem?_cons_succ] at hc
            exact h3 j c (by omega) hc
        · intro c hc
          rcases List.mem_cons.1 hc with rfl | hc
          · exact le_of_lt h2
          · exact h4 c hc
    · have hstep : maxBlockStep init b = init := by unfold maxBlockStep; rw [if_neg hgt]
      rw [hstep]
      rcases ih init with ⟨h1, h2⟩ | ⟨k, h1, h2, h3, h4⟩
      · left
        refine ⟨h1, ?_⟩
        intro c hc
        rcases List.mem_cons.1 hc with rfl | hc
        · exact not_lt.1 hgt
        · exact h2 c hc
      · right
        refine ⟨k + 1, by simpa using h1, h2, ?_, ?_⟩
        · intro j c hj hc
          cases j with
          | zero =>
            simp only [List.getElem?_cons_zero, Option.some.injEq] at hc
            rw [← hc]; exact lt_of_le_of_lt (not_lt.1 hgt) h2
          | succ j =>
            simp only [List.getElem?_cons_succ] at hc
            exact h3 j c (by omega) hc
        · intro c hc
          rcases List.mem_cons.1 hc with rfl | hc
          · exact le_trans (not_lt.1 hgt) (le_of_lt h2)
          · exact h4 c hc

/-- What `getChunkSearchResults` does with the blocks of the pass: it returns exactly when
some block has positive span, and then the earliest block of maximal span with its end
moved by `patchDuration`. -/
theorem getChunkSearchResults_char (results : List (CorrelateResult α)) (D : Nat)
    (blocks : List (IntroChunkSearchResult α)) (hb : clusterBlocks results D = some blocks) :
    ((¬ ∃ b ∈ blocks, b.startTime < b.endTime) → getChunkSearchResults results D = none) ∧
    ((∃ b ∈ blocks, b.startTime < b.endTime) →
      ∃ (k : Nat) (b : IntroChunkSearchResult α), blocks[k]? = some b ∧
        b.startTime < b.endTime ∧
        (∀ c ∈ blocks, c.endTime - c.startTime ≤ b.endTime - b.startTime) ∧
        (∀ (j : Nat) (c : IntroChunkSearchResult α), j < k → blocks[j]? = some c →
          c.endTime - c.startTime < b.endTime - b.startTime) ∧
        getChunkSearchResults results D =
          some { b with endTime := b.endTime + (D : α) }) := by
  unfold getChunkSearchResults
  rw [hb]
  simp only [Option.some_bind]
  rcases maxBlock_fold blocks (⟨0, 0, 0, 0⟩ : IntroChunkSearchResult α) with
    ⟨h1, h2⟩ | ⟨k, h1, h2, h3, h4⟩
  · have hno : ¬ ∃ b ∈ blocks, b.startTime < b.endTime := by
      rintro ⟨b, hb1, hb2⟩
      have := h2 b hb1
      simp only [sub_zero] at this
      linarith
    refine ⟨fun _ => ?_, fun h => absurd h hno⟩
    rw [h1, if_neg (by simp)]
  · simp only [sub_zero] at h2
    have hpos : (blocks.foldl maxBlockStep ⟨0, 0, 0, 0⟩).startTime <
        (blocks.foldl maxBlockStep ⟨0, 0, 0, 0⟩).endTime := by linarith
    refine ⟨fun hno => absurd ⟨_, List.getElem?_mem h1, hpos⟩ hno, fun _ => ?_⟩
    exact ⟨k, _, h1, hpos, h4, h3, by rw [if_pos hpos]⟩

/-- Every block built by the pass ends before `SOURCE_END + D·(n - 1)`, `n` being the
number of results with timestamps below `SOURCE_END`. -/
theorem clusterBlocks_end_lt (results : List (CorrelateResult α)) (D : Nat)
    (blocks : List (IntroChunkSearchResult α))
    (hts : ∀ r ∈ results, r.timestamp < (SOURCE_END : α))
    (hb : clusterBlocks results D = some blocks) :
    ∀ b ∈ blocks, b.endTime < (SOURCE_END : α) + (D : α) * ((results.length - 1 : Nat) : α) := by
  cases results with
  | nil => exact Option.noConfusion hb
  | cons first rest =>
    rw [clusterBlocks_cons] at hb
    obtain ⟨closed1, cur1, hfold, h1, -, h3⟩ := clusterFold_inv (valueMean (first :: rest)) D
      (fun i rs closed cur => 1 ≤ i ∧ (∀ r ∈ rs, r.timestamp < (SOURCE_END : α)) ∧
        ∀ b ∈ closed ++ [cur], b.endTime < (SOURCE_END : α) + (D : α) * ((i - 1 : Nat) : α))
      (by
        rintro i r rest closed cur ⟨h1, h2, h3⟩ _
        refine ⟨by omega, fun x hx => h2 x (List.mem_cons_of_mem _ hx), fun b hb => ?_⟩
        have := h3 b hb
        have hmono : (D : α) * ((i - 1 : Nat) : α) ≤ (D : α) * ((i + 1 - 1 : Nat) : α) :=
          mul_le_mul_of_nonneg_left (by exact_mod_cast (by omega : i - 1 ≤ i + 1 - 1))
            (Nat.cast_nonneg D)
        linarith)
      (by
        rintro i r rest closed cur ⟨h1, h2, h3⟩ _ _
        have hmono : (D : α) * ((i - 1 : Nat) : α) ≤ (D : α) * ((i + 1 - 1 : Nat) : α) :=
          mul_le_mul_of_nonneg_left (by exact_mod_cast (by omega : i - 1 ≤ i + 1 - 1))
            (Nat.cast_nonneg D)
        have hnn : (0 : α) ≤ (D : α) * ((i + 1 - 1 : Nat) : α) :=
          mul_nonneg (Nat.cast_nonneg D) (Nat.cast_nonneg _)
        refine ⟨by omega, fun x hx => h2 x (List.mem_cons_of_mem _ hx), fun b hb => ?_⟩
        rcases List.mem_append.1 hb with hb | hb
        · have := h3 b (List.mem_append_left _ hb)
          linarith
        · rw [List.mem_singleton] at hb
          subst hb
          have hc := h3 cur (List.mem_append_right _ (List.mem_singleton_self _))
          have hr := h2 r (List.mem_cons_self _ _)
          simp only
          rcases max_cases r.timestamp cur.endTime with ⟨e, -⟩ | ⟨e, -⟩ <;> rw [e] <;> linarith)
      (by
        rintro i r rest closed cur ⟨h1, h2, h3⟩ _ _ _
        have hmono : (D : α) * ((i - 1 : Nat) : α) ≤ (D : α) * ((i + 1 - 1 : Nat) : α) :=
          mul_le_mul_of_nonneg_left (by exact_mod_cast (by omega : i - 1 ≤ i + 1 - 1))
            (Nat.cast_nonneg D)
        refine ⟨by omega, fun x hx => h2 x (List.mem_cons_of_mem _ hx), fun b hb => ?_⟩
        rcases List.mem_append.1 hb with hb | hb
        · have := h3 b (List.mem_append_left _ hb)
          linarith
        · rw [List.mem_singleton] at hb
          subst hb
          have hc := h3 cur (List.mem_append_right _ (List.mem_singleton_self _))
          have hi : ((i + 1 - 1 : Nat) : α) = ((i - 1 : Nat) : α) + 1 := by
            rw [show i + 1 - 1 = (i - 1) + 1 by omega]; push_cast; ring
          simp only
          rw [hi]
          linarith)
      (by
        rintro i r rest closed cur ⟨h1, h2, h3⟩ _ _ _
        have hmono : (D : α) * ((i - 1 : Nat) : α) ≤ (D : α) * ((i + 1 - 1 : Nat) : α) :=
          mul_le_mul_of_nonneg_left (by exact_mod_cast (by omega : i - 1 ≤ i + 1 - 1))
            (Nat.cast_nonneg D)
        have hnn : (0 : α) ≤ (D : α) * ((i + 1 - 1 : Nat) : α) :=
          mul_nonneg (Nat.cast_nonneg D) (Nat.cast_nonneg _)
        refine ⟨by omega, fun x hx => h2 x (List.mem_cons_of_mem _ hx), fun b hb => ?_⟩
        rcases List.mem_append.1 hb with hb | hb
        · have := h3 b hb
          linarith
        · rw [List.mem_singleton] at hb
          subst hb
          have hr := h2 r (List.mem_cons_self _ _)
          simp only
          linarith)
      rest 1 [] ⟨first.timestamp, first.timestamp, 0, 0⟩
      ⟨le_refl 1, fun r hr => hts r (List.mem_cons_of_mem _ hr), by
        intro b hb
        simp only [List.nil_append, List.mem_singleton] at hb
        subst hb
        have := hts first (List.mem_cons_self _ _)
        simpa using this⟩
    rw [hfold] at hb
    simp only [Option.some.injEq] at hb
    subst hb
    intro b hb
    have := h3 b hb
    simpa using this

/-- When the timestamps come in non-decreasing order, no result falls inside the current
block and every block built by the pass ends before `SOURCE_END`. -/
theorem clusterBlocks_end_lt_of_sorted (results : List (CorrelateResult α)) (D : Nat)
    (blocks : List (IntroChunkSearchResult α))
    (hts : ∀ r ∈ results, r.timestamp < (SOURCE_END : α))
    (hsorted : results.Pairwise fun r s => r.timestamp ≤ s.timestamp)
    (hb : clusterBlocks results D = some blocks) :
    ∀ b ∈ blocks, b.endTime < (SOURCE_END : α) := by
  cases results with
  | nil => exact Option.noConfusion hb
  | cons first rest =>
    rw [clusterBlocks_cons] at hb
    rw [List.pairwise_cons] at hsorted
    obtain ⟨closed1, cur1, hfold, -, -, h3⟩ := clusterFold_inv (valueMean (first :: rest)) D
      (fun _ rs closed cur => (∀ r ∈ rs, r.timestamp < (SOURCE_END : α) ∧
          cur.endTime ≤ r.timestamp) ∧
        rs.Pairwise (fun r s => r.timestamp ≤ s.timestamp) ∧
        ∀ b ∈ closed ++ [cur], b.endTime < (SOURCE_END : α))
      (by
        rintro i r rest closed cur ⟨h1, h2, h3⟩ _
        exact ⟨fun x hx => h1 x (List.mem_cons_of_mem _ hx), (List.pairwise_cons.1 h2).2, h3⟩)
      (by
        rintro i r rest closed cur ⟨h1, h2, h3⟩ _ _
        have hr := h1 r (List.mem_cons_self _ _)
        have hmax : max r.timestamp cur.endTime = r.timestamp := max_eq_left hr.2
        refine ⟨fun x hx => ⟨(h1 x (List.mem_cons_of_mem _ hx)).1, ?_⟩,
          (List.pairwise_cons.1 h2).2, fun b hb => ?_⟩
        · simp only [hmax]
          exact (List.pairwise_cons.1 h2).1 x hx
        · rcases List.mem_append.1 hb with hb | hb
          · exact h3 b (List.mem_append_left _ hb)
          · rw [List.mem_singleton] at hb
            subst hb
            simp only [hmax]
            exact hr.1)
      (by
        rintro i r rest closed cur ⟨h1, h2, h3⟩ _ _ hin
        exact absurd hin.2 (not_lt.2 (h1 r (List.mem_cons_self _ _)).2))
      (by
        rintro i r rest closed cur ⟨h1, h2, h3⟩ _ _ _
        have hr := h1 r (List.mem_cons_self _ _)
        refine ⟨fun x hx => ⟨(h1 x (List.mem_cons_of_mem _ hx)).1,
          (List.pairwise_cons.1 h2).1 x hx⟩, (List.pairwise_cons.1 h2).2, fun b hb => ?_⟩
        rcases List.mem_append.1 hb with hb | hb
        · exact h3 b hb
        · rw [List.mem_singleton] at hb
          subst hb
          exact hr.1)
      rest 1 [] ⟨first.timestamp, first.timestamp, 0, 0⟩
      ⟨fun r hr => ⟨hts r (List.mem_cons_of_mem _ hr), hsorted.1 r hr⟩, hsorted.2, by
        intro b hb
        simp only [List.nil_append, List.mem_singleton] at hb
        subst hb
        exact hts first (List.mem_cons_self _ _)⟩
    rw [hfold] at hb
    simp only [Option.some.injEq] at hb
    subst hb
    exact h3

/-! ## C22, C25: the block returned by the clustering step -/

theorem clusterBlocks_twoResults : clusterBlocks twoResults 4 = some [⟨0, 4, 0, 4⟩] := by
  unfold twoResults
  rw [clusterBlocks_cons]
  simp only [List.enumFrom_cons, List.enumFrom_nil, List.foldl_cons, List.foldl_nil,
    clusterStep_last]
  norm_num [valueMean]

theorem clusterBlocks_insideResults :
    clusterBlocks insideResults 300 = some [⟨0, 899, 0, 900⟩] := by
  unfold insideResults
  rw [clusterBlocks_cons]
  simp only [List.enumFrom_cons, List.enumFrom_nil, List.foldl_cons, List.foldl_nil]
  have hm : valueMean ([⟨0, 1, 0⟩, ⟨307200, 1, 300⟩, ⟨613376, 1, 599⟩, ⟨1024, 1, 1⟩] :
      List (CorrelateResult ℚ)) = 1 := by norm_num [valueMean]
  rw [hm]
  norm_num [clusterStep, abs_lt]

theorem getChunkSearchResults_twoResults :
    getChunkSearchResults twoResults 4 = some ⟨0, 8, 0, 4⟩ := by
  unfold getChunkSearchResults
  rw [clusterBlocks_twoResults]
  norm_num [maxBlockStep]

theorem getChunkSearchResults_insideResults :
    getChunkSearchResults insideResults 300 = some ⟨0, 1199, 0, 900⟩ := by
  unfold getChunkSearchResults
  rw [clusterBlocks_insideResults]
  norm_num [maxBlockStep]

/-- C22 as stated fails: with `D = 300` and four results of equal value at `0`, `300`,
`599` and `1` seconds (all in `[0, 600)`), the last result falls inside the current block
`(0, 599)`, which is lengthened to `899`; the block returned ends at `1199 > 600 + 300`. -/
theorem inside_branch_exceeds_bound :
    (∀ r ∈ insideResults, 0 ≤ r.timestamp ∧ r.timestamp < (SOURCE_END : ℚ)) ∧
    insideResults ≠ [] ∧
    getChunkSearchResults insideResults 300 = some ⟨0, 1199, 0, 900⟩ ∧
    ¬ ((1199 : ℚ) ≤ (SOURCE_END : ℚ) + ((300 : Nat) : ℚ)) := by
  refine ⟨?_, by simp [insideResults], getChunkSearchResults_insideResults, ?_⟩
  · intro r hr
    simp only [insideResults, List.mem_cons, List.mem_singleton, List.not_mem_nil,
      or_false] at hr
    rcases hr with rfl | rfl | rfl | rfl <;> norm_num [SOURCE_END]
  · norm_num [SOURCE_END]

/-- C22, amended: for every list of correlate results whose timestamps lie in
`[0, SOURCE_END)` and every patch duration `D`, the block returned by the clustering step
satisfies `start_time < end_time` and `end_time < SOURCE_END + D·n`, `n` being the number
of results (every result after the first can lengthen the block by `D` through the
"inside" branch); when the timestamps are in non-decreasing order, no result falls inside
the current block and `end_time < SOURCE_END + D` (in particular `≤`). -/
theorem clustering_block_bounds (results : List (CorrelateResult α)) (D : Nat)
    (b : IntroChunkSearchResult α)
    (hts : ∀ r ∈ results, 0 ≤ r.timestamp ∧ r.timestamp < (SOURCE_END : α))
    (h : getChunkSearchResults results D = some b) :
    b.startTime < b.endTime ∧
    b.endTime < (SOURCE_END : α) + (D : α) * (results.length : α) ∧
    ((results.Pairwise fun r s => r.timestamp ≤ s.timestamp) →
      b.endTime < (SOURCE_END : α) + (D : α)) := by
  have hne : results ≠ [] := by
    rintro rfl
    exact Option.noConfusion h
  have hlen : 1 ≤ results.length := List.length_pos.2 hne
  obtain ⟨blocks, hb⟩ := clusterBlocks_some results D hne
  obtain ⟨hnone, hsome⟩ := getChunkSearchResults_char results D blocks hb
  by_cases hpos : ∃ c ∈ blocks, c.startTime < c.endTime
  · obtain ⟨k, c, hk, hc, -, -, hres⟩ := hsome hpos
    rw [hres, Option.some.injEq] at h
    subst h
    have hmem := List.getElem?_mem hk
    have hD : (0 : α) ≤ (D : α) := Nat.cast_nonneg D
    have h1 := clusterBlocks_end_lt results D blocks (fun r hr => (hts r hr).2) hb c hmem
    have hn : ((results.length : Nat) : α) = ((results.length - 1 : Nat) : α) + 1 := by
      have e : results.length = (results.length - 1) + 1 := by omega
      conv_lhs => rw [e]
      push_cast
      rfl
    refine ⟨?_, ?_, ?_⟩
    · simp only; linarith
    · simp only; rw [hn]; linarith
    · intro hs
      have h2 := clusterBlocks_end_lt_of_sorted results D blocks (fun r hr => (hts r hr).2)
        hs hb c hmem
      simp only; linarith
  · rw [hnone hpos] at h
    exact Option.noConfusion h

/-- C22 (amended) applied to two results at `0 s` and `4 s` with `D = 4`. -/
theorem clustering_block_bounds_witness :
    (∀ r ∈ twoResults, 0 ≤ r.timestamp ∧ r.timestamp < (SOURCE_END : ℚ)) ∧
    getChunkSearchResults twoResults 4 = some ⟨0, 8, 0, 4⟩ ∧
    (0 : ℚ) < 8 ∧ (8 : ℚ) < (SOURCE_END : ℚ) + ((4 : Nat) : ℚ) * (twoResults.length : ℚ) :=
  have hts : ∀ r ∈ twoResults, 0 ≤ r.timestamp ∧ r.timestamp < (SOURCE_END : ℚ) := by
    intro r hr
    simp only [twoResults, List.mem_cons, List.mem_singleton, List.not_mem_nil,
      or_false] at hr
    rcases hr with rfl | rfl <;> norm_num [SOURCE_END]
  ⟨hts, getChunkSearchResults_twoResults,
    (clustering_block_bounds twoResults 4 ⟨0, 8, 0, 4⟩ hts
      getChunkSearchResults_twoResults).1,
    (clustering_block_bounds twoResults 4 ⟨0, 8, 0, 4⟩ hts
      getChunkSearchResults_twoResults).2.1⟩

theorem clusterStep_below_mean (m : α) (D : Nat) (st : List (IntroChunkSearchResult α) × Nat)
    (i : Nat) (r : CorrelateResult α) (h : r.value < m) : clusterStep m D st (i, r) = st := by
  unfold clusterStep
  rw [if_pos h]

/-- C25: for every non-empty result list the single pass builds its blocks (a result whose
value is below the mean leaves them untouched); when at least one block has positive
span, the chunk scanner returns the earliest-built block whose span `end - start` is
maximal among all blocks built, with `end_time` increased by `D` and `start_time`,
`patch_start` and `patch_end` unchanged. -/
theorem chunk_scanner_returns_first_longest (results : List (CorrelateResult α)) (D : Nat)
    (hne : results ≠ []) :
    ∃ blocks, clusterBlocks results D = some blocks ∧
      (∀ st i r, r.value < valueMean results →
        clusterStep (valueMean results) D st (i, r) = st) ∧
      ((∃ b ∈ blocks, b.startTime < b.endTime) →
        ∃ (k : Nat) (b out : IntroChunkSearchResult α), blocks[k]? = some b ∧
          (∀ c ∈ blocks, c.endTime - c.startTime ≤ b.endTime - b.startTime) ∧
          (∀ (j : Nat) (c : IntroChunkSearchResult α), j < k → blocks[j]? = some c →
            c.endTime - c.startTime < b.endTime - b.startTime) ∧
          getChunkSearchResults results D = some out ∧
          out.startTime = b.startTime ∧ out.endTime = b.endTime + (D : α) ∧
          out.patchStart = b.patchStart ∧ out.patchEnd = b.patchEnd) := by
  obtain ⟨blocks, hb⟩ := clusterBlocks_some results D hne
  refine ⟨blocks, hb, fun st i r h => clusterStep_below_mean _ D st i r h, fun hpos => ?_⟩
  obtain ⟨k, b, hk, -, hmax, hfirst, hres⟩ :=
    (getChunkSearchResults_char results D blocks hb).2 hpos
  exact ⟨k, b, _, hk, hmax, hfirst, hres, rfl, rfl, rfl, rfl⟩

/-- C25 applied to two results at `0 s` and `4 s` with `D = 4`: the one block `[0, 4]` is
returned as `[0, 8]`. -/
theorem chunk_scanner_returns_first_longest_witness :
    twoResults ≠ [] ∧
    clusterBlocks twoResults 4 = some [⟨0, 4, 0, 4⟩] ∧
    (∃ b ∈ ([⟨0, 4, 0, 4⟩] : List (IntroChunkSearchResult ℚ)), b.startTime < b.endTime) ∧
    ∃ out, getChunkSearchResults twoResults 4 = some out ∧ out.patchEnd = 4 :=
  have hpos : ∃ b ∈ ([⟨0, 4, 0, 4⟩] : List (IntroChunkSearchResult ℚ)),
      b.startTime < b.endTime := ⟨_, List.mem_singleton_self _, by norm_num⟩
  ⟨by simp [twoResults], clusterBlocks_twoResults, hpos,
    (chunk_scanner_returns_first_longest twoResults 4 (by simp [twoResults])).elim
      fun blocks h => by
        have hb : blocks = [⟨0, 4, 0, 4⟩] :=
          Option.some.inj (h.1.symm.trans clusterBlocks_twoResults)
        obtain ⟨k, b, out, hk, -, -, hout, -, -, -, hpe⟩ := h.2.2 (hb ▸ hpos)
        refine ⟨out, hout, ?_⟩
        rw [hpe]
        rw [hb] at hk
        have hmem := List.getElem?_mem hk
        rw [List.mem_singleton] at hmem
        rw [hmem]⟩

/-! ## C24: the patches of `doChunkScan` -/

/-- The patch loop with enough iterations and `D ≥ 1`: it produces the start times
`i, i + D, i + 2D, …` for exactly the `k` with `i + k·D + D < patchEnd` and
`i + k·D < SOURCE_END`. -/
theorem patchLoop_char (pe D : Nat) (hD : 0 < D) :
    ∀ fuel i, pe ≤ i + fuel →
      ∃ n, patchLoop pe D fuel i = (List.range n).map (fun k => i + k * D) ∧
        ∀ k, k < n ↔ (i + k * D + D < pe ∧ i + k * D < SOURCE_END) := by
  intro fuel
  induction fuel with
  | zero =>
    intro i hi
    refine ⟨0, rfl, fun k => ⟨fun h => absurd h (Nat.not_lt_zero k), fun h => ?_⟩⟩
    have := Nat.zero_le (k * D)
    omega
  | succ fuel ih =>
    intro i hi
    rw [patchLoop]
    by_cases hc : i + D < pe ∧ i < SOURCE_END
    · rw [if_pos hc]
      obtain ⟨n, hn, hiff⟩ := ih (i + D) (by omega)
      refine ⟨n + 1, ?_, ?_⟩
      · rw [hn, List.range_succ_eq_map, List.map_cons, List.map_map]
        congr 1
        · simp
        · apply List.map_congr_left
          intro k _
          simp only [Function.comp, Nat.succ_eq_add_one]
          ring
      · intro k
        cases k with
        | zero => simpa using hc
        | succ k =>
          have e : i + (k + 1) * D = i + D + k * D := by ring
          rw [e, Nat.add_lt_add_iff_right]
          exact hiff k
    · rw [if_neg hc]
      refine ⟨0, rfl, fun k => ⟨fun h => absurd h (Nat.not_lt_zero k), fun h => ?_⟩⟩
      have := Nat.zero_le (k * D)
      exact absurd ⟨by omega, by omega⟩ hc

theorem patchStarts_char (ps pe D : Nat) (hD : 0 < D) :
    ∃ n, patchStarts ps pe D = (List.range n).map (fun k => ps + k * D) ∧
      ∀ k, k < n ↔ (ps + k * D + D < pe ∧ ps + k * D < SOURCE_END) :=
  patchLoop_char pe D hD pe ps (by omega)

theorem patchStarts_scan :
    patchStarts 0 SOURCE_END 4 = (List.range 149).map (fun k => 0 + k * 4) := by
  obtain ⟨n, hn, hiff⟩ := patchStarts_char 0 SOURCE_END 4 (by decide)
  have h148 : 148 < n := (hiff 148).2 (by decide)
  have h149 : ¬ 149 < n := fun h => absurd ((hiff 149).1 h).1 (by decide)
  have e : n = 149 := by omega
  rw [hn, e]

/-- What `slicePatches` returns: one patch per start time `i`, the slice of `two` over
`[i, i + D)`. -/
theorem slicePatches_char [FloorRing α] (two : List α) (D : Nat) :
    ∀ (starts : List Nat) (patches : List (List α)),
      slicePatches two D starts = some patches →
      patches.length = starts.length ∧
      ∀ (k i : Nat), starts[k]? = some i →
        ∃ p, patches[k]? = some p ∧
          signalSlice two (i : α) ((i + D : Nat) : α) = some p := by
  intro starts
  induction starts with
  | nil =>
    intro patches h
    simp only [slicePatches, Option.some.injEq] at h
    subst h
    exact ⟨rfl, fun k i hk => by rw [List.getElem?_nil] at hk; exact Option.noConfusion hk⟩
  | cons s more ih =>
    intro patches h
    rw [slicePatches] at h
    cases h1 : signalSlice two (s : α) ((s + D : Nat) : α) with
    | none => rw [h1] at h; exact Option.noConfusion h
    | some p =>
      cases h2 : slicePatches two D more with
      | none => rw [h1, h2] at h; exact Option.noConfusion h
      | some ps =>
        rw [h1, h2] at h
        simp only [Option.some_bind, Option.some.injEq] at h
        subst h
        obtain ⟨hl, hp⟩ := ih ps h2
        refine ⟨by simp [hl], ?_⟩
        intro k i hk
        cases k with
        | zero =>
          simp only [List.getElem?_cons_zero, Option.some.injEq] at hk
          subst hk
          exact ⟨p, List.getElem?_cons_zero, h1⟩
        | succ k =>
          simp only [List.getElem?_cons_succ] at hk
          obtain ⟨q, hq1, hq2⟩ := hp k i hk
          exact ⟨q, by simpa using hq1, hq2⟩

/-- C24 as stated fails: the scan of `getIntroFromPair` (`patchStart = 0`,
`patchEnd = SOURCE_END = 600`, `D = 4`) slices 149 patches, starting at `0, 4, …, 592`,
not 150: the patch `[596, 600)` is left out although `596 < min(600, SOURCE_END)`, because
the loop requires `i + D < patchEnd`. -/
theorem scan_uses_149_patches :
    patchStarts 0 SOURCE_END 4 = (List.range 149).map (fun k => 0 + k * 4) ∧
    (patchStarts 0 SOURCE_END 4).length = 149 ∧
    596 ∉ patchStarts 0 SOURCE_END 4 ∧
    0 + 149 * 4 < min 600 SOURCE_END := by
  refine ⟨patchStarts_scan, by rw [patchStarts_scan]; simp, ?_, by decide⟩
  rw [patchStarts_scan]
  simp only [List.mem_map, List.mem_range, not_exists, not_and]
  intro k hk
  omega

/-- C24, amended: for every `patchStart < patchEnd` and `D > 0`, `doChunkScan` slices
`two` into the non-overlapping patches `[patchStart + k·D, patchStart + (k+1)·D)` for
exactly those `k ≥ 0` with `patchStart + (k+1)·D < patchEnd` and
`patchStart + k·D < SOURCE_END` (say `k < n`), so that they cover
`[patchStart, patchStart + n·D)`; when the slicing succeeds, patch `k` is the slice of
`two` over `[patchStart + k·D, patchStart + k·D + D)`. -/
theorem doChunkScan_patches [FloorRing α] (one two : List α) (patchStart patchEnd D : Nat)
    (h : patchStart < patchEnd) (hD : 0 < D) :
    ∃ n, patchStarts patchStart patchEnd D =
        (List.range n).map (fun k => patchStart + k * D) ∧
      (∀ k, k < n ↔ (patchStart + (k + 1) * D < patchEnd ∧ patchStart + k * D < SOURCE_END)) ∧
      doChunkScan one two patchStart patchEnd D =
        (slicePatches two D ((List.range n).map fun k => patchStart + k * D)).bind
          (fun patches => (correlatePatches one patches).bind fun results =>
            getChunkSearchResults results D) ∧
      ∀ patches, slicePatches two D ((List.range n).map fun k => patchStart + k * D) =
          some patches →
        patches.length = n ∧
        ∀ k, k < n → ∃ p, patches[k]? = some p ∧
          signalSlice two ((patchStart + k * D : Nat) : α)
            ((patchStart + k * D + D : Nat) : α) = some p := by
  obtain ⟨n, hn, hiff⟩ := patchStarts_char patchStart patchEnd D hD
  refine ⟨n, hn, ?_, ?_, ?_⟩
  · intro k
    rw [hiff k, show patchStart + (k + 1) * D = patchStart + k * D + D by ring]
  · unfold doChunkScan
    rw [if_pos h, hn]
  · intro patches hp
    obtain ⟨hl, hk⟩ := slicePatches_char two D _ patches hp
    refine ⟨by simpa using hl, fun k hkn => ?_⟩
    exact hk k (patchStart + k * D) (by simp [List.getElem?_map, List.getElem?_range, hkn])

/-- C24 (amended) applied to the scan of `getIntroFromPair`: the patch with `k = 148`
(start `592`) is sliced, the one with `k = 149` (start `596`) is not. -/
theorem doChunkScan_patches_witness :
    0 < SOURCE_END ∧ 0 < 4 ∧
    ∃ n, patchStarts 0 SOURCE_END 4 = (List.range n).map (fun k => 0 + k * 4) ∧
      148 < n ∧ ¬ 149 < n :=
  ⟨by decide, by decide,
    (doChunkScan_patches ([1] : List ℚ) [1] 0 SOURCE_END 4 (by decide) (by decide)).elim
      fun n h => ⟨n, h.1, (h.2.1 148).2 (by decide),
        fun h149 => absurd ((h.2.1 149).1 h149).1 (by decide)⟩⟩

/-! ## The stages of `doChunkScan` and `getIntroFromPair` -/

/-- The slice of `signal` over the whole seconds `[i, i + D)`: the assertion trips exactly
when `i · 1024 ≥ len`; otherwise the slice has `D · 1024` samples. -/
theorem signalSlice_seconds [FloorRing α] (signal : List α) (i D : Nat) :
    (signal.length ≤ i * 1024 →
      signalSlice signal (i : α) ((i + D : Nat) : α) = none) ∧
    (i * 1024 < signal.length →
      ∃ r, signalSlice signal (i : α) ((i + D : Nat) : α) = some r ∧
        r.length = D * 1024) := by
  have h0 : (0 : α) ≤ (i : α) := Nat.cast_nonneg i
  have h1 : (i : α) ≤ ((i + D : Nat) : α) := by exact_mod_cast Nat.le_add_right i D
  have f1 : ⌊(i : α) * 1024⌋₊ = i * 1024 := by
    rw [show (i : α) * 1024 = ((i * 1024 : Nat) : α) by push_cast; ring]
    exact Nat.floor_natCast _
  have f2 : ⌊((i + D : Nat) : α) * 1024⌋₊ = (i + D) * 1024 := by
    rw [show ((i + D : Nat) : α) * 1024 = (((i + D) * 1024 : Nat) : α) by push_cast; ring]
    exact Nat.floor_natCast _
  obtain ⟨k1, k2⟩ := signalSlice_spec signal (i : α) ((i + D : Nat) : α) h0 h1
  rw [f1] at k1 k2
  rw [f2] at k2
  refine ⟨k1, fun h => ?_⟩
  obtain ⟨r, hr, hlen, -⟩ := k2 h
  exact ⟨r, hr, by rw [hlen]; ring_nf; omega⟩

theorem bestPatchPosition_some_iff (source patch : List α) (h1 : 1 ≤ patch.length) :
    (∃ res, bestPatchPosition source patch = some res) ↔ patch.length ≤ source.length := by
  constructor
  · rintro ⟨res, h⟩
    by_contra hlt
    unfold bestPatchPosition at h
    rw [if_pos (by omega)] at h
    exact Option.noConfusion h
  · intro h2
    obtain ⟨-, -, res, -, -, -, -, hres, -⟩ := bestPatchPosition_char source patch h1 h2
    exact ⟨res, hres⟩

theorem slicePatches_some_iff [FloorRing α] (two : List α) (D : Nat) :
    ∀ starts : List Nat, (∃ patches, slicePatches two D starts = some patches) ↔
      ∀ i ∈ starts, ∃ p, signalSlice two (i : α) ((i + D : Nat) : α) = some p := by
  intro starts
  induction starts with
  | nil => exact ⟨fun _ i hi => absurd hi (List.not_mem_nil i), fun _ => ⟨[], rfl⟩⟩
  | cons s more ih =>
    constructor
    · rintro ⟨patches, h⟩ i hi
      rw [slicePatches] at h
      cases h1 : signalSlice two (s : α) ((s + D : Nat) : α) with
      | none => rw [h1] at h; exact Option.noConfusion h
      | some p =>
        cases h2 : slicePatches two D more with
        | none => rw [h1, h2] at h; exact Option.noConfusion h
        | some ps =>
          rcases List.mem_cons.1 hi with rfl | hi
          · exact ⟨p, h1⟩
          · exact ih.1 ⟨ps, h2⟩ i hi
    · intro h
      obtain ⟨p, hp⟩ := h s (List.mem_cons_self _ _)
      obtain ⟨ps, hps⟩ := ih.2 (fun i hi => h i (List.mem_cons_of_mem _ hi))
      exact ⟨p :: ps, by rw [slicePatches, hp, hps]; rfl⟩

theorem correlatePatches_some_iff (one : List α) :
    ∀ patches : List (List α), (∃ results, correlatePatches one patches = some results) ↔
      ∀ p ∈ patches, ∃ res, bestPatchPosition one p = some res := by
  intro patches
  induction patches with
  | nil => exact ⟨fun _ i hi => absurd hi (List.not_mem_nil i), fun _ => ⟨[], rfl⟩⟩
  | cons s more ih =>
    constructor
    · rintro ⟨results, h⟩ i hi
      rw [correlatePatches] at h
      cases h1 : bestPatchPosition one s with
      | none => rw [h1] at h; exact Option.noConfusion h
      | some p =>
        cases h2 : correlatePatches one more with
        | none => rw [h1, h2] at h; exact Option.noConfusion h
        | some ps =>
          rcases List.mem_cons.1 hi with rfl | hi
          · exact ⟨p, h1⟩
          · exact ih.1 ⟨ps, h2⟩ i hi
    · intro h
      obtain ⟨p, hp⟩ := h s (List.mem_cons_self _ _)
      obtain ⟨ps, hps⟩ := ih.2 (fun i hi => h i (List.mem_cons_of_mem _ hi))
      exact ⟨p :: ps, by rw [correlatePatches, hp, hps]; rfl⟩

/-- What `correlatePatches` returns: one result per patch, in order. -/
theorem correlatePatches_char (one : List α) :
    ∀ (patches : List (List α)) (results : List (CorrelateResult α)),
      correlatePatches one patches = some results →
      results.length = patches.length ∧
      ∀ r ∈ results, ∃ p ∈ patches, bestPatchPosition one p = some r := by
  intro patches
  induction patches with
  | nil =>
    intro results h
    simp only [correlatePatches, Option.some.injEq] at h
    subst h
    exact ⟨rfl, fun r hr => absurd hr (List.not_mem_nil r)⟩
  | cons s more ih =>
    intro results h
    rw [correlatePatches] at h
    cases h1 : bestPatchPosition one s with
    | none => rw [h1] at h; exact Option.noConfusion h
    | some p =>
      cases h2 : correlatePatches one more with
      | none => rw [h1, h2] at h; exact Option.noConfusion h
      | some ps =>
        rw [h1, h2] at h
        simp only [Option.some_bind, Option.some.injEq] at h
        subst h
        obtain ⟨hl, hp⟩ := ih ps h2
        refine ⟨by simp [hl], ?_⟩
        intro r hr
        rcases List.mem_cons.1 hr with rfl | hr
        · exact ⟨s, List.mem_cons_self _ _, h1⟩
        · obtain ⟨q, hq1, hq2⟩ := hp r hr
          exact ⟨q, List.mem_cons_of_mem _ hq1, hq2⟩

theorem mem_patchStarts_scan (i : Nat) :
    i ∈ patchStarts 0 SOURCE_END 4 ↔ ∃ k, k < 149 ∧ i = k * 4 := by
  rw [patchStarts_scan]
  simp only [List.mem_map, List.mem_range, Nat.zero_add]
  constructor
  · rintro ⟨k, hk, rfl⟩; exact ⟨k, hk, rfl⟩
  · rintro ⟨k, hk, rfl⟩; exact ⟨k, hk, rfl⟩

/-- The slicing stage of the scan of `getIntroFromPair`: no `signalSlice` assertion trips
exactly when `two` has more than `592 · 1024` samples; there are then 149 patches of 4096
samples each. -/
theorem scan_slices [FloorRing α] (two : List α) :
    ((∃ patches, slicePatches two 4 (patchStarts 0 SOURCE_END 4) = some patches) ↔
      592 * 1024 < two.length) ∧
    ∀ patches, slicePatches two 4 (patchStarts 0 SOURCE_END 4) = some patches →
      patches.length = 149 ∧ ∀ p ∈ patches, p.length = 4096 := by
  constructor
  · rw [slicePatches_some_iff]
    constructor
    · intro h
      obtain ⟨p, hp⟩ := h 592 ((mem_patchStarts_scan 592).2 ⟨148, by decide, by decide⟩)
      by_contra hlt
      rw [(signalSlice_seconds two 592 4).1 (by omega)] at hp
      exact Option.noConfusion hp
    · intro h i hi
      obtain ⟨k, hk, rfl⟩ := (mem_patchStarts_scan i).1 hi
      obtain ⟨r, hr, -⟩ := (signalSlice_seconds two (k * 4) 4).2 (by omega)
      exact ⟨r, hr⟩
  · intro patches hp
    obtain ⟨hl, hk⟩ := slicePatches_char two 4 _ patches hp
    refine ⟨by rw [hl, patchStarts_scan]; simp, ?_⟩
    intro p hmem
    obtain ⟨k, hk1⟩ := List.mem_iff_getElem?.1 hmem
    have hklt : k < (patchStarts 0 SOURCE_END 4).length := by
      rw [← hl]
      by_contra hge
      rw [List.getElem?_eq_none (by omega)] at hk1
      exact Option.noConfusion hk1
    obtain ⟨q, hq1, hq2⟩ := hk k _ (List.getElem?_eq_getElem hklt)
    rw [hk1, Option.some.injEq] at hq1
    subst hq1
    by_cases hin : (patchStarts 0 SOURCE_END 4)[k] * 1024 < two.length
    · obtain ⟨r, hr, hrl⟩ := (signalSlice_seconds two _ 4).2 hin
      rw [hq2, Option.some.injEq] at hr
      rw [hr, hrl]
    · rw [(signalSlice_seconds two _ 4).1 (by omega)] at hq2
      exact Option.noConfusion hq2

/-- The stages of `doChunkScan(one, two, 0, SOURCE_END, 4)`: the slices succeed exactly
when `two` has more than `592 · 1024` samples; the correlations then succeed exactly when
`one` has at least 4096 samples; the clustering then returns a block exactly when one of
the blocks it builds has positive span. -/
theorem doChunkScan_stages [FloorRing α] (one two : List α) :
    ((∃ patches, slicePatches two 4 (patchStarts 0 SOURCE_END 4) = some patches) ↔
      592 * 1024 < two.length) ∧
    (∀ patches, slicePatches two 4 (patchStarts 0 SOURCE_END 4) = some patches →
      ((∃ results, correlatePatches one patches = some results) ↔ 4096 ≤ one.length) ∧
      ∀ results, correlatePatches one patches = some results →
        results.length = 149 ∧
        ∃ blocks, clusterBlocks results 4 = some blocks ∧
          doChunkScan one two 0 SOURCE_END 4 = getChunkSearchResults results 4 ∧
          ((∃ block, doChunkScan one two 0 SOURCE_END 4 = some block) ↔
            ∃ b ∈ blocks, b.startTime < b.endTime)) ∧
    (¬ 592 * 1024 < two.length → doChunkScan one two 0 SOURCE_END 4 = none) ∧
    (¬ 4096 ≤ one.length → doChunkScan one two 0 SOURCE_END 4 = none) := by
  obtain ⟨hA, hlen⟩ := scan_slices two
  have hB : ∀ patches, slicePatches two 4 (patchStarts 0 SOURCE_END 4) = some patches →
      ((∃ results, correlatePatches one patches = some results) ↔ 4096 ≤ one.length) := by
    intro patches hp
    obtain ⟨hl, hall⟩ := hlen patches hp
    rw [correlatePatches_some_iff]
    constructor
    · intro h
      obtain ⟨p, hpm⟩ : ∃ p, p ∈ patches := by
        cases patches with
        | nil => simp at hl
        | cons p _ => exact ⟨p, List.mem_cons_self _ _⟩
      have := (bestPatchPosition_some_iff one p (by rw [hall p hpm]; decide)).1 (h p hpm)
      rw [hall p hpm] at this
      exact this
    · intro h p hpm
      exact (bestPatchPosition_some_iff one p (by rw [hall p hpm]; decide)).2
        (by rw [hall p hpm]; exact h)
  have hgt : SOURCE_END > 0 := by decide
  refine ⟨hA, fun patches hp => ⟨hB patches hp, fun results hr => ?_⟩, ?_, ?_⟩
  · obtain ⟨hl, -⟩ := hlen patches hp
    obtain ⟨hrl, -⟩ := correlatePatches_char one patches results hr
    have hne : results ≠ [] := by
      intro h
      rw [h] at hrl
      simp only [List.length_nil] at hrl
      omega
    obtain ⟨blocks, hb⟩ := clusterBlocks_some results 4 hne
    have hscan : doChunkScan one two 0 SOURCE_END 4 = getChunkSearchResults results 4 := by
      unfold doChunkScan
      rw [if_pos hgt, hp, Option.some_bind, hr, Option.some_bind]
    refine ⟨by rw [hrl, hl], blocks, hb, hscan, ?_⟩
    rw [hscan]
    obtain ⟨c1, c2⟩ := getChunkSearchResults_char results 4 blocks hb
    constructor
    · rintro ⟨block, h⟩
      by_contra hno
      rw [c1 hno] at h
      exact Option.noConfusion h
    · intro hpos
      obtain ⟨k, b, -, -, -, -, hres⟩ := c2 hpos
      exact ⟨_, hres⟩
  · intro h
    unfold doChunkScan
    rw [if_pos hgt]
    cases hp : slicePatches two 4 (patchStarts 0 SOURCE_END 4) with
    | none => rfl
    | some patches => exact absurd (hA.1 ⟨patches, hp⟩) h
  · intro h
    unfold doChunkScan
    rw [if_pos hgt]
    cases hp : slicePatches two 4 (patchStarts 0 SOURCE_END 4) with
    | none => rfl
    | some patches =>
      rw [Option.some_bind]
      cases hr : correlatePatches one patches with
      | none => rfl
      | some results => exact absurd ((hB patches hp).1 ⟨results, hr⟩) h

/-- Every block built by the pass starts at the timestamp of one of the results and does
not end before it starts. -/
theorem clusterBlocks_start (results : List (CorrelateResult α)) (D : Nat)
    (blocks : List (IntroChunkSearchResult α))
    (hb : clusterBlocks results D = some blocks) :
    ∀ b ∈ blocks, b.startTime ≤ b.endTime ∧ ∃ r ∈ results, b.startTime = r.timestamp := by
  cases results with
  | nil => exact Option.noConfusion hb
  | cons first rest =>
    rw [clusterBlocks_cons] at hb
    have hD : (0 : α) ≤ (D : α) := Nat.cast_nonneg D
    obtain ⟨closed1, cur1, hfold, -, h3⟩ := clusterFold_inv (valueMean (first :: rest)) D
      (fun _ rs closed cur => (∀ r ∈ rs, r ∈ first :: rest) ∧
        ∀ b ∈ closed ++ [cur], b.startTime ≤ b.endTime ∧
          ∃ r ∈ first :: rest, b.startTime = r.timestamp)
      (by
        rintro i r rest closed cur ⟨h1, h2⟩ _
        exact ⟨fun x hx => h1 x (List.mem_cons_of_mem _ hx), h2⟩)
      (by
        rintro i r rest closed cur ⟨h1, h2⟩ _ _
        refine ⟨fun x hx => h1 x (List.mem_cons_of_mem _ hx), fun b hb => ?_⟩
        rcases List.mem_append.1 hb with hb | hb
        · exact h2 b (List.mem_append_left _ hb)
        · rw [List.mem_singleton] at hb
          subst hb
          obtain ⟨c1, c2⟩ := h2 cur (List.mem_append_right _ (List.mem_singleton_self _))
          exact ⟨le_trans c1 (le_max_right _ _), c2⟩)
      (by
        rintro i r rest closed cur ⟨h1, h2⟩ _ _ _
        refine ⟨fun x hx => h1 x (List.mem_cons_of_mem _ hx), fun b hb => ?_⟩
        rcases List.mem_append.1 hb with hb | hb
        · exact h2 b (List.mem_append_left _ hb)
        · rw [List.mem_singleton] at hb
          subst hb
          obtain ⟨c1, c2⟩ := h2 cur (List.mem_append_right _ (List.mem_singleton_self _))
          exact ⟨by simp only; linarith, c2⟩)
      (by
        rintro i r rest closed cur ⟨h1, h2⟩ _ _ _
        refine ⟨fun x hx => h1 x (List.mem_cons_of_mem _ hx), fun b hb => ?_⟩
        rcases List.mem_append.1 hb with hb | hb
        · exact h2 b hb
        · rw [List.mem_singleton] at hb
          subst hb
          exact ⟨le_refl _, r, h1 r (List.mem_cons_self _ _), rfl⟩)
      rest 1 [] ⟨first.timestamp, first.timestamp, 0, 0⟩
      ⟨fun r hr => List.mem_cons_of_mem _ hr, by
        intro b hb
        simp only [List.nil_append, List.mem_singleton] at hb
        subst hb
        exact ⟨le_refl _, first, List.mem_cons_self _ _, rfl⟩⟩
    rw [hfold] at hb
    simp only [Option.some.injEq] at hb
    subst hb
    exact h3

/-- The timestamp of a `bestPatchPosition` result is `sampleIdx / 1024` with `sampleIdx`
inside the source. -/
theorem bestPatchPosition_timestamp (source patch : List α) (h1 : 1 ≤ patch.length)
    (res : CorrelateResult α) (h : bestPatchPosition source patch = some res) :
    res.timestamp = (res.sampleIdx : α) / 1024 ∧ res.sampleIdx < source.length := by
  have h2 : patch.length ≤ source.length :=
    (bestPatchPosition_some_iff source patch h1).1 ⟨res, h⟩
  obtain ⟨c, r, res1, -, -, hlen, -, hres, hts, -, -, hcase⟩ :=
    bestPatchPosition_char source patch h1 h2
  rw [h, Option.some.injEq] at hres
  subst hres
  refine ⟨hts, ?_⟩
  rcases hcase with ⟨-, hz, -⟩ | ⟨-, hlt, -⟩
  · rw [hz]; omega
  · rw [hlen] at hlt; omega

theorem floor_sample (j : Nat) [FloorRing α] : ⌊((j : α) / 1024) * 1024⌋₊ = j := by
  rw [div_mul_cancel₀ _ (by norm_num : (1024 : α) ≠ 0)]
  exact Nat.floor_natCast j

/-- The block returned by the scan of `getIntroFromPair` starts at a sample of `one` and
is at least 4 seconds long. -/
theorem doChunkScan_block [FloorRing α] (one two : List α) (block : IntroChunkSearchResult α)
    (h : doChunkScan one two 0 SOURCE_END 4 = some block) :
    ∃ j : Nat, j < one.length ∧ block.startTime = (j : α) / 1024 ∧
      block.startTime + 4 ≤ block.endTime := by
  have hgt : SOURCE_END > 0 := by decide
  unfold doChunkScan at h
  rw [if_pos hgt] at h
  cases hp : slicePatches two 4 (patchStarts 0 SOURCE_END 4) with
  | none => rw [hp] at h; exact Option.noConfusion h
  | some patches =>
    rw [hp, Option.some_bind] at h
    cases hr : correlatePatches one patches with
    | none => rw [hr] at h; exact Option.noConfusion h
    | some results =>
      rw [hr, Option.some_bind] at h
      have hne : results ≠ [] := by
        rintro rfl
        exact Option.noConfusion h
      obtain ⟨blocks, hb⟩ := clusterBlocks_some results 4 hne
      obtain ⟨c1, c2⟩ := getChunkSearchResults_char results 4 blocks hb
      by_cases hpos : ∃ b ∈ blocks, b.startTime < b.endTime
      · obtain ⟨k, b, hk, -, -, -, hres⟩ := c2 hpos
        rw [hres, Option.some.injEq] at h
        subst h
        obtain ⟨hle, r, hrm, hst⟩ := clusterBlocks_start results 4 blocks hb b
          (List.getElem?_mem hk)
        obtain ⟨p, hpm, hbp⟩ := (correlatePatches_char one patches results hr).2 r hrm
        have hpl : p.length = 4096 := (scan_slices two).2 patches hp |>.2 p hpm
        obtain ⟨hts, hidx⟩ := bestPatchPosition_timestamp one p (by rw [hpl]; decide) r hbp
        refine ⟨r.sampleIdx, hidx, by rw [hst, hts], ?_⟩
        simp only [Nat.cast_ofNat]
        linarith
      · rw [c1 hpos] at h
        exact Option.noConfusion h

/-- A slice that starts at sample `j` of the signal and is at least 4 seconds long:
`signalSlice` returns it, with `⌊end · 1024⌋ - j ≥ 4096` samples. -/
theorem signalSlice_block [FloorRing α] (signal : List α) (j : Nat) (start end_ : α)
    (hj : j < signal.length) (hs : start = (j : α) / 1024) (he : start + 4 ≤ end_) :
    ∃ r, signalSlice signal start end_ = some r ∧ r.length = ⌊end_ * 1024⌋₊ - j ∧
      4096 ≤ r.length := by
  have h0 : (0 : α) ≤ start := by rw [hs]; positivity
  have hfl : ⌊start * 1024⌋₊ = j := by rw [hs]; exact floor_sample j
  obtain ⟨-, k2⟩ := signalSlice_spec signal start end_ h0 (by linarith)
  rw [hfl] at k2
  obtain ⟨r, hr, hlen, -⟩ := k2 hj
  refine ⟨r, hr, hlen, ?_⟩
  have hle : ((j + 4096 : Nat) : α) ≤ end_ * 1024 := by
    have e : (j : α) = start * 1024 := by
      rw [hs, div_mul_cancel₀ _ (by norm_num : (1024 : α) ≠ 0)]
    push_cast
    rw [e]
    linarith
  have := Nat.le_floor hle
  omega

/-- The stage of `getIntroFromPair` after the scan: the slice of `one` over the block
succeeds, and the pair extractor returns exactly when this slice is not longer than
`two` (the assertion of `bestPatchPosition(two, introOne)`). -/
theorem getIntroFromPair_stage [FloorRing α] (sqrtf : α → α) (one two : List α)
    (block : IntroChunkSearchResult α)
    (h : doChunkScan one two 0 SOURCE_END 4 = some block) :
    ∃ introOne, signalSlice one block.startTime block.endTime = some introOne ∧
      4096 ≤ introOne.length ∧
      ((∃ info, getIntroFromPair sqrtf one two = some info) ↔
        introOne.length ≤ two.length) ∧
      ∀ info, getIntroFromPair sqrtf one two = some info →
        info.startTime = block.startTime ∧ info.endTime = block.endTime := by
  obtain ⟨j, hj, hs, he⟩ := doChunkScan_block one two block h
  obtain ⟨introOne, hone, -, hlen⟩ := signalSlice_block one j _ _ hj hs he
  refine ⟨introOne, hone, hlen, ?_⟩
  unfold getIntroFromPair
  rw [h]
  simp only [Option.some_bind, hone]
  by_cases hfit : introOne.length ≤ two.length
  · obtain ⟨find, hfind⟩ := (bestPatchPosition_some_iff two introOne (by omega)).2 hfit
    obtain ⟨hts, hidx⟩ := bestPatchPosition_timestamp two introOne (by omega) find hfind
    obtain ⟨introTwo, htwo, -, hlen2⟩ := signalSlice_block two find.sampleIdx find.timestamp
      (find.timestamp + block.endTime - block.startTime) hidx hts (by linarith)
    obtain ⟨resA, resB, -, -, hclose⟩ := howCloseAreSignals_char sqrtf introOne introTwo
      (by omega) (by omega)
    simp only [hfind, Option.some_bind, htwo, hclose]
    refine ⟨⟨fun _ => hfit, fun _ => ⟨_, rfl⟩⟩, ?_⟩
    intro info hinfo
    rw [Option.some.injEq] at hinfo
    subst hinfo
    exact ⟨rfl, rfl⟩
  · have hnone : bestPatchPosition two introOne = none := by
      unfold bestPatchPosition
      rw [if_pos (by omega)]
    simp only [hnone, Option.none_bind]
    refine ⟨⟨fun ⟨_, hx⟩ => Option.noConfusion hx, fun hx => absurd hx hfit⟩, ?_⟩
    intro info hinfo
    exact Option.noConfusion hinfo

/-! ## C21: when the chunk scanner and the pair extractor complete -/

theorem getIntroFromPair_none [FloorRing α] (sqrtf : α → α) (one two : List α)
    (h : doChunkScan one two 0 SOURCE_END 4 = none) :
    getIntroFromPair sqrtf one two = none := by
  unfold getIntroFromPair
  rw [h]
  rfl

/-- C21 as stated fails: for the non-empty signals `one = two = [1]` the second patch of
the scan starts at sample `4096`, outside `two`, and the assertion of `signalSlice` trips:
neither `doChunkScan` nor `getIntroFromPair` returns. -/
theorem scan_fails_on_short_signals :
    ([1] : List ℚ) ≠ [] ∧
    doChunkScan ([1] : List ℚ) [1] 0 SOURCE_END 4 = none ∧
    ∀ sqrtf : ℚ → ℚ, getIntroFromPair sqrtf [1] [1] = none :=
  have h : doChunkScan ([1] : List ℚ) [1] 0 SOURCE_END 4 = none :=
    (doChunkScan_stages ([1] : List ℚ) [1]).2.2.1 (by decide)
  ⟨List.cons_ne_nil _ _, h, fun sqrtf => getIntroFromPair_none sqrtf _ _ h⟩

/-- C21, amended: `doChunkScan(one, two, 0, SOURCE_END, 4)` completes and returns a block
if and only if no assertion trips, that is: `two` has more than `592 · 1024` samples (the
slices), `one` has at least `4096` samples (the correlations), and the clustering of the
149 results builds a block of positive span (`start < end`); with a shorter `two` or
`one` neither function returns.  When the scan returns a block, the slice of `one` over it
succeeds, and `getIntroFromPair(one, two)` completes if and only if this slice is not
longer than `two`; its `startTime` and `endTime` are then those of the block. -/
theorem scan_and_pair_extractor_complete_iff [FloorRing α] (sqrtf : α → α)
    (one two : List α) :
    ((∃ patches, slicePatches two 4 (patchStarts 0 SOURCE_END 4) = some patches) ↔
      592 * 1024 < two.length) ∧
    (∀ patches, slicePatches two 4 (patchStarts 0 SOURCE_END 4) = some patches →
      ((∃ results, correlatePatches one patches = some results) ↔ 4096 ≤ one.length) ∧
      ∀ results, correlatePatches one patches = some results →
        results.length = 149 ∧
        ∃ blocks, clusterBlocks results 4 = some blocks ∧
          doChunkScan one two 0 SOURCE_END 4 = getChunkSearchResults results 4 ∧
          ((∃ block, doChunkScan one two 0 SOURCE_END 4 = some block) ↔
            ∃ b ∈ blocks, b.startTime < b.endTime)) ∧
    (¬ 592 * 1024 < two.length →
      doChunkScan one two 0 SOURCE_END 4 = none ∧ getIntroFromPair sqrtf one two = none) ∧
    (¬ 4096 ≤ one.length →
      doChunkScan one two 0 SOURCE_END 4 = none ∧ getIntroFromPair sqrtf one two = none) ∧
    (∀ block, doChunkScan one two 0 SOURCE_END 4 = some block →
      ∃ introOne, signalSlice one block.startTime block.endTime = some introOne ∧
        4096 ≤ introOne.length ∧
        ((∃ info, getIntroFromPair sqrtf one two = some info) ↔
          introOne.length ≤ two.length) ∧
        ∀ info, getIntroFromPair sqrtf one two = some info →
          info.startTime = block.startTime ∧ info.endTime = block.endTime) := by
  obtain ⟨h1, h2, h3, h4⟩ := doChunkScan_stages one two
  exact ⟨h1, h2, fun h => ⟨h3 h, getIntroFromPair_none sqrtf one two (h3 h)⟩,
    fun h => ⟨h4 h, getIntroFromPair_none sqrtf one two (h4 h)⟩,
    fun block h => getIntroFromPair_stage sqrtf one two block h⟩

/-- C21 (amended) applied to `one = [1, 2]`, `two = [3]`: `two` has no more than
`592 · 1024` samples, so neither function returns. -/
theorem scan_and_pair_extractor_complete_iff_witness :
    ¬ 592 * 1024 < ([3] : List ℚ).length ∧
    doChunkScan ([1, 2] : List ℚ) [3] 0 SOURCE_END 4 = none ∧
    getIntroFromPair (fun x => x) ([1, 2] : List ℚ) [3] = none :=
  ⟨by decide,
    (scan_and_pair_extractor_complete_iff (fun x => x) ([1, 2] : List ℚ) [3]).2.2.1
      (by decide)⟩

theorem countP_update (files : List (FileSignal α)) (f : FileSignal α)
    (hnd : (files.map fun x => x.file).Nodup) (hf : f ∈ files) (p q : String → Bool)
    (hq : ∀ k, k ≠ f.file → q k = p k) (hp : p f.file = false) (hqf : q f.file = true) :
    files.countP (fun x => q x.file) = files.countP (fun x => p x.file) + 1 := by
  induction files with
  | nil => exact absurd hf (List.not_mem_nil f)
  | cons x xs ih =>
    rw [List.map_cons, List.nodup_cons] at hnd
    rw [List.countP_cons, List.countP_cons]
    rcases List.mem_cons.1 hf with rfl | hmem
    · have hrest : xs.countP (fun x => q x.file) = xs.countP (fun x => p x.file) := by
        apply List.countP_congr
        intro y hy
        have hne : y.file ≠ f.file := fun h => hnd.1 (h ▸ List.mem_map_of_mem _ hy)
        simp only [hq y.file hne]
      rw [hrest, hp, hqf]
      simp
    · have hne : x.file ≠ f.file := fun h => hnd.1 (h ▸ List.mem_map_of_mem _ hmem)
      rw [ih hnd.2 hmem, hq x.file hne]
      omega

/-- One pass through the body of the per-file loop keeps the progress accounting, and
keeps `rest` equal to the visited files whose stored best is below the threshold. -/
theorem sweepFile_progress (e : FileSignal α → IntroInfo α → Option (α × α × α))
    (files : List (FileSignal α)) (info : IntroInfo α) (st : Discovery α) (i : Nat)
    (f : FileSignal α) (st1 : Discovery α) (b : Bool)
    (h : sweepFile e files info st i f = some (st1, b))
    (hnd : (files.map fun x => x.file).Nodup) (hf : f ∈ files)
    (hinv : progressInvariant files st) :
    progressInvariant files st1 ∧
    (b = true → st1.rest = files.filter fun x =>
      decide (st1.bestMatches x.file < ACCEPTANCE_THRESHOLD α)) ∧
    (b = false → ∀ done : List (FileSignal α), (∀ g ∈ done, g.file ≠ f.file) →
      st.rest = done.filter (fun x =>
        decide (st.bestMatches x.file < ACCEPTANCE_THRESHOLD α)) →
      st1.rest = (done ++ [f]).filter fun x =>
        decide (st1.bestMatches x.file < ACCEPTANCE_THRESHOLD α)) := by
  have hT : ACCEPTANCE_THRESHOLD α = 0.8 := rfl
  rcases sweepFile_cases e files info st i f st1 b h with
    ⟨hskip, rfl, rfl⟩ | ⟨-, ev, seedFile, r, -, -, hrf, -, hrm, hrb, hrp, -, hem, -, hbm, -,
      -, hbt, hbf⟩
  · refine ⟨hinv, fun hb => Bool.noConfusion hb, fun _ done _ hrest => ?_⟩
    have hge : ¬ st1.bestMatches f.file < ACCEPTANCE_THRESHOLD α := by
      rw [hT]
      have : (0.8 : α) ≤ 0.9 := by norm_num
      exact not_lt.2 (le_trans this hskip)
    rw [List.filter_append, hrest]
    simp [hge]
  · obtain ⟨i1, i2, i3⟩ := hinv
    have hbest : ∀ k, st1.bestMatches k =
        if k = f.file then max (st.bestMatches f.file) ev.2.2 else st.bestMatches k := by
      intro k
      rw [hbm]
      by_cases hk : k = f.file
      · subst hk
        rw [if_pos rfl]
        by_cases hlt : st.bestMatches f.file < ev.2.2
        · simp [hlt, max_eq_right (le_of_lt hlt)]
        · simp [hlt, max_eq_left (not_lt.1 hlt)]
      · rw [if_neg hk]
        by_cases hlt : st.bestMatches f.file < ev.2.2
        · simp [hlt, hk]
        · simp [hlt]
    have hbf1 : st1.bestMatches f.file = max (st.bestMatches f.file) ev.2.2 := by
      rw [hbest, if_pos rfl]
    have hother : ∀ k, k ≠ f.file → st1.bestMatches k = st.bestMatches k := by
      intro k hk
      rw [hbest, if_neg hk]
    by_cases hgrad : st.bestMatches f.file < ACCEPTANCE_THRESHOLD α ∧
        ev.2.2 ≥ ACCEPTANCE_THRESHOLD α
    · have hrp1 : r.isProgress = true := by rw [hrp]; exact decide_eq_true hgrad
      have hnew : st1.bestMatches f.file ≥ ACCEPTANCE_THRESHOLD α := by
        rw [hbf1]; exact le_trans hgrad.2 (le_max_right _ _)
      refine ⟨⟨?_, ?_, ?_⟩, hbt, fun hb done hdone hrest => ?_⟩
      · rw [hem, List.countP_append, i1,
          countP_update files f hnd hf
            (fun k => decide (st.bestMatches k ≥ ACCEPTANCE_THRESHOLD α))
            (fun k => decide (st1.bestMatches k ≥ ACCEPTANCE_THRESHOLD α))
            (fun k hk => by simp only [hother k hk])
            (decide_eq_false (not_le.2 hgrad.1)) (decide_eq_true hnew)]
        simp [hrp1]
      · intro k
        rw [hem, List.countP_append, i2 k]
        by_cases hk : k = f.file
        · subst hk
          rw [if_neg (not_le.2 hgrad.1), if_pos hnew]
          simp [hrp1, hrf]
        · rw [hother k hk]
          have : ¬ r.file = k := by rw [hrf]; exact fun h => hk h.symm
          simp [this]
      · intro x hx hxp
        rw [hem] at hx
        rcases List.mem_append.1 hx with hx | hx
        · exact i3 x hx hxp
        · rw [List.mem_singleton] at hx
          subst hx
          refine ⟨?_, by rw [hrm]; exact hgrad.2⟩
          rw [hrb]
          exact decide_eq_true (lt_of_lt_of_le hgrad.1 hgrad.2)
      · rw [hbf hb, if_pos hgrad, List.filter_append, hrest]
        have hd : done.filter (fun x =>
            decide (st1.bestMatches x.file < ACCEPTANCE_THRESHOLD α)) =
            done.filter (fun x =>
              decide (st.bestMatches x.file < ACCEPTANCE_THRESHOLD α)) := by
          apply List.filter_congr
          intro x hx
          rw [hother x.file (hdone x hx)]
        rw [hd]
        simp [not_lt.2 hnew]
    · have hrp1 : r.isProgress = false := by rw [hrp]; exact decide_eq_false hgrad
      have hsame : (st1.bestMatches f.file ≥ ACCEPTANCE_THRESHOLD α) ↔
          (st.bestMatches f.file ≥ ACCEPTANCE_THRESHOLD α) := by
        rw [hbf1]
        constructor
        · intro hm
          by_contra hlt
          rcases le_max_iff.1 hm with h1 | h1
          · exact hlt h1
          · exact hgrad ⟨not_le.1 hlt, h1⟩
        · intro hm
          exact le_trans hm (le_max_left _ _)
      have hsameAll : ∀ k, (st1.bestMatches k ≥ ACCEPTANCE_THRESHOLD α) ↔
          (st.bestMatches k ≥ ACCEPTANCE_THRESHOLD α) := by
        intro k
        by_cases hk : k = f.file
        · rw [hk]; exact hsame
        · rw [hother k hk]
      refine ⟨⟨?_, ?_, ?_⟩, hbt, fun hb done hdone hrest => ?_⟩
      · rw [hem, List.countP_append, i1]
        have : files.countP (fun x =>
            decide (st1.bestMatches x.file ≥ ACCEPTANCE_THRESHOLD α)) =
            files.countP (fun x =>
              decide (st.bestMatches x.file ≥ ACCEPTANCE_THRESHOLD α)) := by
          apply List.countP_congr
          intro x _
          simp only [decide_eq_true_eq]
          exact hsameAll x.file
        rw [this]
        simp [hrp1]
      · intro k
        rw [hem, List.countP_append, i2 k]
        simp only [hrp1, Bool.false_and, List.countP_cons_of_neg, List.countP_nil,
          Nat.add_zero, Bool.false_eq_true, not_false_eq_true]
        by_cases hk : st.bestMatches k ≥ ACCEPTANCE_THRESHOLD α
        · rw [if_pos hk, if_pos ((hsameAll k).2 hk)]
        · rw [if_neg hk, if_neg (fun h1 => hk ((hsameAll k).1 h1))]
      · intro x hx hxp
        rw [hem] at hx
        rcases List.mem_append.1 hx with hx | hx
        · exact i3 x hx hxp
        · rw [List.mem_singleton] at hx
          subst hx
          rw [hrp1] at hxp
          exact Bool.noConfusion hxp
      · rw [hbf hb, if_neg hgrad, List.filter_append, hrest]
        have hd : done.filter (fun x =>
            decide (st1.bestMatches x.file < ACCEPTANCE_THRESHOLD α)) =
            done.filter (fun x =>
              decide (st.bestMatches x.file < ACCEPTANCE_THRESHOLD α)) := by
          apply List.filter_congr
          intro x hx
          rw [hother x.file (hdone x hx)]
        rw [hd]
        by_cases hlow : ev.2.2 < ACCEPTANCE_THRESHOLD α ∧
            st.bestMatches f.file < ACCEPTANCE_THRESHOLD α
        · rw [if_pos hlow]
          have : st1.bestMatches f.file < ACCEPTANCE_THRESHOLD α := by
            rw [hbf1]; exact max_lt hlow.2 hlow.1
          simp [this]
        · rw [if_neg hlow]
          have : ¬ st1.bestMatches f.file < ACCEPTANCE_THRESHOLD α := by
            rw [hbf1]
            intro hm
            exact hlow ⟨lt_of_le_of_lt (le_max_right _ _) hm,
              lt_of_le_of_lt (le_max_left _ _) hm⟩
          simp [this]

theorem sweep_progress (e : FileSignal α → IntroInfo α → Option (α × α × α))
    (files : List (FileSignal α)) (info : IntroInfo α)
    (hnd : (files.map fun x => x.file).Nodup) :
    ∀ (todo done : List (FileSignal α)) (i : Nat) (st st1 : Discovery α),
      files = done ++ todo → progressInvariant files st →
      st.rest = done.filter (fun x =>
        decide (st.bestMatches x.file < ACCEPTANCE_THRESHOLD α)) →
      sweep e files info todo i st = some st1 →
      progressInvariant files st1 ∧
        st1.rest = files.filter fun x =>
          decide (st1.bestMatches x.file < ACCEPTANCE_THRESHOLD α) := by
  intro todo
  induction todo with
  | nil =>
    intro done i st st1 hfiles hinv hrest h
    simp only [sweep, Option.some.injEq] at h
    subst h
    rw [List.append_nil] at hfiles
    rw [hfiles]
    exact ⟨hfiles ▸ hinv, hrest⟩
  | cons f more ih =>
    intro done i st st1 hfiles hinv hrest h
    rw [sweep] at h
    cases hsf : sweepFile e files info st i f with
    | none => rw [hsf] at h; exact Option.noConfusion h
    | some r =>
      obtain ⟨st2, b⟩ := r
      rw [hsf, Option.some_bind] at h
      have hf : f ∈ files := by rw [hfiles]; simp
      obtain ⟨j1, j2, j3⟩ := sweepFile_progress e files info st i f st2 b hsf hnd hf hinv
      cases b with
      | true =>
        simp only [if_true, Option.some.injEq] at h
        subst h
        exact ⟨j1, j2 rfl⟩
      | false =>
        simp only [Bool.false_eq_true, if_false] at h
        have hdone : ∀ g ∈ done, g.file ≠ f.file := by
          intro g hg heq
          rw [hfiles, List.map_append, List.map_cons] at hnd
          have hdisj := (List.nodup_append.1 hnd).2.2
          exact hdisj (List.mem_map_of_mem _ hg) (heq ▸ List.mem_cons_self _ _)
        exact ih (done ++ [f]) (i + 1) st2 st1 (by rw [hfiles]; simp) j1
          (j3 rfl done hdone hrest) h

/-- The invariant of the outer loop of discovery, for files with pairwise distinct paths:
the progress accounting holds and `rest` is the list of the files whose stored best is
below the threshold. -/
theorem outerIteration_progress [FloorRing α]
    (g : List α → List α → Option (IntroInfo α))
    (e : FileSignal α → IntroInfo α → Option (α × α × α))
    (files : List (FileSignal α)) (hnd : (files.map fun x => x.file).Nodup)
    (st st1 : Discovery α)
    (h : outerIteration g e files st = Loop.running st1 ∨
      outerIteration g e files st = Loop.finished st1)
    (hinv : progressInvariant files st)
    (hrest0 : st.rest = files.filter fun x =>
      decide (st.bestMatches x.file < ACCEPTANCE_THRESHOLD α)) :
    progressInvariant files st1 ∧
      st1.rest = files.filter fun x =>
        decide (st1.bestMatches x.file < ACCEPTANCE_THRESHOLD α) := by
  unfold outerIteration at h
  by_cases hrest : st.rest.length > 1
  · simp only [hrest, if_true] at h
    cases hn : nextBestIntro g st.rest (IntroInfo.blank α) st.lastBestIntroIdx with
    | none =>
      rw [hn] at h
      rcases h with h | h <;> exact Loop.noConfusion h
    | some r =>
      obtain ⟨idx, info⟩ := r
      rw [hn] at h
      simp only at h
      by_cases hidx : idx < 0
      · simp only [hidx, if_true] at h
        rcases h with h | h
        · exact Loop.noConfusion h
        · injection h with h
          subst h
          exact ⟨hinv, hrest0⟩
      · simp only [hidx, if_false] at h
        cases hsw : sweep e files info files 0
            { st with badStreak := 0, lastBestIntroIdx := idx, rest := [] } with
        | none =>
          rw [hsw] at h
          rcases h with h | h <;> exact Loop.noConfusion h
        | some st2 =>
          rw [hsw] at h
          rcases h with h | h
          · injection h with h
            subst h
            exact sweep_progress e files info hnd files [] 0
              { st with badStreak := 0, lastBestIntroIdx := idx, rest := [] } _ rfl hinv rfl hsw
          · exact Loop.noConfusion h
  · simp only [hrest, if_false] at h
    rcases h with h | h
    · exact Loop.noConfusion h
    · injection h with h
      subst h
      exact ⟨hinv, hrest0⟩

theorem outerLoop_progress [FloorRing α]
    (g : List α → List α → Option (IntroInfo α))
    (e : FileSignal α → IntroInfo α → Option (α × α × α))
    (files : List (FileSignal α)) (hnd : (files.map fun x => x.file).Nodup) :
    ∀ (fuel : Nat) (st st1 : Discovery α),
      (outerLoop g e files fuel st = Loop.running st1 ∨
        outerLoop g e files fuel st = Loop.finished st1) →
      progressInvariant files st →
      st.rest = files.filter (fun x =>
        decide (st.bestMatches x.file < ACCEPTANCE_THRESHOLD α)) →
      progressInvariant files st1 ∧
        st1.rest = files.filter fun x =>
          decide (st1.bestMatches x.file < ACCEPTANCE_THRESHOLD α) := by
  intro fuel
  induction fuel with
  | zero =>
    intro st st1 h hinv hrest
    simp only [outerLoop] at h
    rcases h with h | h
    · injection h with h
      subst h
      exact ⟨hinv, hrest⟩
    · exact Loop.noConfusion h
  | succ fuel ih =>
    intro st st1 h hinv hrest
    rw [outerLoop] at h
    cases hit : outerIteration g e files st with
    | running st2 =>
      rw [hit] at h
      simp only at h
      obtain ⟨j1, j2⟩ := outerIteration_progress g e files hnd st st2 (Or.inl hit) hinv hrest
      exact ih st2 st1 h j1 j2
    | finished st2 =>
      rw [hit] at h
      simp only at h
      rcases h with h | h
      · exact Loop.noConfusion h
      · injection h with h
        subst h
        exact outerIteration_progress g e files hnd st st2 (Or.inr hit) hinv hrest
    | failed =>
      rw [hit] at h
      rcases h with h | h <;> exact Loop.noConfusion h

theorem progressInvariant_init (files : List (FileSignal α)) :
    progressInvariant files (Discovery.init files) ∧
      (Discovery.init files).rest = files.filter fun x =>
        decide ((Discovery.init files).bestMatches x.file < ACCEPTANCE_THRESHOLD α) := by
  have hT : ¬ (0 : α) ≥ ACCEPTANCE_THRESHOLD α := by
    rw [show ACCEPTANCE_THRESHOLD α = 0.8 from rfl]; norm_num
  refine ⟨⟨?_, ?_, ?_⟩, ?_⟩
  · simp [Discovery.init, hT]
  · intro k
    simp [Discovery.init, hT]
  · intro r hr
    simp [Discovery.init] at hr
  · simp [Discovery.init, not_le.1 hT]

theorem run_finished [FloorRing α]
    (g : List α → List α → Option (IntroInfo α))
    (e : FileSignal α → IntroInfo α → Option (α × α × α))
    (files : List (FileSignal α)) (fuel : Nat) (results : List (FindSoundResult α))
    (h : FindSoundTask.run g e files fuel = Loop.finished results) :
    ∃ st, outerLoop g e files fuel (Discovery.init files) = Loop.finished st ∧
      results = st.emitted ++ st.rest.map fun _ => progressOnly α := by
  unfold FindSoundTask.run at h
  cases hl : outerLoop g e files fuel (Discovery.init files) with
  | finished st =>
    rw [hl] at h
    injection h with h
    exact ⟨st, rfl, h.symm⟩
  | running st => rw [hl] at h; exact Loop.noConfusion h
  | failed => rw [hl] at h; exact Loop.noConfusion h

theorem progressTicks_eq (results : List (FindSoundResult α)) :
    progressTicks results = results.countP fun r => r.isProgress := by
  unfold progressTicks
  rw [List.countP_map]
  rfl

/-- Induction over discovery: a property of the stored bests and the emitted results that
every pass through the body of the per-file loop preserves holds after any number of
passes of the outer loop. -/
theorem outerLoop_induction [FloorRing α]
    (g : List α → List α → Option (IntroInfo α))
    (e : FileSignal α → IntroInfo α → Option (α × α × α))
    (files : List (FileSignal α)) (P : Discovery α → Prop)
    (hframe : ∀ (st : Discovery α) (b : Nat) (idx : Int) (rest : List (FileSignal α)),
      P st → P { st with badStreak := b, lastBestIntroIdx := idx, rest := rest })
    (hstep : ∀ info st i f st1 b, sweepFile e files info st i f = some (st1, b) →
      P st → P st1) :
    ∀ (fuel : Nat) (st st1 : Discovery α),
      (outerLoop g e files fuel st = Loop.running st1 ∨
        outerLoop g e files fuel st = Loop.finished st1) → P st → P st1 := by
  have hsweep : ∀ info (todo : List (FileSignal α)) (i : Nat) (st st1 : Discovery α),
      sweep e files info todo i st = some st1 → P st → P st1 := by
    intro info todo
    induction todo with
    | nil =>
      intro i st st1 h hP
      simp only [sweep, Option.some.injEq] at h
      subst h
      exact hP
    | cons f more ih =>
      intro i st st1 h hP
      rw [sweep] at h
      cases hsf : sweepFile e files info st i f with
      | none => rw [hsf] at h; exact Option.noConfusion h
      | some r =>
        obtain ⟨st2, b⟩ := r
        rw [hsf, Option.some_bind] at h
        have j1 := hstep info st i f st2 b hsf hP
        cases b with
        | true =>
          simp only [if_true, Option.some.injEq] at h
          subst h
          exact j1
        | false =>
          simp only [Bool.false_eq_true, if_false] at h
          exact ih (i + 1) st2 st1 h j1
  have hiter : ∀ st st1 : Discovery α,
      (outerIteration g e files st = Loop.running st1 ∨
        outerIteration g e files st = Loop.finished st1) → P st → P st1 := by
    intro st st1 h hP
    unfold outerIteration at h
    by_cases hrest : st.rest.length > 1
    · simp only [hrest, if_true] at h
      cases hn : nextBestIntro g st.rest (IntroInfo.blank α) st.lastBestIntroIdx with
      | none =>
        rw [hn] at h
        rcases h with h | h <;> exact Loop.noConfusion h
      | some r =>
        obtain ⟨idx, info⟩ := r
        rw [hn] at h
        simp only at h
        by_cases hidx : idx < 0
        · simp only [hidx, if_true] at h
          rcases h with h | h
          · exact Loop.noConfusion h
          · injection h with h
            subst h
            exact hframe st 0 idx st.rest hP
        · simp only [hidx, if_false] at h
          cases hsw : sweep e files info files 0
              { st with badStreak := 0, lastBestIntroIdx := idx, rest := [] } with
          | none =>
            rw [hsw] at h
            rcases h with h | h <;> exact Loop.noConfusion h
          | some st2 =>
            rw [hsw] at h
            rcases h with h | h
            · injection h with h
              subst h
              exact hsweep info files 0 _ _ hsw (hframe st 0 idx [] hP)
            · exact Loop.noConfusion h
    · simp only [hrest, if_false] at h
      rcases h with h | h
      · exact Loop.noConfusion h
      · injection h with h
        subst h
        exact hP
  intro fuel
  induction fuel with
  | zero =>
    intro st st1 h hP
    simp only [outerLoop] at h
    rcases h with h | h
    · injection h with h
      subst h
      exact hP
    · exact Loop.noConfusion h
  | succ fuel ih =>
    intro st st1 h hP
    rw [outerLoop] at h
    cases hit : outerIteration g e files st with
    | running st2 =>
      rw [hit] at h
      simp only at h
      exact ih st2 st1 h (hiter st st2 (Or.inl hit) hP)
    | finished st2 =>
      rw [hit] at h
      simp only at h
      rcases h with h | h
      · exact Loop.noConfusion h
      · injection h with h
        subst h
        exact hiter st st2 (Or.inr hit) hP
    | failed =>
      rw [hit] at h
      rcases h with h | h <;> exact Loop.noConfusion h

theorem sweepFile_flag (e : FileSignal α → IntroInfo α → Option (α × α × α))
    (files : List (FileSignal α)) (info : IntroInfo α) (st : Discovery α) (i : Nat)
    (f : FileSignal α) (st1 : Discovery α) (b : Bool)
    (h : sweepFile e files info st i f = some (st1, b)) (hinv : flagInvariant st) :
    flagInvariant st1 := by
  obtain ⟨hb, hflag⟩ := hinv
  obtain ⟨j1, -, -⟩ := sweepFile_inv e files info st i f st1 b h hb
  refine ⟨j1, ?_⟩
  rcases sweepFile_cases e files info st i f st1 b h with
    ⟨-, rfl, -⟩ | ⟨-, ev, seedFile, r, -, -, hrf, -, hrm, -, hrp, -, hem, -⟩
  · exact hflag
  · intro k x hx
    rw [hem] at hx ⊢
    by_cases hk : k < st.emitted.length
    · rw [List.getElem?_append_left hk] at hx
      rw [List.take_append_of_le_length (le_of_lt hk)]
      exact hflag k x hx
    · have hk2 : k = st.emitted.length := by
        by_contra hne
        rw [List.getElem?_eq_none (by simp; omega)] at hx
        exact Option.noConfusion hx
      subst hk2
      simp only [List.getElem?_concat_length, Option.some.injEq] at hx
      subst hx
      rw [List.take_left' rfl, hrp, hrf, hrm, hb.1 f.file]

theorem flagInvariant_init (files : List (FileSignal α)) :
    flagInvariant (Discovery.init files) := by
  refine ⟨bestInvariant_init files, ?_⟩
  intro k r h
  simp [Discovery.init] at h

theorem outerLoop_flag [FloorRing α]
    (g : List α → List α → Option (IntroInfo α))
    (e : FileSignal α → IntroInfo α → Option (α × α × α))
    (files : List (FileSignal α)) (fuel : Nat) (st : Discovery α)
    (h : outerLoop g e files fuel (Discovery.init files) = Loop.finished st) :
    flagInvariant st :=
  outerLoop_induction g e files flagInvariant (fun _ _ _ _ hP => hP)
    (fun info st i f st1 b hsf hP => sweepFile_flag e files info st i f st1 b hsf hP)
    fuel _ st (Or.inr h) (flagInvariant_init files)

/-! ## C28: the progress accounting of discovery -/

theorem outerIteration_scored (sc : String → ℚ) (files : List (FileSignal ℚ))
    (names : List String) (h2 : 2 ≤ names.length)
    (bm : String → ℚ) (b : Nat) (em : List (FindSoundResult ℚ)) (st1 : Discovery ℚ)
    (hsw : ∀ info, sweep (scoreByFile sc) files info files 0
      (Discovery.mk [] bm 0 0 em) = some st1) :
    outerIteration alwaysSeed (scoreByFile sc) files
      (Discovery.mk (names.map fileNamed) bm b 0 em) = Loop.running st1 := by
  obtain ⟨intro, hn⟩ := nextBestIntro_alwaysSeed names 0 (by omega) (IntroInfo.blank ℚ)
  have hn2 : nextBestIntro alwaysSeed (names.map fileNamed) (IntroInfo.blank ℚ) 0 =
      some (0, { seedInfo with intro := some intro }) := hn
  unfold outerIteration
  have hlen : (names.map fileNamed).length > 1 := by simp; omega
  simp only [hlen, if_true]
  rw [hn2]
  simp only [lt_self_iff_false, if_false]
  rw [hsw]

theorem outerLoop_finish [FloorRing α]
    (g : List α → List α → Option (IntroInfo α))
    (e : FileSignal α → IntroInfo α → Option (α × α × α))
    (files : List (FileSignal α)) (n : Nat) (st st1 : Discovery α)
    (h : outerIteration g e files st = Loop.finished st1) :
    outerLoop g e files (n + 1) st = Loop.finished st1 := by
  rw [outerLoop, h]

theorem run_of_finished [FloorRing α]
    (g : List α → List α → Option (IntroInfo α))
    (e : FileSignal α → IntroInfo α → Option (α × α × α))
    (files : List (FileSignal α)) (fuel : Nat) (st : Discovery α)
    (h : outerLoop g e files fuel (Discovery.init files) = Loop.finished st) :
    FindSoundTask.run g e files fuel =
      Loop.finished (st.emitted ++ st.rest.map fun _ => progressOnly α) := by
  unfold FindSoundTask.run
  rw [h]

theorem sweep_pass (info : IntroInfo ℚ) :
    sweep (scoreByFile passScore) passFiles info passFiles 0
        (Discovery.mk [] (fun _ => 0) 0 0 []) =
      some (Discovery.mk []
        (fun k => if k = "B" then 0.85 else if k = "A" then 0.85 else 0) 0 0 passResults) := by
  have hseed : passFiles[(0 : Int).toNat]? = some (fileNamed "A") := rfl
  have hne : ¬ ("B" : String) = "A" := by decide
  have hA : sweepFile (scoreByFile passScore) passFiles info
      (Discovery.mk [] (fun _ => 0) 0 0 []) 0 (fileNamed "A") =
      some (Discovery.mk [] (fun k => if k = "A" then 0.85 else 0) 0 0
        [sourceResult "A" 0 0.85 true true true], false) := by
    rw [sweepFile_scored passScore passFiles info _ 0 (fileNamed "A") (fileNamed "A")
      (by norm_num) hseed (by norm_num [passScore])]
    norm_num [passScore, fileNamed, sourceResult]
  have hB : sweepFile (scoreByFile passScore) passFiles info
      (Discovery.mk [] (fun k => if k = "A" then 0.85 else 0) 0 0
        [sourceResult "A" 0 0.85 true true true]) 1 (fileNamed "B") =
      some (Discovery.mk []
        (fun k => if k = "B" then 0.85 else if k = "A" then 0.85 else 0) 0 0 passResults,
        false) := by
    rw [sweepFile_scored passScore passFiles info _ 1 (fileNamed "B") (fileNamed "A")
      (by norm_num [fileNamed, hne]) hseed (by norm_num [passScore])]
    norm_num [passScore, fileNamed, sourceResult, passResults, hne]
  show sweep (scoreByFile passScore) passFiles info [fileNamed "A", fileNamed "B"] 0 _ = _
  rw [sweep_cons_continue _ _ _ _ _ _ _ _ hA, sweep_cons_continue _ _ _ _ _ _ _ _ hB]
  rfl

theorem run_pass :
    FindSoundTask.run alwaysSeed (scoreByFile passScore) passFiles 2 =
      Loop.finished passResults := by
  have h1 : outerIteration alwaysSeed (scoreByFile passScore) passFiles
      (Discovery.init passFiles) = Loop.running (Discovery.mk []
        (fun k => if k = "B" then 0.85 else if k = "A" then 0.85 else 0) 0 0 passResults) :=
    outerIteration_scored passScore passFiles ["A", "B"] (by decide) (fun _ => 0) 0 [] _
      sweep_pass
  have h2 : outerIteration alwaysSeed (scoreByFile passScore) passFiles (Discovery.mk []
        (fun k => if k = "B" then 0.85 else if k = "A" then 0.85 else 0) 0 0 passResults) =
      Loop.finished (Discovery.mk []
        (fun k => if k = "B" then 0.85 else if k = "A" then 0.85 else 0) 0 0 passResults) := by
    unfold outerIteration
    rw [if_neg (by simp)]
  have h3 : outerLoop alwaysSeed (scoreByFile passScore) passFiles 2
      (Discovery.init passFiles) = Loop.finished (Discovery.mk []
        (fun k => if k = "B" then 0.85 else if k = "A" then 0.85 else 0) 0 0 passResults) := by
    rw [outerLoop_step _ _ _ 1 _ _ h1, outerLoop_finish _ _ _ 0 _ _ h2]
  have h4 := run_of_finished _ _ _ _ _ h3
  simp only [List.map_nil, List.append_nil] at h4
  exact h4

theorem countP_file_eq_one (files : List (FileSignal α)) (f : FileSignal α)
    (hnd : (files.map fun x => x.file).Nodup) (hf : f ∈ files) :
    files.countP (fun x => decide (x.file = f.file)) = 1 := by
  induction files with
  | nil => exact absurd hf (List.not_mem_nil f)
  | cons x xs ih =>
    rw [List.map_cons, List.nodup_cons] at hnd
    rw [List.countP_cons]
    rcases List.mem_cons.1 hf with rfl | hmem
    · have hz : xs.countP (fun x => decide (x.file = f.file)) = 0 := by
        rw [List.countP_eq_zero]
        intro y hy
        have hne : y.file ≠ f.file := fun h => hnd.1 (h ▸ List.mem_map_of_mem _ hy)
        simp [hne]
      rw [hz]
      simp
    · have hne : x.file ≠ f.file := fun h => hnd.1 (h ▸ List.mem_map_of_mem _ hmem)
      rw [ih hnd.2 hmem]
      simp [hne]

/-- C28: for every list of files with pairwise distinct paths and every run of discovery
that terminates, the emitted results with `isProgress = true` are exactly as many as the
input files, which is the number of `sendProgress` emissions and the count returned by
`FindSound::run`.  The results are the sweep results followed by one progress-only result
(`isProgress = true`, `isBetter = false`) per file left in `rest`; `rest` holds exactly
the files whose stored best stayed below `0.8`, once each; a file whose stored best
reached `0.8` has exactly one sweep result with `isProgress` and is not in `rest`, any
other file has none; and a sweep result with `isProgress` was emitted when the stored best
of its file was below `0.8`, has a score `≥ 0.8` and `isBetter = true`. -/
theorem progress_count_is_file_count [FloorRing α]
    (g : List α → List α → Option (IntroInfo α))
    (e : FileSignal α → IntroInfo α → Option (α × α × α))
    (files : List (FileSignal α)) (fuel : Nat) (results : List (FindSoundResult α))
    (hnd : (files.map fun x => x.file).Nodup)
    (h : FindSoundTask.run g e files fuel = Loop.finished results) :
    results.countP (fun r => r.isProgress) = files.length ∧
    progressTicks results = FindSound.run files ∧
    ∃ st, outerLoop g e files fuel (Discovery.init files) = Loop.finished st ∧
      results = st.emitted ++ st.rest.map (fun _ => progressOnly α) ∧
      st.rest = files.filter (fun x => decide (st.bestMatches x.file < 0.8)) ∧
      (∀ f ∈ files,
        (st.bestMatches f.file ≥ 0.8 ∧
          st.emitted.countP (fun r => r.isProgress && decide (r.file = f.file)) = 1 ∧
          st.rest.countP (fun x => decide (x.file = f.file)) = 0) ∨
        (st.bestMatches f.file < 0.8 ∧
          st.emitted.countP (fun r => r.isProgress && decide (r.file = f.file)) = 0 ∧
          st.rest.countP (fun x => decide (x.file = f.file)) = 1)) ∧
      (∀ k r, st.emitted[k]? = some r → r.isProgress = true →
        bestSoFar r.file (st.emitted.take k) < 0.8 ∧ r.introInfo.matchPercent ≥ 0.8 ∧
          r.isBetter = true) ∧
      (∀ r ∈ st.rest.map (fun _ => progressOnly α),
        r.isProgress = true ∧ r.isBetter = false) := by
  have hT : ACCEPTANCE_THRESHOLD α = 0.8 := rfl
  obtain ⟨st, hloop, hres⟩ := run_finished g e files fuel results h
  obtain ⟨i0, hrest0⟩ := progressInvariant_init files
  obtain ⟨⟨i1, i2, i3⟩, hrest⟩ := outerLoop_progress g e files hnd fuel _ st (Or.inr hloop)
    i0 hrest0
  obtain ⟨-, hflag⟩ := outerLoop_flag g e files fuel st hloop
  have hcount : results.countP (fun r => r.isProgress) = files.length := by
    rw [hres, List.countP_append, i1, hrest, List.countP_map]
    have hall : ∀ l : List (FileSignal α),
        l.countP ((fun r : FindSoundResult α => r.isProgress) ∘ fun _ => progressOnly α) =
          l.length := by
      intro l
      rw [List.countP_eq_length]
      intro x _
      rfl
    rw [hall, ← List.countP_eq_length_filter,
      List.length_eq_countP_add_countP
        (fun f : FileSignal α => decide (st.bestMatches f.file ≥ ACCEPTANCE_THRESHOLD α)) files]
    congr 1
    apply List.countP_congr
    intro x _
    simp
  refine ⟨hcount, by rw [progressTicks_eq, hcount]; rfl, st, hloop, hres, hrest, ?_, ?_, ?_⟩
  · intro f hf
    have h1 := countP_file_eq_one files f hnd hf
    by_cases hb : st.bestMatches f.file ≥ ACCEPTANCE_THRESHOLD α
    · left
      refine ⟨hb, by rw [i2 f.file, if_pos hb], ?_⟩
      rw [hrest, List.countP_eq_zero]
      intro x hx
      rw [List.mem_filter] at hx
      intro hxf
      simp only [decide_eq_true_eq] at hx hxf
      rw [hxf] at hx
      exact absurd hb (not_le.2 hx.2)
    · right
      refine ⟨not_le.1 hb, by rw [i2 f.file, if_neg hb], ?_⟩
      rw [hrest, List.countP_filter, ← h1]
      apply List.countP_congr
      intro x _
      simp only [Bool.and_eq_true, decide_eq_true_eq]
      constructor
      · intro hx; exact hx.1
      · intro hx; exact ⟨hx, by rw [hx]; exact not_le.1 hb⟩
  · intro k r hk hp
    have hf := hflag k r hk
    rw [hp] at hf
    have hd := of_decide_eq_true hf.symm
    exact ⟨hd.1, hd.2, (i3 r (List.getElem?_mem hk) hp).1⟩
  · intro r hr
    simp only [List.mem_map] at hr
    obtain ⟨_, _, rfl⟩ := hr
    exact ⟨rfl, rfl⟩

/-- C28 applied to two files `A`, `B` that both score `0.85` against the seed cut from the
pair `(A, B)`: the run finishes after one sweep with two results, both with
`isProgress`. -/
theorem progress_count_is_file_count_witness :
    (passFiles.map fun x => x.file).Nodup ∧
    FindSoundTask.run alwaysSeed (scoreByFile passScore) passFiles 2 =
      Loop.finished passResults ∧
    passResults.countP (fun r => r.isProgress) = passFiles.length ∧
    progressTicks passResults = FindSound.run passFiles :=
  have hnd : (passFiles.map fun x => x.file).Nodup := by decide
  ⟨hnd, run_pass,
    (progress_count_is_file_count alwaysSeed (scoreByFile passScore) passFiles 2 passResults
      hnd run_pass).1,
    (progress_count_is_file_count alwaysSeed (scoreByFile passScore) passFiles 2 passResults
      hnd run_pass).2.1⟩

/-! ## C29: the range of `howCloseAreSignals` -/

theorem sum_range_getD (f : α → α) (l : List α) :
    ∑ j in range l.length, f (l.getD j 0) = (l.map f).sum := by
  induction l with
  | nil => simp
  | cons x xs ih =>
    rw [List.length_cons, Finset.sum_range_succ', List.map_cons, List.sum_cons, ← ih]
    simp [add_comm]

theorem dot_self (x : List α) :
    dot x x = ∑ j in range x.length, x.getD j 0 * x.getD j 0 := by
  unfold dot
  rw [List.zipWith_same, sum_range_getD (fun v => v * v)]

/-- A non-constant signal has positive variance sum `Σ (x - mean)²`. -/
theorem variance_pos (s : List α) (h : nonConstant s) :
    0 < (s.map fun x => (x - mean s) * (x - mean s)).sum := by
  obtain ⟨x, hx, y, hy, hxy⟩ := h
  have hex : ∃ z ∈ s, z ≠ mean s := by
    by_cases h1 : x = mean s
    · exact ⟨y, hy, fun h2 => hxy (h1.trans h2.symm)⟩
    · exact ⟨x, hx, h1⟩
  obtain ⟨z, hz, hzm⟩ := hex
  rw [← sum_range_getD (fun x => (x - mean s) * (x - mean s))]
  obtain ⟨j, hj, hjz⟩ := List.getElem_of_mem hz
  apply Finset.sum_pos'
  · intro i _
    exact mul_self_nonneg _
  · refine ⟨j, Finset.mem_range.2 hj, ?_⟩
    rw [List.getD_eq_getElem _ _ hj, hjz]
    exact mul_self_pos.2 (sub_ne_zero.2 hzm)

/-- The squared norms of the normalised copies of `howCloseAreSignals`: `1 / N` for the
first and `N` for the second (`N` the size, the truncation being non-constant). -/
theorem normalized_norms (sqrtf : α → α)
    (hsq : ∀ x, 0 ≤ x → 0 ≤ sqrtf x ∧ sqrtf x * sqrtf x = x) (data : List α) (N : Nat)
    (hN : N ≤ data.length) (hnc : nonConstant (data.take N)) :
    dot (normalizedA sqrtf data N) (normalizedA sqrtf data N) = 1 / (N : α) ∧
    dot (normalizedB sqrtf data N) (normalizedB sqrtf data N) = (N : α) := by
  have hlen : (data.take N).length = N := by simp [hN]
  have hN2 := nonConstant_length _ hnc
  rw [hlen] at hN2
  have hV := variance_pos _ hnc
  unfold normalizedA normalizedB
  simp only []
  generalize data.take N = a at *
  have hNpos : (0 : α) < (N : α) := by exact_mod_cast (by omega : 0 < N)
  have hdot : dot (subScalar a (mean a)) (subScalar a (mean a)) =
      (a.map fun x => (x - mean a) * (x - mean a)).sum := by
    rw [dot_subScalar, List.zipWith_same]
  obtain ⟨-, hs2⟩ := hsq ((a.map fun x => (x - mean a) * (x - mean a)).sum / (N : α))
    (div_nonneg (le_of_lt hV) (le_of_lt hNpos))
  rw [dot_divScalar, dot_divScalar, hdot, std_subScalar_mean, hlen]
  generalize (a.map fun x => (x - mean a) * (x - mean a)).sum = V at *
  generalize sqrtf (V / (N : α)) = σ at *
  have hVne : V ≠ 0 := ne_of_gt hV
  have hNne : (N : α) ≠ 0 := ne_of_gt hNpos
  constructor
  · have e : σ * (N : α) * (σ * (N : α)) = (σ * σ) * ((N : α) * (N : α)) := by ring
    rw [e, hs2]
    field_simp
    ring
  · rw [hs2]
    field_simp

/-- Shifting a signal cannot increase its squared norm: the samples read past the end
are zero. -/
theorem shifted_sq_le (a : List α) (c : Nat) :
    ∑ j in range a.length, sigAt a ((c : Int) + (j : Int)) ^ 2 ≤
      ∑ i in range a.length, a.getD i 0 ^ 2 := by
  have hsig : ∀ j : Nat, sigAt a ((c : Int) + (j : Int)) = a.getD (c + j) 0 := by
    intro j
    unfold sigAt
    rw [if_pos (by omega)]
    congr 1
  simp only [hsig]
  have h1 : ∑ j in range a.length, a.getD (c + j) 0 ^ 2 =
      ∑ i in Finset.Ico c (c + a.length), a.getD i 0 ^ 2 := by
    rw [Finset.sum_Ico_eq_sum_range, Nat.add_sub_cancel_left]
  have h2 : ∑ i in Finset.Ico c (c + a.length), a.getD i 0 ^ 2 ≤
      ∑ i in range (c + a.length), a.getD i 0 ^ 2 := by
    apply Finset.sum_le_sum_of_subset_of_nonneg
    · intro i hi
      rw [Finset.mem_Ico] at hi
      exact Finset.mem_range.2 hi.2
    · intro i _ _
      exact sq_nonneg _
  have h3 : ∑ i in range a.length, a.getD i 0 ^ 2 =
      ∑ i in range (c + a.length), a.getD i 0 ^ 2 := by
    apply Finset.sum_subset
    · intro i hi
      rw [Finset.mem_range] at hi ⊢
      omega
    · intro i _ hi
      rw [Finset.mem_range] at hi
      rw [List.getD_eq_default _ _ (by omega)]
      simp
  rw [h1, h3]
  exact h2

/-- Cauchy–Schwarz for the lagged dot products: with squared norms `1 / N` and `N`, every
correlation at a non-negative lag is at most `1`. -/
theorem directXcorr_le_one (a b : List α) (N : Nat) (hN : 0 < N) (hla : a.length = N)
    (hlb : b.length = N) (ha : dot a a = 1 / (N : α)) (hb : dot b b = (N : α)) (c : Nat) :
    directXcorr a b (c : Int) ≤ 1 := by
  have hNpos : (0 : α) < (N : α) := by exact_mod_cast hN
  have hcs := Finset.sum_mul_sq_le_sq_mul_sq (range b.length) (fun j => b.getD j 0)
    (fun j => sigAt a ((c : Int) + (j : Int)))
  have hbn : ∑ j in range b.length, b.getD j 0 ^ 2 = (N : α) := by
    rw [← hb, dot_self]
    apply Finset.sum_congr rfl
    intro j _
    ring
  have han : ∑ j in range b.length, sigAt a ((c : Int) + (j : Int)) ^ 2 ≤ 1 / (N : α) := by
    rw [hlb]
    have hshift := shifted_sq_le a c
    rw [hla] at hshift
    refine le_trans hshift ?_
    rw [← ha, dot_self, hla]
    apply le_of_eq
    apply Finset.sum_congr rfl
    intro j _
    ring
  have hsq : directXcorr a b (c : Int) ^ 2 ≤ 1 := by
    unfold directXcorr
    refine le_trans hcs ?_
    rw [hbn]
    calc (N : α) * ∑ j in range b.length, sigAt a ((c : Int) + (j : Int)) ^ 2
        ≤ (N : α) * (1 / (N : α)) := mul_le_mul_of_nonneg_left han (le_of_lt hNpos)
      _ = 1 := by field_simp
  by_contra hgt
  have hg : 1 < directXcorr a b (c : Int) := not_le.1 hgt
  nlinarith

/-- The value of `bestPatchPosition` is `0` or one of the correlations at a positive
lag. -/
theorem bestPatchPosition_value (source patch : List α) (h1 : 1 ≤ patch.length)
    (h2 : patch.length ≤ source.length) :
    ∃ res, bestPatchPosition source patch = some res ∧ 0 ≤ res.value ∧
      (res.value = 0 ∨ ∃ c : Nat, res.value = directXcorr source patch (c : Int)) := by
  obtain ⟨c, r, res, -, -, hlen, hval, hres, -, h0, -, hcase⟩ :=
    bestPatchPosition_char source patch h1 h2
  refine ⟨res, hres, h0, ?_⟩
  rcases hcase with ⟨hz, -, -⟩ | ⟨-, hlt, hat, -⟩
  · exact Or.inl hz
  · right
    rw [hlen] at hlt
    refine ⟨res.sampleIdx + 1, ?_⟩
    rw [← hat, hval _ hlt]
    congr 1
    omega

/-- C29: for all signals `one`, `two` whose truncations to the common length
`N = min(len one, len two)` are both non-constant (so `N ≥ 2`), and `sqrtf` a square root
on the non-negative elements (exact arithmetic), `howCloseAreSignals` returns a value in
`[0, 1]`: the normalised copies have squared norms `1 / N` and `N`, every correlation of
the two at a non-negative lag is at most `1` (Cauchy–Schwarz), and the value is `0` or one
of these correlations. -/
theorem howCloseAreSignals_in_unit_interval (sqrtf : α → α)
    (hsq : ∀ x, 0 ≤ x → 0 ≤ sqrtf x ∧ sqrtf x * sqrtf x = x) (one two : List α)
    (ha : nonConstant (one.take (min one.length two.length)))
    (hb : nonConstant (two.take (min one.length two.length))) :
    2 ≤ min one.length two.length ∧
    (∃ res, howCloseAreSignals sqrtf one two = some res ∧ 0 ≤ res.value ∧ res.value ≤ 1) ∧
    dot (normalizedA sqrtf one (min one.length two.length))
        (normalizedA sqrtf one (min one.length two.length)) =
      1 / ((min one.length two.length : Nat) : α) ∧
    dot (normalizedB sqrtf two (min one.length two.length))
        (normalizedB sqrtf two (min one.length two.length)) =
      ((min one.length two.length : Nat) : α) ∧
    ∀ c : Nat,
      directXcorr (normalizedA sqrtf one (min one.length two.length))
        (normalizedB sqrtf two (min one.length two.length)) (c : Int) ≤ 1 ∧
      directXcorr (normalizedA sqrtf two (min one.length two.length))
        (normalizedB sqrtf one (min one.length two.length)) (c : Int) ≤ 1 := by
  have hN2 : 2 ≤ min one.length two.length := by
    have := nonConstant_length _ ha
    simpa using this
  have hle1 := min_le_left one.length two.length
  have hle2 := min_le_right one.length two.length
  obtain ⟨a1, -⟩ := normalized_norms sqrtf hsq one _ hle1 ha
  obtain ⟨-, b1⟩ := normalized_norms sqrtf hsq one _ hle1 ha
  obtain ⟨a2, -⟩ := normalized_norms sqrtf hsq two _ hle2 hb
  obtain ⟨-, b2⟩ := normalized_norms sqrtf hsq two _ hle2 hb
  have hl1 := normalizedA_length sqrtf one _ hle1
  have hl2 := normalizedB_length sqrtf two _ hle2
  have hl3 := normalizedA_length sqrtf two _ hle2
  have hl4 := normalizedB_length sqrtf one _ hle1
  have hAB : ∀ c : Nat,
      directXcorr (normalizedA sqrtf one (min one.length two.length))
        (normalizedB sqrtf two (min one.length two.length)) (c : Int) ≤ 1 :=
    directXcorr_le_one _ _ _ (by omega) hl1 hl2 a1 b2
  have hBA : ∀ c : Nat,
      directXcorr (normalizedA sqrtf two (min one.length two.length))
        (normalizedB sqrtf one (min one.length two.length)) (c : Int) ≤ 1 :=
    directXcorr_le_one _ _ _ (by omega) hl3 hl4 a2 b1
  refine ⟨hN2, ?_, a1, b2, fun c => ⟨hAB c, hBA c⟩⟩
  obtain ⟨resA, hA, hA0, hAv⟩ := bestPatchPosition_value
    (normalizedA sqrtf one (min one.length two.length))
    (normalizedB sqrtf two (min one.length two.length)) (by rw [hl2]; omega)
    (by rw [hl1, hl2])
  obtain ⟨resB, hB, hB0, hBv⟩ := bestPatchPosition_value
    (normalizedA sqrtf two (min one.length two.length))
    (normalizedB sqrtf one (min one.length two.length)) (by rw [hl4]; omega)
    (by rw [hl3, hl4])
  have hA1 : resA.value ≤ 1 := by
    rcases hAv with h | ⟨c, h⟩
    · rw [h]; exact zero_le_one
    · rw [h]; exact hAB c
  have hB1 : resB.value ≤ 1 := by
    rcases hBv with h | ⟨c, h⟩
    · rw [h]; exact zero_le_one
    · rw [h]; exact hBA c
  refine ⟨if resA.value > resB.value then resA else resB, ?_, ?_, ?_⟩
  · unfold howCloseAreSignals
    simp only [hA, hB, Option.some_bind]
  · split
    · exact hA0
    · exact hB0
  · split
    · exact hA1
    · exact hB1

/-- C29 applied over the reals to `one = [1, -1]`, `two = [1, 2, 4]`. -/
theorem howCloseAreSignals_in_unit_interval_witness :
    (∀ x : ℝ, 0 ≤ x → 0 ≤ Real.sqrt x ∧ Real.sqrt x * Real.sqrt x = x) ∧
    nonConstant (([1, -1] : List ℝ).take
      (min ([1, -1] : List ℝ).length ([1, 2, 4] : List ℝ).length)) ∧
    nonConstant (([1, 2, 4] : List ℝ).take
      (min ([1, -1] : List ℝ).length ([1, 2, 4] : List ℝ).length)) ∧
    ∃ res, howCloseAreSignals Real.sqrt ([1, -1] : List ℝ) [1, 2, 4] = some res ∧
      0 ≤ res.value ∧ res.value ≤ 1 :=
  have hsq : ∀ x : ℝ, 0 ≤ x → 0 ≤ Real.sqrt x ∧ Real.sqrt x * Real.sqrt x = x :=
    fun x hx => ⟨Real.sqrt_nonneg x, Real.mul_self_sqrt hx⟩
  have ha : nonConstant (([1, -1] : List ℝ).take
      (min ([1, -1] : List ℝ).length ([1, 2, 4] : List ℝ).length)) :=
    ⟨1, by simp, -1, by simp, by norm_num⟩
  have hb : nonConstant (([1, 2, 4] : List ℝ).take
      (min ([1, -1] : List ℝ).length ([1, 2, 4] : List ℝ).length)) :=
    ⟨1, by simp, 2, by simp, by norm_num⟩
  ⟨hsq, ha, hb,
    (howCloseAreSignals_in_unit_interval Real.sqrt hsq [1, -1] [1, 2, 4] ha hb).2.1⟩

/-! ## C30: the alignment of `fileSignals` with `filepaths` -/

/-- C30 (code at the failing input): `addFiles(["a"])`, the load result of `a` is
received, `addFiles(["b"])`, the load result of `b` is received.  The second `addFiles`
puts `b` in front of `a` in `filepaths` but appends the new slot at the end of
`fileSignals`, so the signal of `b` is stored over the signal of `a`: in the end
`filepaths = [b, a]` and `fileSignals = [signal of b, empty slot]`; index `1` names `a`
in the path list and an empty path in the signal list, and the loaded signal of `a` is
gone.  When both `addFiles` calls come before the load results the lists are aligned. -/
theorem load_then_add_misaligns :
    (["a", "b"] : List String).Nodup ∧
    FindSound.handleAll (⟨[], []⟩ : FindSound ℚ)
        [LoadEvent.addFiles ["a"], LoadEvent.receiveSoundData ⟨[1], "a"⟩,
          LoadEvent.addFiles ["b"], LoadEvent.receiveSoundData ⟨[2], "b"⟩] =
      some ⟨["b", "a"], [⟨[2], "b"⟩, FileSignal.blank ℚ]⟩ ∧
    (["b", "a"] : List String)[1]? = some "a" ∧
    (([⟨[2], "b"⟩, FileSignal.blank ℚ] : List (FileSignal ℚ))[1]?.map fun x => x.file) =
      some "" ∧
    (∀ x ∈ ([⟨[2], "b"⟩, FileSignal.blank ℚ] : List (FileSignal ℚ)), x.file ≠ "a") ∧
    FindSound.handleAll (⟨[], []⟩ : FindSound ℚ)
        [LoadEvent.addFiles ["a"], LoadEvent.addFiles ["b"],
          LoadEvent.receiveSoundData ⟨[1], "a"⟩, LoadEvent.receiveSoundData ⟨[2], "b"⟩] =
      some ⟨["b", "a"], [⟨[2], "b"⟩, ⟨[1], "a"⟩]⟩ := by
  refine ⟨by decide, rfl, rfl, rfl, ?_, rfl⟩
  intro x hx
  simp only [List.mem_cons, List.mem_singleton, List.not_mem_nil, or_false] at hx
  rcases hx with rfl | rfl
  · decide
  · decide

end NoMoreIntros
